import Mathlib

/-!
# NDEF over Mifare tags: record codec and tag-memory drivers

A shallow embedding of `NdefRecord.cpp`, `MifareClassic.cpp`,
`MifareUltralight.cpp` and `NfcTag.cpp`.

Conventions of the embedding:

* a byte is a natural number below 256; every store of a wider value into a
  byte is written with an explicit `% 256`;
* `unsigned int` / `int` are 32 bits wide, `uint16_t` is 16 bits wide; the
  arithmetic that can leave the range carries an explicit wrap;
* a caller-supplied buffer is a `List Nat`; a store through a pointer is
  `List.set` at the offset the pointer has reached, and the stores of a
  function are also available as a list of `(offset, value)` pairs in program
  order;
* a read `data[k]` is `List.getD data k 0`.
-/

namespace NDEF

/-! ## Memory primitives -/

/-- The stores of `memcpy(dst, src, n)`: byte `k` of `src` goes to offset
`dst + k`, for `k = 0 .. n-1`. -/
def memcpy (dst : Nat) (src : List Nat) (n : Nat) : List (Nat × Nat) :=
  (List.range n).map fun k => (dst + k, src.getD k 0)

/-- Perform a list of stores on a buffer, in order. -/
def applyStores (data : List Nat) (stores : List (Nat × Nat)) : List Nat :=
  stores.foldl (fun d s => d.set s.1 s.2) data

/-- Wrap to an `unsigned int` (32 bits). -/
def toUInt32 (n : Nat) : Nat := n % 2 ^ 32

/-- Wrap to a `uint16_t`. -/
def toUInt16 (n : Nat) : Nat := n % 2 ^ 16

/-- Wrap to a `byte` / `uint8_t`. -/
def toByte (n : Nat) : Nat := n % 256

/-- Wrap to an `int` (32 bits, two's complement). -/
def toInt32 (z : Int) : Int := (z + 2 ^ 31) % 2 ^ 32 - 2 ^ 31

/-! ## NdefRecord -/

/-- Modelled from the spec: the enumeration `NdefRecord::TNF` is declared in
`NdefRecord.h`, which is not among the sources. The eight names are the ones
`NdefRecord::print` switches over; the spec calls the TNF a 3-bit field, and
its scenarios fix `Empty = 0` (record header `D0`) and `WellKnown = 1`
(record header `D1`). -/
inductive TNF where
  | TNF_EMPTY
  | TNF_WELL_KNOWN
  | TNF_MIME_MEDIA
  | TNF_ABSOLUTE_URI
  | TNF_EXTERNAL_TYPE
  | TNF_UNKNOWN
  | TNF_UNCHANGED
  | TNF_RESERVED
deriving DecidableEq, Repr

/-- The integer value of a TNF enumerator. -/
def TNF.toNat : TNF → Nat
  | .TNF_EMPTY => 0
  | .TNF_WELL_KNOWN => 1
  | .TNF_MIME_MEDIA => 2
  | .TNF_ABSOLUTE_URI => 3
  | .TNF_EXTERNAL_TYPE => 4
  | .TNF_UNKNOWN => 5
  | .TNF_UNCHANGED => 6
  | .TNF_RESERVED => 7

/-- The TNF enumerator of a 3-bit value. -/
def TNF.fromNat : Nat → TNF
  | 0 => .TNF_EMPTY
  | 1 => .TNF_WELL_KNOWN
  | 2 => .TNF_MIME_MEDIA
  | 3 => .TNF_ABSOLUTE_URI
  | 4 => .TNF_EXTERNAL_TYPE
  | 5 => .TNF_UNKNOWN
  | 6 => .TNF_UNCHANGED
  | _ => .TNF_RESERVED

/-- The fields of `NdefRecord`. Each owned buffer is a list of bytes; the
length members `_typeLength`, `_payloadLength`, `_idLength` always equal the
number of bytes of the buffer they describe (every setter and copy stores
both together), so they are the lengths of the lists. -/
structure NdefRecord where
  _tnf : TNF
  _type : List Nat
  _payload : List Nat
  _id : List Nat
deriving DecidableEq, Repr

namespace NdefRecord

/-- Member `_typeLength`. -/
def _typeLength (r : NdefRecord) : Nat := r._type.length

/-- Member `_payloadLength`. -/
def _payloadLength (r : NdefRecord) : Nat := r._payload.length

/-- Member `_idLength`. -/
def _idLength (r : NdefRecord) : Nat := r._id.length

/-- `NdefRecord::NdefRecord()`. -/
def empty : NdefRecord := ⟨.TNF_EMPTY, [], [], []⟩

/-- `NdefRecord::getEncodedSize` (unsigned 32-bit arithmetic). -/
def getEncodedSize (r : NdefRecord) : Nat :=
  let size := 2
  let size := if r._payloadLength > 0xFF then toUInt32 (size + 4) else toUInt32 (size + 1)
  let size := if r._idLength ≠ 0 then toUInt32 (size + 1) else size
  let size := toUInt32 (size + toUInt32 (toUInt32 (r._typeLength + r._payloadLength) + r._idLength))
  size

/-- `NdefRecord::_getTnfByte`: the `int` value is returned as a `byte`. -/
def _getTnfByte (r : NdefRecord) (firstRecord lastRecord : Bool) : Nat :=
  let value := r._tnf.toNat
  let value := if firstRecord then value ||| 0x80 else value
  let value := if lastRecord then value ||| 0x40 else value
  let value := if r._payloadLength ≤ 0xFF then value ||| 0x10 else value
  let value := if r._idLength ≠ 0 then value ||| 0x8 else value
  toByte value

/-- The stores of `NdefRecord::encode`, as `(offset from data, byte)` pairs in
program order. `p0 .. p6` are the successive values of `data_ptr`. -/
def encodeStores (r : NdefRecord) (firstRecord lastRecord : Bool) : List (Nat × Nat) :=
  let p0 := 0
  let s0 := [(p0, r._getTnfByte firstRecord lastRecord)]
  let p1 := p0 + 1
  let s1 := [(p1, toByte r._typeLength)]
  let p2 := p1 + 1
  let s2 :=
    if r._payloadLength ≤ 0xFF then
      [(p2, toByte r._payloadLength)]
    else
      [(p2, 0x0), (p2 + 1, 0x0),
       (p2 + 2, (r._payloadLength >>> 8) &&& 0xFF), (p2 + 3, r._payloadLength &&& 0xFF)]
  let p3 := if r._payloadLength ≤ 0xFF then p2 + 1 else p2 + 4
  let s3 := if r._idLength ≠ 0 then [(p3, toByte r._idLength)] else []
  let p4 := if r._idLength ≠ 0 then p3 + 1 else p3
  let s4 := memcpy p4 r._type r._typeLength
  let p5 := p4 + r._typeLength
  let s5 := if r._idLength ≠ 0 then memcpy p5 r._id r._idLength else []
  let p6 := if r._idLength ≠ 0 then p5 + r._idLength else p5
  let s6 := memcpy p6 r._payload r._payloadLength
  s0 ++ s1 ++ s2 ++ s3 ++ s4 ++ s5 ++ s6

/-- `NdefRecord::encode(data, firstRecord, lastRecord)`: the buffer after the
call. -/
def encode (r : NdefRecord) (data : List Nat) (firstRecord lastRecord : Bool) : List Nat :=
  applyStores data (r.encodeStores firstRecord lastRecord)

/-- The encoded size in the words of the spec: 2 (header + type-length) +
(1 or 4, depending on payload length ≤ 255) + (1 if id present) + len(type) +
len(id) + len(payload). -/
def specSize (r : NdefRecord) : Nat :=
  2 + (if r._payload.length ≤ 255 then 1 else 4) + (if 0 < r._id.length then 1 else 0)
    + r._type.length + r._id.length + r._payload.length

/-- The record layout in the words of the spec: header byte, type-length
byte, payload length (1 byte, or 4 bytes `00 00 hi lo`), id-length byte when
the id is non-empty, then type, id and payload. -/
def layout (r : NdefRecord) (isFirst isLast : Bool) : List Nat :=
  [r._tnf.toNat ||| (if isFirst then 0x80 else 0) ||| (if isLast then 0x40 else 0)
     ||| (if r._payload.length ≤ 255 then 0x10 else 0) ||| (if 0 < r._id.length then 0x08 else 0),
   r._type.length]
  ++ (if r._payload.length ≤ 255 then [r._payload.length]
      else [0, 0, r._payload.length / 256 % 256, r._payload.length % 256])
  ++ (if 0 < r._id.length then [r._id.length] else [])
  ++ r._type ++ r._id ++ r._payload

/-- Modelled from the spec: the record decoder is part of `NdefMessage.cpp`,
which is not among the sources. It reads the record format back in the order
the encoder lays it out: header byte (TNF in the low 3 bits, short-record
flag `0x10`, id-present flag `0x08`), type-length byte, payload length (one
byte when the short-record flag is set, otherwise 4 bytes big-endian),
id-length byte when the id-present flag is set, then the type, id and payload
bytes. The result is `none` when the input ends before the record does. -/
def decode (data : List Nat) : Option NdefRecord :=
  if data.length < 2 then none else
  let header := data.getD 0 0
  let tnf := TNF.fromNat (header &&& 0x7)
  let sr := header &&& 0x10 ≠ 0
  let il := header &&& 0x8 ≠ 0
  let typeLength := data.getD 1 0
  let index := 2
  let payloadLength :=
    if sr then data.getD index 0
    else data.getD index 0 * 2 ^ 24 + data.getD (index + 1) 0 * 2 ^ 16
         + data.getD (index + 2) 0 * 2 ^ 8 + data.getD (index + 3) 0
  let index := if sr then index + 1 else index + 4
  let idLength := if il then data.getD index 0 else 0
  let index := if il then index + 1 else index
  if data.length < index + typeLength + idLength + payloadLength then none else
  let type := (data.drop index).take typeLength
  let index := index + typeLength
  let id := (data.drop index).take idLength
  let index := index + idLength
  let payload := (data.drop index).take payloadLength
  some ⟨tnf, type, payload, id⟩

end NdefRecord

/-! ## The tag transport

The MFRC522 driver is an external collaborator. A transport is described by
what it answers to each call, given the calls that came before; this covers
every deterministic stateful transport. The `uid` argument of
`PCD_Authenticate` is the transport's own field and is left out. -/

/-- The key selector of `PCD_Authenticate` (`PICC_CMD_MF_AUTH_KEY_A` or
`PICC_CMD_MF_AUTH_KEY_B`). -/
inductive KeyType where
  | A
  | B
deriving DecidableEq, Repr

/-- A call on the transport, with its arguments. -/
inductive Call where
  | PCD_Authenticate (command : KeyType) (blockAddr : Nat) (key : List Nat)
  | MIFARE_Read (blockAddr : Nat)
  | MIFARE_Write (blockAddr : Nat) (buffer : List Nat)
deriving DecidableEq, Repr

/-- The behaviour of a transport: whether a call returns `STATUS_OK`, and the
bytes a read delivers, each as a function of the calls made before. -/
structure Transport where
  ok : List Call → Call → Bool
  readData : List Call → Nat → List Nat

/-- The buffers handed to `MIFARE_Write`, in call order. -/
def writtenBlocks : List Call → List (List Nat)
  | [] => []
  | Call.MIFARE_Write _ buffer :: cs => buffer :: writtenBlocks cs
  | _ :: cs => writtenBlocks cs

/-! ## MifareClassic -/

namespace MifareClassic

abbrev BLOCK_SIZE : Nat := 16
abbrev LONG_TLV_SIZE : Nat := 4
abbrev SHORT_TLV_SIZE : Nat := 2

/-- `MifareClassic::getBufferSize` (`int` arithmetic; `/` and `%` truncate
towards zero). -/
def getBufferSize (messageLength : Int) : Int :=
  let bufferSize := messageLength
  let bufferSize :=
    if messageLength < 0xFF then toInt32 (bufferSize + (SHORT_TLV_SIZE + 1))
    else toInt32 (bufferSize + (LONG_TLV_SIZE + 1))
  let bufferSize :=
    if Int.tmod bufferSize BLOCK_SIZE ≠ 0 then
      toInt32 (toInt32 (Int.tdiv bufferSize BLOCK_SIZE + 1) * BLOCK_SIZE)
    else bufferSize
  bufferSize

/-- The `for` loop of `MifareClassic::getNdefStartIndex`, with `n` iterations
left and loop variable `i`. -/
def getNdefStartIndexLoop (data : List Nat) : Nat → Nat → Int
  | 0, _ => -1
  | n + 1, i =>
    if data.getD i 0 = 0x0 then getNdefStartIndexLoop data n (i + 1)
    else if data.getD i 0 = 0x3 then (i : Int)
    else -2

/-- `MifareClassic::getNdefStartIndex`. -/
def getNdefStartIndex (data : List Nat) : Int :=
  getNdefStartIndexLoop data BLOCK_SIZE 0

/-- `MifareClassic::decodeTlv`: `none` when it returns `false`, otherwise
`some (messageLength, messageStartIndex)` with the values it stores through
its two output parameters (both are non-negative there). -/
def decodeTlv (data : List Nat) : Option (Nat × Nat) :=
  let i := getNdefStartIndex data
  if i < 0 ∨ data.getD i.toNat 0 ≠ 0x3 then none
  else if data.getD (i.toNat + 1) 0 = 0xFF then
    some (((0xFF &&& data.getD (i.toNat + 2) 0) <<< 8) ||| (0xFF &&& data.getD (i.toNat + 3) 0),
          i.toNat + LONG_TLV_SIZE)
  else
    some (data.getD (i.toNat + 1) 0, i.toNat + SHORT_TLV_SIZE)

/-- The key `{0xD3, 0xF7, 0xD3, 0xF7, 0xD3, 0xF7}` of `read` and `write`. -/
def ndefKey : List Nat := [0xD3, 0xF7, 0xD3, 0xF7, 0xD3, 0xF7]

/-- The first part of `MifareClassic::write`: the zeroed `buffer` of
`getBufferSize(sizeof(encoded))` bytes after the TLV has been stored in it.
`encoded` is the array that `m.encode` has filled. -/
def writeFrame (encoded : List Nat) : List Nat :=
  let size := encoded.length
  let buffer := List.replicate (getBufferSize (toInt32 size)).toNat 0
  if size < 0xFF then
    applyStores buffer
      ([(0, 0x3), (1, toByte size)] ++ memcpy 2 encoded size ++ [(2 + size, 0xFE)])
  else
    applyStores buffer
      ([(0, 0x3), (1, 0xFF), (2, (size >>> 8) &&& 0xFF), (3, size &&& 0xFF)]
        ++ memcpy 4 encoded size ++ [(4 + size, 0xFE)])

/-- The `while (index < sizeof(buffer))` loop of `MifareClassic::write`.
`fuel` bounds the number of iterations; `none` means the bound was reached.
The result is the return value and the transport calls made so far.
`currentBlock` is a `byte`. -/
def writeLoop (t : Transport) (buffer : List Nat) :
    Nat → Nat → Nat → List Call → Option (Bool × List Call)
  | 0, _, _, _ => none
  | fuel + 1, index, currentBlock, log =>
    if index < buffer.length then
      let auth := Call.PCD_Authenticate KeyType.A currentBlock ndefKey
      let newSector := (currentBlock < 128 ∧ currentBlock % 4 = 0)
        ∨ (currentBlock ≥ 128 ∧ currentBlock % 16 = 0)
      if newSector ∧ t.ok log auth = false then some (false, log ++ [auth])
      else
        let log := if newSector then log ++ [auth] else log
        let wr := Call.MIFARE_Write currentBlock ((buffer.drop index).take BLOCK_SIZE)
        if t.ok log wr = false then some (false, log ++ [wr])
        else
          let log := log ++ [wr]
          let index := index + BLOCK_SIZE
          let currentBlock := toByte (currentBlock + 1)
          let currentBlock :=
            if (currentBlock < 128 ∧ (currentBlock + 1) % 4 = 0)
                ∨ (currentBlock ≥ 128 ∧ (currentBlock + 1) % 16 = 0) then
              toByte (currentBlock + 1)
            else currentBlock
          writeLoop t buffer fuel index currentBlock log
    else some (true, log)

/-- `MifareClassic::write`, given the bytes `encoded` that `m.encode` produced
and the calls `log` made on the transport before. The loop gets one unit of
fuel per buffer byte, plus one. -/
def write (t : Transport) (encoded : List Nat) (log : List Call) : Option (Bool × List Call) :=
  let buffer := writeFrame encoded
  writeLoop t buffer (buffer.length + 1) 0 4 log

/-- The TLV envelope in the words of the spec, for a message of `n` bytes
padded to `total` bytes: tag `03`, length (one byte below 255, else `FF`
and two bytes big-endian), the message, the terminator `FE`, zero padding. -/
def envelope (encoded : List Nat) (total : Nat) : List Nat :=
  if encoded.length < 255 then
    [0x03, encoded.length] ++ encoded ++ [0xFE]
      ++ List.replicate (total - (encoded.length + 3)) 0
  else
    [0x03, 0xFF, encoded.length / 256, encoded.length % 256] ++ encoded ++ [0xFE]
      ++ List.replicate (total - (encoded.length + 5)) 0

end MifareClassic

/-! ## MifareUltralight -/

namespace MifareUltralight

abbrev ULTRALIGHT_PAGE_SIZE : Nat := 4
abbrev ULTRALIGHT_READ_SIZE : Nat := 16
abbrev ULTRALIGHT_DATA_START_PAGE : Nat := 4
abbrev ULTRALIGHT_MAX_PAGE : Nat := 63

/-- `MifareUltralight::calculateBufferSize` (`uint16_t` arithmetic: each
assignment to `bufferSize` truncates to 16 bits). -/
def calculateBufferSize (messageLength ndefStartIndex : Nat) : Nat :=
  let bufferSize := toUInt16 (messageLength + ndefStartIndex + 1)
  let bufferSize :=
    if bufferSize % ULTRALIGHT_READ_SIZE ≠ 0 then
      toUInt16 ((bufferSize / ULTRALIGHT_READ_SIZE + 1) * ULTRALIGHT_READ_SIZE)
    else bufferSize
  let bufferSize := toUInt16 (bufferSize + 2)
  bufferSize

end MifareUltralight

/-! ## NfcTag -/

/-- Modelled from the spec: the enumeration `NfcTag::TagType` is declared in
`NfcTag.h`, which is not among the sources. These are the three enumerators
the drivers use: the Classic type, the Ultralight type (`TYPE_2`) and
unknown. -/
inductive TagType where
  | TYPE_MIFARE_CLASSIC
  | TYPE_2
  | TYPE_UNKNOWN
deriving DecidableEq, Repr

/-- The fields of `NfcTag`. `_uidLength` is the length of `_uid`; a null
`_ndefMessage` is `none`. The type `μ` stands for `NdefMessage`, whose
declaration is not among the sources. -/
structure NfcTag (μ : Type) where
  _uid : List Nat
  _tagType : TagType
  _ndefMessage : Option μ
  _isFormatted : Bool
deriving DecidableEq, Repr

namespace NfcTag

/-- `NfcTag::NfcTag(uid, uidLength, tagType)`. -/
def ofType {μ : Type} (uid : List Nat) (tagType : TagType) : NfcTag μ :=
  ⟨uid, tagType, none, false⟩

/-- `NfcTag::NfcTag(uid, uidLength, tagType, isFormatted)`. -/
def ofFormatted {μ : Type} (uid : List Nat) (tagType : TagType) (isFormatted : Bool) :
    NfcTag μ :=
  ⟨uid, tagType, none, isFormatted⟩

/-- `NfcTag::NfcTag(uid, uidLength, tagType, ndefMessage)`. -/
def ofMessage {μ : Type} (uid : List Nat) (tagType : TagType) (ndefMessage : μ) : NfcTag μ :=
  ⟨uid, tagType, some ndefMessage, true⟩

/-- `NfcTag::NfcTag(uid, uidLength, tagType, ndefData, ndefDataLength)`.
`ndefData` holds the `ndefDataLength` bytes at the pointer; `parse` is the
constructor `NdefMessage(const byte*, int)`, which is not among the sources. -/
def ofData {μ : Type} (parse : List Nat → μ) (uid : List Nat) (tagType : TagType)
    (ndefData : List Nat) : NfcTag μ :=
  ⟨uid, tagType, some (parse ndefData), true⟩

/-- `NfcTag::hasNdefMessage`. -/
def hasNdefMessage {μ : Type} (tag : NfcTag μ) : Bool := tag._ndefMessage.isSome

/-- `NfcTag::isFormatted`. -/
def isFormatted {μ : Type} (tag : NfcTag μ) : Bool := tag._isFormatted

/-- `NfcTag::getTagType`. -/
def getTagType {μ : Type} (tag : NfcTag μ) : TagType := tag._tagType

end NfcTag

/-! ## Observations on a list of transport calls -/

/-- The block address of a call. -/
def Call.addr : Call → Nat
  | Call.PCD_Authenticate _ blockAddr _ => blockAddr
  | Call.MIFARE_Read blockAddr => blockAddr
  | Call.MIFARE_Write blockAddr _ => blockAddr

/-- Whether a call is `PCD_Authenticate`. -/
def Call.isAuth : Call → Bool
  | Call.PCD_Authenticate _ _ _ => true
  | _ => false

/-- Whether a call is a data transfer, `MIFARE_Read` or `MIFARE_Write`. -/
def Call.isData : Call → Bool
  | Call.PCD_Authenticate _ _ _ => false
  | _ => true

/-- Every call of `calls` returns `STATUS_OK` on `t`, when the calls are made
in order after the calls `log`. -/
def allOk (t : Transport) : List Call → List Call → Prop
  | _, [] => True
  | log, c :: cs => t.ok log c = true ∧ allOk t (log ++ [c]) cs

/-- Every `PCD_Authenticate` among `calls` returns `STATUS_OK` on `t`, when
the calls are made in order after the calls `log`. -/
def authsOk (t : Transport) : List Call → List Call → Prop
  | _, [] => True
  | log, c :: cs => (c.isAuth = true → t.ok log c = true) ∧ authsOk t (log ++ [c]) cs

/-- The addresses and buffers of the `MIFARE_Write` calls, in call order. -/
def writesOf : List Call → List (Nat × List Nat)
  | [] => []
  | Call.MIFARE_Write blockAddr buffer :: cs => (blockAddr, buffer) :: writesOf cs
  | _ :: cs => writesOf cs

/-- The addresses of the `MIFARE_Read` calls, in call order. -/
def readsOf : List Call → List Nat
  | [] => []
  | Call.MIFARE_Read blockAddr :: cs => blockAddr :: readsOf cs
  | _ :: cs => readsOf cs

/-! ## Mifare Classic block layout

The layout that the block walks of `read` and `write` follow: 32 sectors of 4
blocks below address 128, sectors of 16 blocks from 128 on; the last block of
a sector is its trailer. -/

/-- The first block of a sector: the condition under which the block walks
authenticate. -/
def isSectorStart (block : Nat) : Prop :=
  (block < 128 ∧ block % 4 = 0) ∨ (block ≥ 128 ∧ block % 16 = 0)

instance (block : Nat) : Decidable (isSectorStart block) :=
  inferInstanceAs (Decidable ((block < 128 ∧ block % 4 = 0) ∨ (block ≥ 128 ∧ block % 16 = 0)))

/-- A trailer block: the condition under which the block walks skip. -/
def isTrailer (block : Nat) : Prop :=
  (block < 128 ∧ (block + 1) % 4 = 0) ∨ (block ≥ 128 ∧ (block + 1) % 16 = 0)

instance (block : Nat) : Decidable (isTrailer block) :=
  inferInstanceAs
    (Decidable ((block < 128 ∧ (block + 1) % 4 = 0) ∨ (block ≥ 128 ∧ (block + 1) % 16 = 0)))

/-- The sector a block belongs to. -/
def sectorOf (block : Nat) : Nat :=
  if block < 128 then block / 4 else 32 + (block - 128) / 16

/-- The number of `PCD_Authenticate` calls among `calls` whose block lies in
sector `s`. -/
def authCount (s : Nat) (calls : List Call) : Nat :=
  calls.countP fun c => c.isAuth && sectorOf c.addr == s

/-- Authentication once per sector: for every data transfer in `calls`, the
calls contain exactly one authentication of the sector of the transferred
block, and it comes before the transfer. -/
def OncePerSector (calls : List Call) : Prop :=
  ∀ pre c post, calls = pre ++ c :: post → c.isData = true →
    authCount (sectorOf c.addr) calls = 1 ∧ authCount (sectorOf c.addr) pre = 1

/-- The calls that precede the transfer of block `cb` in a block walk: one
authentication of `cb` when `cb` starts a sector, none otherwise. -/
def AuthPart (cb : Nat) (auths : List Call) : Prop :=
  (¬ isSectorStart cb ∧ auths = [])
    ∨ (isSectorStart cb ∧ ∃ a, auths = [a] ∧ a.isAuth = true ∧ a.addr = cb)

/-- The shape of a block walk over at most `m` blocks that starts at block
`cb` and moves on with `next`: it is over, or it ends with a failed
authentication of `cb`, or it transfers `cb` (after authenticating it when
`cb` starts a sector) and goes on with a walk over at most `m - 1` blocks
from `next cb`. -/
inductive WalkBy (next : Nat → Nat) : Nat → Nat → List Call → Prop where
  | done (m cb : Nat) : WalkBy next m cb []
  | authFailed (m cb : Nat) (a : Call) :
      isSectorStart cb → a.isAuth = true → a.addr = cb → WalkBy next (m + 1) cb [a]
  | step (m cb : Nat) (auths : List Call) (d : Call) (rest : List Call) :
      AuthPart cb auths → d.isData = true → d.addr = cb →
      WalkBy next m (next cb) rest → WalkBy next (m + 1) cb (auths ++ d :: rest)

/-- The outcome of a function that aborts at the first failed call: it
returns `true` and every call succeeded, or it returns `false` and the last
call is the only one that failed. -/
def AllOrNothing (t : Transport) (log : List Call) (b : Bool) (calls : List Call) : Prop :=
  (b = true ∧ allOk t log calls)
    ∨ (b = false ∧ ∃ pre c, calls = pre ++ [c] ∧ allOk t log pre ∧ t.ok (log ++ pre) c = false)

namespace MifareClassic

/-- The successor of a block in the walk of `write`, whose block counter is
a `byte`: the increment, then one more when it lands on a trailer. -/
def nextBlockByte (currentBlock : Nat) : Nat :=
  if isTrailer (toByte (currentBlock + 1)) then toByte (toByte (currentBlock + 1) + 1)
  else toByte (currentBlock + 1)

/-- The successor of a block in the walk of `read`, whose block counter is
an `int`: the increment, then one more when it lands on a trailer. -/
def nextBlock (currentBlock : Nat) : Nat :=
  if isTrailer (currentBlock + 1) then currentBlock + 1 + 1 else currentBlock + 1

/-- The `while (index < bufferSize-2)` loop of `MifareClassic::read`. `fuel`
bounds the number of iterations; `none` means the bound was reached. The
result is the filled `buffer` (`none` when the loop returns the tag without a
message) and the transport calls made so far. A successful `MIFARE_Read`
stores the 18 bytes it delivers (16 block bytes and 2 CRC bytes, each wrapped
to a byte) at `&buffer[index]`. `index` and `currentBlock` are `int`s that only grow from 0
and 4 and stay far below `2^31`; the sector and trailer tests are made on the
`int`. `PCD_Authenticate` and `MIFARE_Read` take the block address as a
`byte`, so the calls carry `currentBlock` modulo 256. -/
def readLoop (t : Transport) (bufferSize : Int) :
    Nat → Nat → Nat → List Nat → List Call → Option (Option (List Nat) × List Call)
  | 0, _, _, _, _ => none
  | fuel + 1, index, currentBlock, buffer, log =>
    if (index : Int) < bufferSize - 2 then
      let auth := Call.PCD_Authenticate KeyType.A (toByte currentBlock) ndefKey
      let newSector := (currentBlock < 128 ∧ currentBlock % 4 = 0)
        ∨ (currentBlock ≥ 128 ∧ currentBlock % 16 = 0)
      if newSector ∧ t.ok log auth = false then some (none, log ++ [auth])
      else
        let log := if newSector then log ++ [auth] else log
        let rd := Call.MIFARE_Read (toByte currentBlock)
        if t.ok log rd = true then
          let buffer :=
            applyStores buffer
              (memcpy index ((t.readData log (toByte currentBlock)).map toByte) 18)
          let log := log ++ [rd]
          let index := index + BLOCK_SIZE
          let currentBlock := currentBlock + 1
          let currentBlock :=
            if (currentBlock < 128 ∧ (currentBlock + 1) % 4 = 0)
                ∨ (currentBlock ≥ 128 ∧ (currentBlock + 1) % 16 = 0) then
              currentBlock + 1
            else currentBlock
          readLoop t bufferSize fuel index currentBlock buffer log
        else some (none, log ++ [rd])
    else some (some buffer, log)

/-- `MifareClassic::read`, given the constructor `parse` of `NdefMessage`
from bytes, the transport's `uid` and the calls `log` made before. The local
arrays `data` and `buffer` start zeroed in the model; the loop gets one unit
of fuel per buffer byte, plus one. The slice handed to
`parse` is `&buffer[messageStartIndex]` with length `messageLength`; bytes
past the end of `buffer` are absent from it. -/
def read {μ : Type} (parse : List Nat → μ) (t : Transport) (uid : List Nat)
    (log : List Call) : Option (NfcTag μ × List Call) :=
  let auth := Call.PCD_Authenticate KeyType.A 4 ndefKey
  if t.ok log auth = true then
    let log := log ++ [auth]
    let rd := Call.MIFARE_Read 4
    if t.ok log rd ≠ true then
      some (NfcTag.ofType uid TagType.TYPE_MIFARE_CLASSIC, log ++ [rd])
    else
      let data :=
        applyStores (List.replicate (BLOCK_SIZE + 2) 0)
          (memcpy 0 ((t.readData log 4).map toByte) 18)
      let log := log ++ [rd]
      match decodeTlv data with
      | none => some (NfcTag.ofType uid TagType.TYPE_UNKNOWN, log)
      | some (messageLength, messageStartIndex) =>
        let bufferSize := toInt32 (getBufferSize messageLength + 2)
        let buffer := List.replicate bufferSize.toNat 0
        match readLoop t bufferSize (bufferSize.toNat + 1) 0 4 buffer log with
        | none => none
        | some (none, log) => some (NfcTag.ofType uid TagType.TYPE_MIFARE_CLASSIC, log)
        | some (some buffer, log) =>
          some (NfcTag.ofData parse uid TagType.TYPE_MIFARE_CLASSIC
                  ((buffer.drop messageStartIndex).take messageLength), log)
  else
    some (NfcTag.ofFormatted uid TagType.TYPE_MIFARE_CLASSIC false, log ++ [auth])

/-- A transport call followed by `return false` unless it answers
`STATUS_OK`; `next` is the rest of the function. -/
def attempt (t : Transport) (c : Call) (log : List Call)
    (next : List Call → Option (Bool × List Call)) : Option (Bool × List Call) :=
  if t.ok log c = true then next (log ++ [c]) else some (false, log ++ [c])

/-- The key `{0xFF, 0xFF, 0xFF, 0xFF, 0xFF, 0xFF}` of the two format
functions. -/
def defaultKey : List Nat := [0xFF, 0xFF, 0xFF, 0xFF, 0xFF, 0xFF]

def emptyNdefMesg : List Nat :=
  [0x03, 0x03, 0xD0, 0x00, 0x00, 0xFE, 0x00, 0x00, 0x00, 0x00, 0x00, 0x00, 0x00, 0x00, 0x00, 0x00]
def blockbuffer0 : List Nat :=
  [0x00, 0x00, 0x00, 0x00, 0x00, 0x00, 0x00, 0x00, 0x00, 0x00, 0x00, 0x00, 0x00, 0x00, 0x00, 0x00]
def blockbuffer1 : List Nat :=
  [0x14, 0x01, 0x03, 0xE1, 0x03, 0xE1, 0x03, 0xE1, 0x03, 0xE1, 0x03, 0xE1, 0x03, 0xE1, 0x03, 0xE1]
def blockbuffer2 : List Nat :=
  [0x03, 0xE1, 0x03, 0xE1, 0x03, 0xE1, 0x03, 0xE1, 0x03, 0xE1, 0x03, 0xE1, 0x03, 0xE1, 0x03, 0xE1]
def blockbuffer3 : List Nat :=
  [0xA0, 0xA1, 0xA2, 0xA3, 0xA4, 0xA5, 0x78, 0x77, 0x88, 0xC1, 0xFF, 0xFF, 0xFF, 0xFF, 0xFF, 0xFF]
def blockbuffer4 : List Nat :=
  [0xD3, 0xF7, 0xD3, 0xF7, 0xD3, 0xF7, 0x7F, 0x07, 0x88, 0x40, 0xFF, 0xFF, 0xFF, 0xFF, 0xFF, 0xFF]

/-- The `for (int i=4; i<64; i+=4)` loop of `MifareClassic::formatNDEF`.
`fuel` bounds the number of iterations; `none` means the bound was reached. -/
def formatNDEFLoop (t : Transport) : Nat → Nat → List Call → Option (Bool × List Call)
  | 0, _, _ => none
  | fuel + 1, i, log =>
    if i < 64 then
      attempt t (Call.PCD_Authenticate KeyType.A i defaultKey) log fun log =>
      attempt t (Call.MIFARE_Write i (if i = 4 then emptyNdefMesg else blockbuffer0)) log
        fun log =>
      attempt t (Call.MIFARE_Write (i + 1) blockbuffer0) log fun log =>
      attempt t (Call.MIFARE_Write (i + 2) blockbuffer0) log fun log =>
      attempt t (Call.MIFARE_Write (i + 3) blockbuffer4) log fun log =>
      formatNDEFLoop t fuel (i + 4) log
    else some (true, log)

/-- `MifareClassic::formatNDEF`, given the calls `log` made before. -/
def formatNDEF (t : Transport) (log : List Call) : Option (Bool × List Call) :=
  attempt t (Call.PCD_Authenticate KeyType.A 1 defaultKey) log fun log =>
  attempt t (Call.MIFARE_Write 1 blockbuffer1) log fun log =>
  attempt t (Call.MIFARE_Write 2 blockbuffer2) log fun log =>
  attempt t (Call.MIFARE_Write 3 blockbuffer3) log fun log =>
  formatNDEFLoop t 16 4 log

abbrev NR_SHORTSECTOR : Nat := 32
abbrev NR_LONGSECTOR : Nat := 8
abbrev NR_BLOCK_OF_SHORTSECTOR : Nat := 4
abbrev NR_BLOCK_OF_LONGSECTOR : Nat := 16

/-- The macro `BLOCK_NUMBER_OF_SECTOR_TRAILER(sector)`. -/
def BLOCK_NUMBER_OF_SECTOR_TRAILER (sector : Nat) : Nat :=
  if sector < NR_SHORTSECTOR then
    sector * NR_BLOCK_OF_SHORTSECTOR + NR_BLOCK_OF_SHORTSECTOR - 1
  else
    NR_SHORTSECTOR * NR_BLOCK_OF_SHORTSECTOR + (sector - NR_SHORTSECTOR) * NR_BLOCK_OF_LONGSECTOR
      + NR_BLOCK_OF_LONGSECTOR - 1

def emptyBlock : List Nat :=
  [0x00, 0x00, 0x00, 0x00, 0x00, 0x00, 0x00, 0x00, 0x00, 0x00, 0x00, 0x00, 0x00, 0x00, 0x00, 0x00]
def authBlock : List Nat :=
  [0xFF, 0xFF, 0xFF, 0xFF, 0xFF, 0xFF, 0xFF, 0x07, 0x80, 0x69, 0xFF, 0xFF, 0xFF, 0xFF, 0xFF, 0xFF]

/-- The `for (idx = 0; idx < numOfSector; idx++)` loop of
`MifareClassic::formatMifare`, with `numOfSector = 16`. `fuel` bounds the
number of iterations; `none` means the bound was reached. The status of each
`MIFARE_Write` is only logged, so the call is appended and the loop goes on. -/
def formatMifareLoop (t : Transport) : Nat → Nat → List Call → Option (Bool × List Call)
  | 0, _, _ => none
  | fuel + 1, idx, log =>
    if idx < 16 then
      let auth := Call.PCD_Authenticate KeyType.B (BLOCK_NUMBER_OF_SECTOR_TRAILER idx) defaultKey
      if t.ok log auth ≠ true then some (false, log ++ [auth])
      else
        let log := log ++ [auth]
        let log :=
          if idx = 0 then
            log ++ [Call.MIFARE_Write (BLOCK_NUMBER_OF_SECTOR_TRAILER idx - 2) emptyBlock]
          else
            log ++ [Call.MIFARE_Write (BLOCK_NUMBER_OF_SECTOR_TRAILER idx - 3) emptyBlock]
              ++ [Call.MIFARE_Write (BLOCK_NUMBER_OF_SECTOR_TRAILER idx - 2) emptyBlock]
        let log := log ++ [Call.MIFARE_Write (BLOCK_NUMBER_OF_SECTOR_TRAILER idx - 1) emptyBlock]
        let log := log ++ [Call.MIFARE_Write (BLOCK_NUMBER_OF_SECTOR_TRAILER idx) authBlock]
        formatMifareLoop t fuel (toByte (idx + 1)) log
    else some (true, log)

/-- The address and buffer of each `MIFARE_Write` in one pass of the loop of
`MifareClassic::formatMifare`, for sector `idx`, in source order. -/
def formatMifareWrites (idx : Nat) : List (Nat × List Nat) :=
  (if idx = 0 then
      [(BLOCK_NUMBER_OF_SECTOR_TRAILER idx - 2, emptyBlock)]
    else
      [(BLOCK_NUMBER_OF_SECTOR_TRAILER idx - 3, emptyBlock),
        (BLOCK_NUMBER_OF_SECTOR_TRAILER idx - 2, emptyBlock)])
    ++ [(BLOCK_NUMBER_OF_SECTOR_TRAILER idx - 1, emptyBlock),
      (BLOCK_NUMBER_OF_SECTOR_TRAILER idx, authBlock)]

/-- `MifareClassic::formatMifare`, given the calls `log` made before. -/
def formatMifare (t : Transport) (log : List Call) : Option (Bool × List Call) :=
  formatMifareLoop t 17 0 log

end MifareClassic

/-! ## NfcTag: copy assignment -/

namespace NfcTag

/-- `NfcTag::operator=` for a `rhs` that is another object than `*this`: the
tag `*this` after the assignment. `_uid`, `_uidLength` and `_tagType` are
copied from `rhs` and `_ndefMessage` becomes a copy of the message of `rhs`;
no statement assigns `_isFormatted`. The result is `none` when `rhs` has no
message, where `*rhs._ndefMessage` dereferences a null pointer. -/
def assign {μ : Type} (self rhs : NfcTag μ) : Option (NfcTag μ) :=
  match rhs._ndefMessage with
  | none => none
  | some m => some ⟨rhs._uid, rhs._tagType, some m, self._isFormatted⟩

end NfcTag

/-! ## NdefMessage -/

/-- Modelled from the spec: `NdefMessage` is declared in `NdefMessage.h` and
defined in `NdefMessage.cpp`, which are not among the sources. The spec
describes a message as the ordered sequence of its records. -/
structure NdefMessage where
  _records : List NdefRecord
deriving DecidableEq, Repr

namespace NdefMessage

/-- Modelled from the spec: the constructor `NdefMessage()`, a message without
records. -/
def new : NdefMessage := ⟨[]⟩

/-- Modelled from the spec: `NdefMessage::addEmptyRecord`, which appends one
record with TNF Empty and zero-length type, id and payload. -/
def addEmptyRecord (m : NdefMessage) : NdefMessage := ⟨m._records ++ [NdefRecord.empty]⟩

end NdefMessage

/-! ## MifareClassic: the indices read by the TLV decoder -/

namespace MifareClassic

end MifareClassic

/-! ## MifareUltralight: the driver

A successful `MIFARE_Read` delivers 18 bytes, the 16 bytes of four
consecutive pages and 2 CRC bytes, and leaves the size argument at 18. -/

namespace MifareUltralight

/-- `MifareUltralight::isUnformatted`: the return value and the transport
calls made so far. -/
def isUnformatted (t : Transport) (log : List Call) : Bool × List Call :=
  let page := 4
  let dataSize := ULTRALIGHT_READ_SIZE + 2
  let data := (t.readData log page).map toByte
  let status := t.ok log (Call.MIFARE_Read page)
  let log := log ++ [Call.MIFARE_Read page]
  if status = true ∧ dataSize ≥ 4 then
    (decide (data.getD 0 0 = 0xFF ∧ data.getD 1 0 = 0xFF ∧ data.getD 2 0 = 0xFF
      ∧ data.getD 3 0 = 0xFF), log)
  else (false, log)

/-- `MifareUltralight::readTagSize`: the capacity (a `uint16_t`) and the
transport calls made so far. The array `data` is declared with
`ULTRALIGHT_PAGE_SIZE` = 4 elements although a successful read stores 18
bytes from `data[0]` on: the stores at the offsets 4 to 17 land behind the
array, which is undefined behaviour in the source. `readTagSizeStores` gives
the stores. The value given here is `8 * data[2]` with `data[2]` as the read
delivered it, which is what the function returns when the stores behind the
array leave `data[2]` and the flow of control as they are; it is not a
statement that the source returns. -/
def readTagSize (t : Transport) (log : List Call) : Nat × List Call :=
  let tagCapacity := 0
  let dataSize := ULTRALIGHT_READ_SIZE + 2
  let data := (t.readData log 3).map toByte
  let status := t.ok log (Call.MIFARE_Read 3)
  let log := log ++ [Call.MIFARE_Read 3]
  if status = true ∧ dataSize ≥ 2 then (toUInt16 (data.getD 2 0 * 8), log)
  else (tagCapacity, log)

/-- The stores, as pairs of offset and value, that the call
`MIFARE_Read(3, data, &dataSize)` of `MifareUltralight::readTagSize` makes
into the array `data`, declared `byte data[ULTRALIGHT_PAGE_SIZE]`: the
`dataSize` = 18 delivered bytes from `data[0]` on when the read succeeds, and
none when it fails. -/
def readTagSizeStores (t : Transport) (log : List Call) : List (Nat × Nat) :=
  let dataSize := ULTRALIGHT_READ_SIZE + 2
  let status := t.ok log (Call.MIFARE_Read 3)
  if status = true then memcpy 0 ((t.readData log 3).map toByte) dataSize else []

/-- `MifareUltralight::findNdefMessage`: the values of `*messageLength` and
`*ndefStartIndex` after the call, given their values before it, and the
transport calls made so far. -/
def findNdefMessage (t : Transport) (messageLength ndefStartIndex : Nat) (log : List Call) :
    Nat × Nat × List Call :=
  let data := (t.readData log 4).map toByte
  let status := t.ok log (Call.MIFARE_Read 4)
  let log := log ++ [Call.MIFARE_Read 4]
  if status = true then
    if data.getD 0 0 = 0x03 then (data.getD 1 0, 2, log)
    else if data.getD 5 0 = 0x3 then (data.getD 6 0, 7, log)
    else (messageLength, ndefStartIndex, log)
  else (messageLength, ndefStartIndex, log)

/-- The `for (page = ULTRALIGHT_DATA_START_PAGE; page < ULTRALIGHT_MAX_PAGE;
page++)` loop of `MifareUltralight::read`. `fuel` bounds the number of
iterations; `none` means the bound was reached. `page` and `index` are
`uint8_t`. The result is the filled `buffer` (`none` when the loop returns
the tag without a message), the values `index` had at the successful reads,
which are the offsets where the 18 delivered bytes were stored, and the
transport calls made so far. A store beyond the end of `buffer` leaves the
list as it is. -/
def readLoop (t : Transport) (messageLength ndefStartIndex : Nat) :
    Nat → Nat → Nat → List Nat → List Nat → List Call →
      Option (Option (List Nat) × List Nat × List Call)
  | 0, _, _, _, _, _ => none
  | fuel + 1, page, index, buffer, offsets, log =>
    if page < ULTRALIGHT_MAX_PAGE then
      let dataSize := ULTRALIGHT_READ_SIZE + 2
      let rd := Call.MIFARE_Read page
      if t.ok log rd = true then
        let buffer :=
          applyStores buffer (memcpy index ((t.readData log page).map toByte) dataSize)
        let offsets := offsets ++ [index]
        let log := log ++ [rd]
        if index ≥ messageLength + ndefStartIndex then some (some buffer, offsets, log)
        else
          readLoop t messageLength ndefStartIndex fuel (toByte (page + 1))
            (toByte (index + ULTRALIGHT_PAGE_SIZE)) buffer offsets log
      else some (none, offsets, log ++ [rd])
    else some (some buffer, offsets, log)

/-- The part of `MifareUltralight::read` from `uint8_t index = 0` to the end
of the loop: the loop run from page 4 and index 0 on a buffer of `bufferSize`
bytes. The loop makes at most 59 iterations. -/
def readStream (t : Transport) (messageLength ndefStartIndex bufferSize : Nat)
    (log : List Call) : Option (Option (List Nat) × List Nat × List Call) :=
  readLoop t messageLength ndefStartIndex 60 ULTRALIGHT_DATA_START_PAGE 0
    (List.replicate bufferSize 0) [] log

/-- `MifareUltralight::read`, given the calls `log` made on the transport
before: the tag and the transport calls made so far. `parse` is the
constructor `NdefMessage(const byte*, int)`, which is not among the
sources. -/
def read (parse : List Nat → NdefMessage) (t : Transport) (uid : List Nat) (log : List Call) :
    Option (NfcTag NdefMessage × List Call) :=
  let unformatted := isUnformatted t log
  if unformatted.1 = true then some (NfcTag.ofType uid TagType.TYPE_2, unformatted.2)
  else
    let found := findNdefMessage t 0 0 unformatted.2
    let messageLength := found.1
    let ndefStartIndex := found.2.1
    let bufferSize := calculateBufferSize messageLength ndefStartIndex
    if messageLength = 0 then
      let message := NdefMessage.new.addEmptyRecord
      some (NfcTag.ofMessage uid TagType.TYPE_2 message, found.2.2)
    else
      match readStream t messageLength ndefStartIndex bufferSize found.2.2 with
      | none => none
      | some (none, _, log) => some (NfcTag.ofType uid TagType.TYPE_2, log)
      | some (some buffer, _, log) =>
        some (NfcTag.ofData parse uid TagType.TYPE_2
          ((buffer.drop ndefStartIndex).take messageLength), log)

/-- The array `encoded` of `MifareUltralight::write` when the loop starts.
`message` holds the bytes that `m.encode` stores, `m.getEncodedSize()` of
them. The stores are, in program order: the TLV tag and length, the message,
the `memset` of the rest (nothing when its size argument is not positive),
the terminator. For a message of at most 65515 bytes every store lies inside
the array. For a longer message the 16-bit sizes wrap, the array is shorter
than the message and the source stores behind the array, which is undefined
behaviour; the list given here drops those stores and does not describe the
source there. -/
def writeFrame (message : List Nat) : List Nat :=
  let messageLength := toUInt16 message.length
  let ndefStartIndex := if messageLength < 0xFF then 2 else 4
  let bufferSize := calculateBufferSize messageLength ndefStartIndex
  let encoded := List.replicate bufferSize 0
  let header :=
    if messageLength < 0xFF then [(0, 0x3), (1, toByte messageLength)]
    else [(0, 0x3), (1, 0xFF), (2, (messageLength >>> 8) &&& 0xFF), (3, messageLength &&& 0xFF)]
  applyStores encoded
    (header ++ memcpy ndefStartIndex message message.length
      ++ (List.range (bufferSize - ndefStartIndex - messageLength)).map
          (fun k => (ndefStartIndex + messageLength + k, 0))
      ++ [(ndefStartIndex + messageLength, 0xFE)])

/-- The `while (position < bufferSize)` loop of `MifareUltralight::write`.
`fuel` bounds the number of iterations; `none` means the bound was reached.
`src` is the memory from the start of `encoded` on, so that
`memcpy(writeBuffer, src, 4)` at `position` copies the 4 bytes of `src` from
offset `position`. `page` is a `uint8_t`. -/
def writeLoop (t : Transport) (src : List Nat) (bufferSize : Nat) :
    Nat → Nat → Nat → List Call → Option (Bool × List Call)
  | 0, _, _, _ => none
  | fuel + 1, position, page, log =>
    if position < bufferSize then
      let writeBuffer := applyStores (List.replicate 16 0) (memcpy 0 (src.drop position) 4)
      let wr := Call.MIFARE_Write page writeBuffer
      if t.ok log wr ≠ true then some (false, log ++ [wr])
      else
        writeLoop t src bufferSize fuel (position + ULTRALIGHT_PAGE_SIZE) (toByte (page + 1))
          (log ++ [wr])
    else some (true, log)

/-- `MifareUltralight::write`, given the bytes `message` that `m.encode`
stores, the bytes `after` that follow the array `encoded` in memory, and the
calls `log` made on the transport before. The capacity is the value of
`readTagSize`, and the array is `writeFrame`: what is said there of the
stores behind the array `data` of `readTagSize`, and of messages of more than
65515 bytes, holds here too. -/
def write (t : Transport) (message after : List Nat) (log : List Call) :
    Option (Bool × List Call) :=
  let unformatted := isUnformatted t log
  if unformatted.1 = true then some (false, unformatted.2)
  else
    let size := readTagSize t unformatted.2
    let tagCapacity := size.1
    let messageLength := toUInt16 message.length
    let ndefStartIndex := if messageLength < 0xFF then 2 else 4
    let bufferSize := calculateBufferSize messageLength ndefStartIndex
    if bufferSize > tagCapacity then some (false, size.2)
    else
      writeLoop t (writeFrame message ++ after) bufferSize (bufferSize + 1) 0
        ULTRALIGHT_DATA_START_PAGE size.2

/-- The `for (int i = ULTRALIGHT_DATA_START_PAGE; i < pages; i++)` loop of
`MifareUltralight::clean`. `fuel` bounds the number of iterations; `none`
means the bound was reached. The `int` `i` is passed to `MIFARE_Write` as a
`byte`. -/
def cleanLoop (t : Transport) (pages : Nat) : Nat → Nat → List Call → Option (Bool × List Call)
  | 0, _, _ => none
  | fuel + 1, i, log =>
    if i < pages then
      let data := List.replicate 16 0
      let wr := Call.MIFARE_Write (toByte i) data
      if t.ok log wr ≠ true then some (false, log ++ [wr])
      else cleanLoop t pages fuel (i + 1) (log ++ [wr])
    else some (true, log)

/-- `MifareUltralight::clean`, given the calls `log` made on the transport
before. `pages` is a `uint8_t`. -/
def clean (t : Transport) (log : List Call) : Option (Bool × List Call) :=
  let size := readTagSize t log
  let tagCapacity := size.1
  let pages := toByte (tagCapacity / ULTRALIGHT_PAGE_SIZE + ULTRALIGHT_DATA_START_PAGE)
  cleanLoop t pages (pages + 1) ULTRALIGHT_DATA_START_PAGE size.2

end MifareUltralight

/-! ## Concrete inputs -/

/-- A transport on which every call succeeds and every read delivers 18 zero
bytes. -/
def okTransport : Transport := ⟨fun _ _ => true, fun _ _ => List.replicate 18 0⟩

/-- An 18-byte read buffer (16 block bytes and 2 CRC bytes): one null TLV,
then a long-form NDEF TLV of length 0x0102. -/
def sampleBlock : List Nat :=
  [0x00, 0x03, 0xFF, 0x01, 0x02, 0xD1, 0x01, 0xFE, 0x54, 0x02, 0x65, 0x6E, 0x41, 0x42, 0x43, 0x44,
   0x9A, 0x3C]

/-- A well-known record with a 1-byte type, a 3-byte payload and a 1-byte id. -/
def sampleRecord : NdefRecord := ⟨.TNF_WELL_KNOWN, [0x54], [0x02, 0x65, 0x6E], [0x41]⟩

/-- A record whose type is 256 bytes long. -/
def recordType256 : NdefRecord := ⟨.TNF_WELL_KNOWN, List.replicate 256 0x54, [], []⟩

/-- A record whose type is 1000 bytes long. -/
def recordType1000 : NdefRecord := ⟨.TNF_WELL_KNOWN, List.replicate 1000 0x54, [], []⟩

/-- A record whose id is 256 bytes long. -/
def recordId256 : NdefRecord := ⟨.TNF_WELL_KNOWN, [], [], List.replicate 256 0x41⟩

/-- A record whose id is 1000 bytes long. -/
def recordId1000 : NdefRecord := ⟨.TNF_WELL_KNOWN, [], [], List.replicate 1000 0x41⟩

/-- A record whose payload is 255 bytes long. -/
def recordPayload255 : NdefRecord := ⟨.TNF_MIME_MEDIA, [], List.replicate 255 0xAA, []⟩

/-- A block whose NDEF TLV starts at offset 0: length 3, one empty record,
terminator; followed by 2 CRC bytes. -/
def emptyRecordBlock : List Nat :=
  [0x03, 0x03, 0xD0, 0x00, 0x00, 0xFE, 0x00, 0x00, 0x00, 0x00, 0x00, 0x00, 0x00, 0x00, 0x00, 0x00,
   0x9A, 0x3C]

/-- A transport on which every call succeeds and every read delivers
`emptyRecordBlock`. -/
def emptyRecordTransport : Transport := ⟨fun _ _ => true, fun _ _ => emptyRecordBlock⟩

/-- A block with two null TLVs before the NDEF TLV: tag at offset 2, length
13, the 12 message bytes that fit into the block; followed by 2 CRC bytes. -/
def nullTlvBlock : List Nat :=
  [0x00, 0x00, 0x03, 0x0D, 0xD1, 0x01, 0x09, 0x54, 0x02, 0x65, 0x6E, 0x41, 0x42, 0x43, 0x44, 0x45,
   0x9A, 0x3C]

/-- A transport on which every call succeeds and every read delivers
`nullTlvBlock`. -/
def nullTlvTransport : Transport := ⟨fun _ _ => true, fun _ _ => nullTlvBlock⟩

/-- A transport on which no call succeeds. -/
def failTransport : Transport := ⟨fun _ _ => false, fun _ _ => []⟩

/-- A transport on which every authentication succeeds and every read or
write fails. -/
def authOnlyTransport : Transport := ⟨fun _ c => c.isAuth, fun _ _ => []⟩

/-- A transport that answers like `emptyRecordTransport`, except that reads
fail once a block has been read. -/
def secondReadFailsTransport : Transport :=
  ⟨fun log c => !(c.isData && (readsOf log).length ≥ 1), fun _ _ => emptyRecordBlock⟩

/-- A transport on which the first authentication succeeds and every later
one fails; reads succeed and deliver `emptyRecordBlock`. -/
def secondAuthFailsTransport : Transport :=
  ⟨fun log c => !(c.isAuth && (log.filter Call.isAuth).length ≥ 1), fun _ _ => emptyRecordBlock⟩


/-- The bytes of an Ultralight tag from page 0 on: three pages of serial
number and lock bytes, the capability container `E1 10 cc2 00` in page 3, and
`data` from page 4 on. -/
def ultralightMemory (cc2 : Nat) (data : List Nat) : List Nat :=
  [0x04, 0x11, 0x22, 0xBF, 0x33, 0x44, 0x55, 0x66, 0x44, 0x48, 0x00, 0x00]
    ++ [0xE1, 0x10, cc2, 0x00] ++ data

/-- A transport on which every call succeeds and a read of page `p` delivers
the 16 bytes of the pages `p` to `p + 3` of `ultralightMemory cc2 data`
(zeros beyond its end), followed by the 2 CRC bytes `9A 3C`. -/
def ultralightTag (cc2 : Nat) (data : List Nat) : Transport :=
  ⟨fun _ _ => true,
   fun _ page =>
    (List.range 16).map (fun k => (ultralightMemory cc2 data).getD (4 * page + k) 0)
      ++ [0x9A, 0x3C]⟩

end NDEF

namespace NDEF

/-! ## Lemmas on stores -/

theorem memcpy_eq_enumFrom (dst : Nat) (src : List Nat) :
    memcpy dst src src.length = List.enumFrom dst src := by
  apply List.ext_getElem
  · simp [memcpy]
  · intro n h₁ h₂
    simp [memcpy] at h₁
    simp [memcpy, List.getElem?_eq_getElem h₁]

theorem applyStores_append (data : List Nat) (s t : List (Nat × Nat)) :
    applyStores data (s ++ t) = applyStores (applyStores data s) t := by
  simp [applyStores, List.foldl_append]

theorem applyStores_length (data : List Nat) (s : List (Nat × Nat)) :
    (applyStores data s).length = data.length := by
  induction s generalizing data with
  | nil => rfl
  | cons a s ih =>
    have := ih (data.set a.1 a.2)
    simpa [applyStores] using this

theorem applyStores_enumFrom (vs : List Nat) :
    ∀ (data : List Nat) (k : Nat), k + vs.length ≤ data.length →
      applyStores data (List.enumFrom k vs)
        = data.take k ++ vs ++ data.drop (k + vs.length) := by
  induction vs with
  | nil => intro data k _; simp [applyStores]
  | cons v vs ih =>
    intro data k h
    simp only [List.length_cons] at h
    have hk : k < data.length := by omega
    have step : applyStores data (List.enumFrom k (v :: vs))
        = applyStores (data.set k v) (List.enumFrom (k + 1) vs) := by
      simp [applyStores, List.enumFrom_cons]
    rw [step, ih (data.set k v) (k + 1) (by simp; omega)]
    rw [List.drop_set_of_lt v data (by omega : k < k + 1 + vs.length)]
    rw [List.set_eq_take_cons_drop v hk]
    have h1 : List.take (k + 1) (List.take k data ++ v :: List.drop (k + 1) data)
        = List.take k data ++ [v] := by
      have hl : (List.take k data).length = k := by simp; omega
      have := @List.take_append _ (List.take k data) (v :: List.drop (k + 1) data) 1
      rw [hl] at this
      simpa using this
    rw [h1]
    simp [List.length_cons, Nat.add_comm, Nat.add_left_comm]

theorem stores_eq_enumFrom (ss : List (Nat × Nat)) :
    ∀ k, ss.map Prod.fst = List.range' k ss.length → ss = List.enumFrom k (ss.map Prod.snd) := by
  induction ss with
  | nil => intro k _; rfl
  | cons s ss ih =>
    intro k h
    simp only [List.map_cons, List.length_cons, List.range'_succ, List.cons.injEq] at h
    have := ih (k + 1) h.2
    simp only [List.map_cons, List.enumFrom_cons, List.cons.injEq]
    exact ⟨Prod.ext h.1 rfl, this⟩

end NDEF

namespace NDEF
namespace NdefRecord

/-! ## NdefRecord: layout of the encoded record -/

theorem shr8_and_ff (n : Nat) : (n >>> 8) &&& 0xFF = n / 256 % 256 := by
  have h := Nat.and_pow_two_sub_one_eq_mod (n >>> 8) 8
  rw [Nat.shiftRight_eq_div_pow] at h ⊢
  simpa using h

theorem and_ff (n : Nat) : n &&& 0xFF = n % 256 := by
  simpa using Nat.and_pow_two_sub_one_eq_mod n 8

/-- The size of the encoded record without the 32-bit wrap. -/
theorem getEncodedSize_of_fits (r : NdefRecord) (h : r.specSize < 2 ^ 32) :
    r.getEncodedSize = r.specSize := by
  simp only [specSize] at h
  simp only [getEncodedSize, specSize, _payloadLength, _idLength, _typeLength, toUInt32]
  split_ifs at h ⊢ <;> omega

theorem encodeStores_fst (r : NdefRecord) (f l : Bool) :
    (r.encodeStores f l).map Prod.fst = List.range' 0 r.specSize := by
  simp only [specSize, encodeStores, _payloadLength, _idLength, _typeLength, memcpy_eq_enumFrom]
  by_cases hp : r._payload.length ≤ 255 <;> by_cases hi : r._id.length = 0
  all_goals
    simp [hp, hi, Nat.pos_iff_ne_zero, List.enumFrom_map_fst, List.range'_append,
      List.range'_eq_cons_iff]
  · rw [show 3 + r._type.length + r._payload.length
        = (r._payload.length + r._type.length) + 3 by omega]; rfl
  · rw [show 4 + r._type.length + r._id.length + r._payload.length
        = (r._payload.length + r._id.length + r._type.length) + 4 by omega]; rfl
  · rw [show 6 + r._type.length + r._payload.length
        = (r._payload.length + r._type.length) + 6 by omega]; rfl
  · rw [show 7 + r._type.length + r._id.length + r._payload.length
        = (r._payload.length + r._id.length + r._type.length) + 7 by omega]; rfl


theorem tnfByte_eq (r : NdefRecord) (f l : Bool) :
    r._getTnfByte f l
      = r._tnf.toNat ||| (if f then 0x80 else 0) ||| (if l then 0x40 else 0)
        ||| (if r._payload.length ≤ 255 then 0x10 else 0)
        ||| (if 0 < r._id.length then 0x08 else 0) := by
  simp only [_getTnfByte, _payloadLength, _idLength, toByte, Nat.pos_iff_ne_zero]
  by_cases hp : r._payload.length ≤ 255 <;> by_cases hi : r._id.length = 0 <;>
    cases f <;> cases l <;> cases r._tnf <;> simp [hp, hi, TNF.toNat]

theorem encodeStores_snd (r : NdefRecord) (f l : Bool)
    (ht : r._type.length ≤ 255) (hi : r._id.length ≤ 255) :
    (r.encodeStores f l).map Prod.snd = r.layout f l := by
  simp only [encodeStores, layout, tnfByte_eq, _payloadLength, _idLength, _typeLength,
    memcpy_eq_enumFrom, toByte, shr8_and_ff, and_ff]
  by_cases hp : r._payload.length ≤ 255 <;> by_cases hi0 : r._id.length = 0
  all_goals
    simp [hp, hi0, Nat.pos_iff_ne_zero, List.enumFrom_map_snd, Nat.mod_eq_of_lt,
      Nat.lt_succ_of_le ht, Nat.lt_succ_of_le hi]
  · exact ⟨by omega, List.length_eq_zero.mp hi0⟩
  · omega
  · exact ⟨by rw [Nat.shiftRight_eq_div_pow], List.length_eq_zero.mp hi0⟩
  · rw [Nat.shiftRight_eq_div_pow]


theorem layout_length (r : NdefRecord) (f l : Bool) :
    (r.layout f l).length = r.specSize := by
  simp only [layout, specSize]
  split_ifs <;> simp <;> omega

/-- On a buffer that is large enough, `encode` overwrites the first bytes with
the record layout and leaves the rest of the buffer alone. -/
theorem encode_eq_layout (r : NdefRecord) (f l : Bool) (data : List Nat)
    (ht : r._type.length ≤ 255) (hi : r._id.length ≤ 255)
    (hd : (r.layout f l).length ≤ data.length) :
    r.encode data f l = r.layout f l ++ data.drop (r.layout f l).length := by
  have hfst := encodeStores_fst r f l
  have hsnd := encodeStores_snd r f l ht hi
  have hlen : (r.encodeStores f l).length = (r.layout f l).length := by
    rw [← hsnd, List.length_map]
  rw [← layout_length r f l, ← hlen] at hfst
  have hs := stores_eq_enumFrom _ 0 hfst
  rw [hsnd] at hs
  unfold encode
  rw [hs, applyStores_enumFrom _ _ _ (by omega)]
  simp


theorem header_bits (t : TNF) (f l : Bool) (p q : Prop) [Decidable p] [Decidable q] :
    TNF.fromNat ((t.toNat ||| (if f then 0x80 else 0) ||| (if l then 0x40 else 0)
        ||| (if p then 0x10 else 0) ||| (if q then 0x08 else 0)) &&& 0x7) = t
    ∧ ((t.toNat ||| (if f then 0x80 else 0) ||| (if l then 0x40 else 0)
        ||| (if p then 0x10 else 0) ||| (if q then 0x08 else 0)) &&& 0x10 ≠ 0 ↔ p)
    ∧ ((t.toNat ||| (if f then 0x80 else 0) ||| (if l then 0x40 else 0)
        ||| (if p then 0x10 else 0) ||| (if q then 0x08 else 0)) &&& 0x8 ≠ 0 ↔ q) := by
  by_cases hp : p <;> by_cases hq : q <;> simp only [hp, hq, if_true, if_false] <;>
    cases f <;> cases l <;> cases t <;> decide

theorem slice_eq (pre mid post : List Nat) (n m : Nat) (hn : pre.length = n)
    (hm : mid.length = m) : List.take m (List.drop n (pre ++ (mid ++ post))) = mid := by
  rw [List.drop_left' hn, List.take_left' hm]

theorem decode_layout (r : NdefRecord) (f l : Bool) (rest : List Nat)
    (ht : r._type.length ≤ 255) (hi : r._id.length ≤ 255) (hp : r._payload.length ≤ 65535) :
    decode (r.layout f l ++ rest) = some r := by
  obtain ⟨tnf, type, payload, id⟩ := r
  simp only at ht hi hp
  obtain ⟨h1, h2, h3⟩ := header_bits tnf f l (payload.length ≤ 255) (0 < id.length)
  simp only [layout]
  generalize (tnf.toNat ||| (if f then 0x80 else 0) ||| (if l then 0x40 else 0)
        ||| (if payload.length ≤ 255 then 0x10 else 0)
        ||| (if 0 < id.length then 0x08 else 0)) = hdr at h1 h2 h3 ⊢
  by_cases hpl : payload.length ≤ 255 <;> by_cases hi0 : 0 < id.length
  · have e2 : hdr &&& 0x10 ≠ 0 := h2.mpr hpl
    have e3 : hdr &&& 0x8 ≠ 0 := h3.mpr hi0
    unfold decode
    simp [hpl, hi0, e2, e3, h1]
    refine ⟨by omega, ?_, ?_⟩
    · simpa using slice_eq (hdr :: type.length :: payload.length :: id.length :: (type ++ id))
        payload rest (4 + type.length + id.length) payload.length (by simp; omega) rfl
    · simpa using slice_eq (hdr :: type.length :: payload.length :: id.length :: type)
        id (payload ++ rest) (4 + type.length) id.length (by simp; omega) rfl
  · have e2 : hdr &&& 0x10 ≠ 0 := h2.mpr hpl
    have e3 : ¬ (hdr &&& 0x8 ≠ 0) := fun h => hi0 (h3.mp h)
    have hid : id = [] := by
      cases id with
      | nil => rfl
      | cons a t => simp at hi0
    subst hid
    unfold decode
    simp [hpl, e2, e3, h1]
    refine ⟨by omega, ?_⟩
    simpa using slice_eq (hdr :: type.length :: payload.length :: type)
        payload rest (3 + type.length) payload.length (by simp; omega) rfl
  · have e2 : ¬ (hdr &&& 0x10 ≠ 0) := fun h => hpl (h2.mp h)
    have e3 : hdr &&& 0x8 ≠ 0 := h3.mpr hi0
    have hlen : payload.length / 256 % 256 * 256 + payload.length % 256 = payload.length := by
      omega
    unfold decode
    simp [hpl, hi0, e2, e3, h1]
    rw [hlen]
    refine ⟨by omega, ?_, ?_⟩
    · simpa using slice_eq (hdr :: type.length :: 0 :: 0 :: (payload.length / 256 % 256)
        :: (payload.length % 256) :: id.length :: (type ++ id))
        payload rest (7 + type.length + id.length) payload.length (by simp; omega) rfl
    · simpa using slice_eq (hdr :: type.length :: 0 :: 0 :: (payload.length / 256 % 256)
        :: (payload.length % 256) :: id.length :: type)
        id (payload ++ rest) (7 + type.length) id.length (by simp; omega) rfl
  · have e2 : ¬ (hdr &&& 0x10 ≠ 0) := fun h => hpl (h2.mp h)
    have e3 : ¬ (hdr &&& 0x8 ≠ 0) := fun h => hi0 (h3.mp h)
    have hlen : payload.length / 256 % 256 * 256 + payload.length % 256 = payload.length := by
      omega
    have hid : id = [] := by
      cases id with
      | nil => rfl
      | cons a t => simp at hi0
    subst hid
    unfold decode
    simp [hpl, e2, e3, h1]
    rw [hlen]
    refine ⟨by omega, ?_⟩
    simpa using slice_eq (hdr :: type.length :: 0 :: 0 :: (payload.length / 256 % 256)
        :: (payload.length % 256) :: type)
        payload rest (6 + type.length) payload.length (by simp; omega) rfl


theorem encodeStores_length (r : NdefRecord) (f l : Bool) :
    (r.encodeStores f l).length = r.specSize := by
  have h := congrArg List.length (encodeStores_fst r f l)
  simpa using h

/-- The bytes that `encode` stores, in program order, for any record. -/
theorem written_bytes (r : NdefRecord) (f l : Bool) :
    (r.encodeStores f l).map Prod.snd
      = [r._getTnfByte f l, r._type.length % 256]
        ++ (if r._payload.length ≤ 255 then [r._payload.length]
            else [0, 0, r._payload.length / 256 % 256, r._payload.length % 256])
        ++ (if 0 < r._id.length then [r._id.length % 256] else [])
        ++ r._type ++ r._id ++ r._payload := by
  simp only [encodeStores, _payloadLength, _idLength, _typeLength,
    memcpy_eq_enumFrom, toByte, shr8_and_ff, and_ff]
  by_cases hp : r._payload.length ≤ 255 <;> by_cases hi0 : r._id.length = 0
  · have hid : r._id = [] := List.length_eq_zero.mp hi0
    have : r._payload.length % 256 = r._payload.length := Nat.mod_eq_of_lt (by omega)
    simp [hp, hid, List.enumFrom_map_snd, this]
  · have : r._payload.length % 256 = r._payload.length := Nat.mod_eq_of_lt (by omega)
    simp [hp, hi0, Nat.pos_iff_ne_zero, List.enumFrom_map_snd, this]
  · have hid : r._id = [] := List.length_eq_zero.mp hi0
    simp [hp, hid, List.enumFrom_map_snd, Nat.shiftRight_eq_div_pow]
  · simp [hp, hi0, Nat.pos_iff_ne_zero, List.enumFrom_map_snd, Nat.shiftRight_eq_div_pow]

/-- On a buffer that is large enough, `encode` replaces the first `specSize`
bytes by the bytes it stores. -/
theorem encode_eq_written (r : NdefRecord) (f l : Bool) (data : List Nat)
    (hd : r.specSize ≤ data.length) :
    r.encode data f l = (r.encodeStores f l).map Prod.snd ++ data.drop r.specSize := by
  have hfst := encodeStores_fst r f l
  rw [← encodeStores_length r f l] at hfst
  have hs := stores_eq_enumFrom _ 0 hfst
  have hlen : ((r.encodeStores f l).map Prod.snd).length = r.specSize := by
    rw [List.length_map, encodeStores_length]
  unfold encode
  rw [hs, applyStores_enumFrom _ _ _ (by omega), hlen]
  simp

theorem tnfByte_lt (r : NdefRecord) (f l : Bool) : r._getTnfByte f l < 256 := by
  unfold _getTnfByte toByte
  exact Nat.mod_lt _ (by decide)

/-- Encoding a record of bytes into a buffer of bytes gives a buffer of bytes. -/
theorem encode_bytes (r : NdefRecord) (f l : Bool) (data : List Nat)
    (hd : r.specSize ≤ data.length)
    (ht : ∀ b ∈ r._type, b < 256) (hi : ∀ b ∈ r._id, b < 256)
    (hp : ∀ b ∈ r._payload, b < 256) (hdata : ∀ b ∈ data, b < 256) :
    ∀ b ∈ r.encode data f l, b < 256 := by
  intro b hb
  rw [encode_eq_written r f l data hd, written_bytes] at hb
  simp only [List.mem_append, List.mem_cons, List.mem_singleton, List.not_mem_nil,
    or_false] at hb
  have htnf := tnfByte_lt r f l
  rcases hb with (((((h | h) | h) | h) | h) | h) | h
  · rcases h with rfl | rfl
    · exact htnf
    · exact Nat.mod_lt _ (by decide)
  · split_ifs at h
    · simp only [List.mem_singleton] at h; omega
    · simp only [List.mem_cons, List.mem_singleton, List.not_mem_nil, or_false] at h
      rcases h with rfl | rfl | rfl | rfl
      · decide
      · decide
      · exact Nat.mod_lt _ (by decide)
      · exact Nat.mod_lt _ (by decide)
  · split_ifs at h
    · simp only [List.mem_singleton] at h
      rw [h]; exact Nat.mod_lt _ (by decide)
    · simp at h
  · exact ht b h
  · exact hi b h
  · exact hp b h
  · exact hdata b (List.mem_of_mem_drop h)

theorem getD_byte (data : List Nat) (hb : ∀ b ∈ data, b < 256) (k : Nat) :
    data.getD k 0 < 256 := by
  rcases Nat.lt_or_ge k data.length with hk | hk
  · rw [List.getD_eq_getElem _ _ hk]
    exact hb _ (List.getElem_mem _)
  · rw [List.getD_eq_default _ _ hk]; decide

theorem some_of_ite_none {α : Type} (c : Prop) [Decidable c] (x r : α)
    (h : (if c then none else some x) = some r) : x = r := by
  split_ifs at h
  exact Option.some.inj h

/-- Whatever `decode` returns from a buffer of bytes has a type and an id of
at most 255 bytes: their lengths are read from single bytes. -/
theorem decode_lengths_le (data : List Nat) (hb : ∀ b ∈ data, b < 256) (r : NdefRecord)
    (h : decode data = some r) : r._type.length ≤ 255 ∧ r._id.length ≤ 255 := by
  unfold decode at h
  by_cases h2 : data.length < 2
  · rw [if_pos h2] at h
    exact absurd h (by simp)
  · rw [if_neg h2] at h
    simp only [] at h
    have hr := some_of_ite_none _ _ _ h
    subst hr
    simp only [List.length_take]
    constructor
    · exact Nat.le_trans (Nat.min_le_left _ _) (Nat.le_of_lt_succ (getD_byte data hb _))
    · refine Nat.le_trans (Nat.min_le_left _ _) ?_
      split_ifs <;>
        first
        | exact Nat.le_of_lt_succ (getD_byte data hb _)
        | exact Nat.zero_le _

/-- The round trip fails for every record of bytes whose type or id is longer
than 255 bytes. -/
theorem roundtrip_fails_of_long_field (r : NdefRecord) (f l : Bool) (data : List Nat)
    (hd : r.specSize ≤ data.length)
    (ht : ∀ b ∈ r._type, b < 256) (hi : ∀ b ∈ r._id, b < 256)
    (hp : ∀ b ∈ r._payload, b < 256) (hdata : ∀ b ∈ data, b < 256)
    (hlong : 256 ≤ r._type.length ∨ 256 ≤ r._id.length) :
    decode (r.encode data f l) ≠ some r := by
  intro h
  have := decode_lengths_le _ (encode_bytes r f l data hd ht hi hp hdata) r h
  omega

/-- The round trip fails for a record of constant buffers when the type or
the id is longer than 255 bytes. -/
theorem roundtrip_fails_replicate (r : NdefRecord) (nt ni np a b c : Nat) (f l : Bool)
    (hT : r._type = List.replicate nt a) (hI : r._id = List.replicate ni b)
    (hP : r._payload = List.replicate np c) (ha : a < 256) (hb : b < 256) (hc : c < 256)
    (hfit : nt + ni + np + 7 < 2 ^ 32) (hlong : 256 ≤ nt ∨ 256 ≤ ni) :
    decode (r.encode (List.replicate r.getEncodedSize 0) f l) ≠ some r := by
  have hsz : r.specSize < 2 ^ 32 := by
    simp only [specSize, hT, hI, hP, List.length_replicate]
    split_ifs <;> omega
  apply roundtrip_fails_of_long_field
  · rw [List.length_replicate, getEncodedSize_of_fits r hsz]
  · intro x hx; rw [hT] at hx; rw [List.eq_of_mem_replicate hx]; exact ha
  · intro x hx; rw [hI] at hx; rw [List.eq_of_mem_replicate hx]; exact hb
  · intro x hx; rw [hP] at hx; rw [List.eq_of_mem_replicate hx]; exact hc
  · intro x hx; rw [List.eq_of_mem_replicate hx]; decide
  · rw [hT, hI, List.length_replicate, List.length_replicate]; exact hlong

/-! ## NdefRecord: the claims -/

/-- Claim C1, as stated, fails: the records `recordType256`, `recordType1000`
(type length 256 and 1000, id and payload empty), `recordId256` and
`recordId1000` (id length 256 and 1000, type and payload empty) have all three
lengths in {0,1,254,255,256,1000}, and decoding the bytes that `encode` writes
for them does not give the record back. -/
theorem roundtrip_fails_beyond_one_byte :
    (recordType256._type.length = 256 ∧ recordType256._id.length = 0
      ∧ recordType256._payload.length = 0
      ∧ decode (recordType256.encode (List.replicate recordType256.getEncodedSize 0) true true)
          ≠ some recordType256)
    ∧ (recordType1000._type.length = 1000 ∧ recordType1000._id.length = 0
      ∧ recordType1000._payload.length = 0
      ∧ decode (recordType1000.encode (List.replicate recordType1000.getEncodedSize 0) true true)
          ≠ some recordType1000)
    ∧ (recordId256._type.length = 0 ∧ recordId256._id.length = 256
      ∧ recordId256._payload.length = 0
      ∧ decode (recordId256.encode (List.replicate recordId256.getEncodedSize 0) true true)
          ≠ some recordId256)
    ∧ (recordId1000._type.length = 0 ∧ recordId1000._id.length = 1000
      ∧ recordId1000._payload.length = 0
      ∧ decode (recordId1000.encode (List.replicate recordId1000.getEncodedSize 0) true true)
          ≠ some recordId1000) := by
  refine ⟨⟨List.length_replicate 256 0x54, rfl, rfl, ?_⟩,
    ⟨List.length_replicate 1000 0x54, rfl, rfl, ?_⟩,
    ⟨rfl, List.length_replicate 256 0x41, rfl, ?_⟩,
    ⟨rfl, List.length_replicate 1000 0x41, rfl, ?_⟩⟩
  · exact roundtrip_fails_replicate recordType256 256 0 0 0x54 0 0 true true rfl rfl rfl
      (by decide) (by decide) (by decide) (by decide) (Or.inl (Nat.le_refl _))
  · exact roundtrip_fails_replicate recordType1000 1000 0 0 0x54 0 0 true true rfl rfl rfl
      (by decide) (by decide) (by decide) (by decide) (Or.inl (by decide))
  · exact roundtrip_fails_replicate recordId256 0 256 0 0 0x41 0 true true rfl rfl rfl
      (by decide) (by decide) (by decide) (by decide) (Or.inr (Nat.le_refl _))
  · exact roundtrip_fails_replicate recordId1000 0 1000 0 0 0x41 0 true true rfl rfl rfl
      (by decide) (by decide) (by decide) (by decide) (Or.inr (by decide))

/-- Claim C1, amended: for every record whose type and id lengths are at most
255 and whose payload length is at most 65535 (so in particular type and id
lengths in {0,1,254,255} and payload length in {0,1,254,255,256,1000}), and
for every pair of flags, decoding what `encode` writes into a buffer that is
large enough returns the record itself: same TNF, type, id and payload. -/
theorem roundtrip_of_byte_lengths (r : NdefRecord) (isFirst isLast : Bool) (data : List Nat)
    (ht : r._type.length ≤ 255) (hi : r._id.length ≤ 255) (hp : r._payload.length ≤ 65535)
    (hd : r.specSize ≤ data.length) :
    decode (r.encode data isFirst isLast) = some r := by
  rw [encode_eq_layout r isFirst isLast data ht hi (by rw [layout_length]; exact hd)]
  exact decode_layout r isFirst isLast _ ht hi hp

/-- An instance of `roundtrip_of_byte_lengths` at a concrete input. -/
theorem roundtrip_of_byte_lengths_witness :
    decode (sampleRecord.encode (List.replicate 16 0) true false) = some sampleRecord :=
  roundtrip_of_byte_lengths sampleRecord true false (List.replicate 16 0)
    (by decide) (by decide) (by decide) (by decide)

/-- Claim C2: for every record whose type and id lengths fit in one byte and
every (isFirst, isLast), the stores of `encode` go to the offsets 0, 1, 2, ...
in order and carry exactly the bytes of `layout`: the header byte
`TNF | 0x80 if isFirst | 0x40 if isLast | 0x10 if payload ≤ 255 | 0x08 if id
non-empty`, the type-length byte, the payload length (1 byte, or `00 00 hi lo`),
the id-length byte only for a non-empty id, then type, id, payload. The chunk
bit `0x20` of the header is clear, and a buffer that is large enough holds the
layout followed by its old content. -/
theorem encode_writes_layout (r : NdefRecord) (isFirst isLast : Bool)
    (ht : r._type.length ≤ 255) (hi : r._id.length ≤ 255) :
    r.encodeStores isFirst isLast = List.enumFrom 0 (r.layout isFirst isLast)
    ∧ (r.layout isFirst isLast).head? = some (r._getTnfByte isFirst isLast)
    ∧ r._getTnfByte isFirst isLast &&& 0x20 = 0
    ∧ ∀ data : List Nat, r.specSize ≤ data.length →
        r.encode data isFirst isLast = r.layout isFirst isLast ++ data.drop r.specSize := by
  refine ⟨?_, ?_, ?_, ?_⟩
  · have hfst := encodeStores_fst r isFirst isLast
    rw [← encodeStores_length r isFirst isLast] at hfst
    have hs := stores_eq_enumFrom _ 0 hfst
    rwa [encodeStores_snd r isFirst isLast ht hi] at hs
  · simp [layout, tnfByte_eq]
  · rw [tnfByte_eq]
    by_cases hp : r._payload.length ≤ 255 <;> by_cases hq : 0 < r._id.length <;>
      simp only [hp, hq, if_true, if_false] <;>
      cases isFirst <;> cases isLast <;> cases r._tnf <;> decide
  · intro data hd
    have h := encode_eq_layout r isFirst isLast data ht hi (by rw [layout_length]; exact hd)
    rwa [layout_length] at h

/-- An instance of `encode_writes_layout` at a concrete input. -/
theorem encode_writes_layout_witness :
    sampleRecord.encodeStores true false = List.enumFrom 0 (sampleRecord.layout true false)
    ∧ (sampleRecord.layout true false).head? = some (sampleRecord._getTnfByte true false)
    ∧ sampleRecord._getTnfByte true false &&& 0x20 = 0
    ∧ ∀ data : List Nat, sampleRecord.specSize ≤ data.length →
        sampleRecord.encode data true false
          = sampleRecord.layout true false ++ data.drop sampleRecord.specSize :=
  encode_writes_layout sampleRecord true false (by decide) (by decide)

/-- Claim C3: `getEncodedSize` returns 2 + (1 if payload length ≤ 255, else 4)
+ (1 if id length > 0, else 0) + type length + id length + payload length, for
every record for which that number fits in an `unsigned int`. -/
theorem getEncodedSize_formula (r : NdefRecord) (h : r.specSize < 2 ^ 32) :
    r.getEncodedSize
      = 2 + (if r._payload.length ≤ 255 then 1 else 4) + (if r._id.length > 0 then 1 else 0)
        + r._type.length + r._id.length + r._payload.length :=
  getEncodedSize_of_fits r h

/-- An instance of `getEncodedSize_formula` at a concrete input. -/
theorem getEncodedSize_formula_witness :
    sampleRecord.getEncodedSize
      = 2 + (if sampleRecord._payload.length ≤ 255 then 1 else 4)
        + (if sampleRecord._id.length > 0 then 1 else 0)
        + sampleRecord._type.length + sampleRecord._id.length + sampleRecord._payload.length :=
  getEncodedSize_formula sampleRecord (by decide)

/-- Claim C4: for every record (whose size fits in an `unsigned int`) and
every (isFirst, isLast), the offsets that `encode` stores to are exactly
0, 1, ..., getEncodedSize() - 1, each once and in increasing order: every
index below getEncodedSize() is written and no index at or above it is. -/
theorem encode_writes_exactly_encodedSize (r : NdefRecord) (isFirst isLast : Bool)
    (h : r.specSize < 2 ^ 32) :
    (r.encodeStores isFirst isLast).map Prod.fst = List.range r.getEncodedSize
    ∧ (∀ i, i < r.getEncodedSize → i ∈ (r.encodeStores isFirst isLast).map Prod.fst)
    ∧ (∀ s ∈ r.encodeStores isFirst isLast, s.1 < r.getEncodedSize) := by
  have hfst : (r.encodeStores isFirst isLast).map Prod.fst = List.range r.getEncodedSize := by
    rw [getEncodedSize_of_fits r h, List.range_eq_range']
    exact encodeStores_fst r isFirst isLast
  refine ⟨hfst, ?_, ?_⟩
  · intro i hi
    rw [hfst]
    exact List.mem_range.mpr hi
  · intro s hs
    have : s.1 ∈ (r.encodeStores isFirst isLast).map Prod.fst := List.mem_map_of_mem _ hs
    rw [hfst] at this
    exact List.mem_range.mp this

/-- An instance of `encode_writes_exactly_encodedSize` at a concrete input. -/
theorem encode_writes_exactly_encodedSize_witness :
    (sampleRecord.encodeStores true true).map Prod.fst = List.range sampleRecord.getEncodedSize
    ∧ (∀ i, i < sampleRecord.getEncodedSize →
        i ∈ (sampleRecord.encodeStores true true).map Prod.fst)
    ∧ (∀ s ∈ sampleRecord.encodeStores true true, s.1 < sampleRecord.getEncodedSize) :=
  encode_writes_exactly_encodedSize sampleRecord true true (by decide)

/-- Claim C5, as stated, fails at payload length 255: `recordPayload255` is
encoded in the short form. Its header `D2` has the short-record flag `0x10`
set, its payload-length field is the single byte `FF`, and the payload follows
directly, 258 bytes in all. -/
theorem payload_255_is_short_form :
    recordPayload255._payload.length = 255
    ∧ recordPayload255._getTnfByte true true &&& 0x10 = 0x10
    ∧ recordPayload255.getEncodedSize = 2 + 1 + 255
    ∧ (recordPayload255.encodeStores true true).map Prod.snd
        = [0xD2, 0x00, 0xFF] ++ recordPayload255._payload := by
  have hlen : recordPayload255._payload.length = 255 := List.length_replicate 255 0xAA
  have hid : recordPayload255._id = [] := rfl
  have hty : recordPayload255._type = [] := rfl
  have htnf : recordPayload255._tnf = TNF.TNF_MIME_MEDIA := rfl
  have hhdr : recordPayload255._getTnfByte true true = 0xD2 := by
    rw [tnfByte_eq, hlen, hid, htnf]; decide
  refine ⟨hlen, by rw [hhdr]; decide, ?_, ?_⟩
  · rw [getEncodedSize_of_fits] <;> simp only [specSize, hlen, hid, hty] <;> decide
  · rw [written_bytes, hhdr, hlen, hid, hty]; rfl

/-- Claim C5, amended: the boundary of the record encoder is at 255/256. A
record with payload length at most 255 (so 254 and also 255) is encoded with
the short-record flag set and a 1-byte payload-length field; every record
with payload length 256 or above is encoded with the flag clear and a 4-byte
field whose top two bytes are zero. In both cases the field follows the
type-length byte and is followed by the id-length byte (if any), type, id and
payload. -/
theorem length_form_boundary (r : NdefRecord) (isFirst isLast : Bool) :
    r._getTnfByte isFirst isLast &&& 0x10 = (if r._payload.length ≤ 255 then 0x10 else 0)
    ∧ (r.encodeStores isFirst isLast).map Prod.snd
        = [r._getTnfByte isFirst isLast, r._type.length % 256]
          ++ (if r._payload.length ≤ 255 then [r._payload.length]
              else [0, 0, r._payload.length / 256 % 256, r._payload.length % 256])
          ++ (if 0 < r._id.length then [r._id.length % 256] else [])
          ++ r._type ++ r._id ++ r._payload := by
  constructor
  · rw [tnfByte_eq]
    by_cases hp : r._payload.length ≤ 255 <;> by_cases hq : 0 < r._id.length <;>
      simp only [hp, hq, if_true, if_false] <;>
      cases isFirst <;> cases isLast <;> cases r._tnf <;> decide
  · exact written_bytes r isFirst isLast

end NdefRecord
end NDEF

namespace NDEF
namespace MifareClassic

/-! ## MifareClassic: buffer sizing -/

theorem toInt32_of_range (z : Int) (h0 : -2 ^ 31 ≤ z) (h1 : z < 2 ^ 31) : toInt32 z = z := by
  unfold toInt32
  omega

theorem getBufferSize_eq (len : Int) (h0 : 0 ≤ len) (h1 : len + 5 ≤ 2 ^ 31 - 16) :
    getBufferSize len = (len + (if len < 255 then 3 else 5) + 15) / 16 * 16 := by
  unfold getBufferSize
  simp only [BLOCK_SIZE, SHORT_TLV_SIZE, LONG_TLV_SIZE, Nat.cast_ofNat]
  by_cases hs : len < 255
  · have e1 : toInt32 (len + (2 + 1)) = len + 3 := by
      rw [toInt32_of_range _ (by omega) (by omega)]; omega
    simp only [hs, if_true, e1]
    rw [Int.tmod_eq_emod (by omega) (by omega), Int.tdiv_eq_ediv (by omega) (by omega)]
    by_cases hm : (len + 3) % 16 ≠ 0
    · rw [if_pos hm]
      rw [toInt32_of_range ((len + 3) / 16 + 1) (by omega) (by omega)]
      rw [toInt32_of_range _ (by omega) (by omega)]
      omega
    · rw [if_neg hm]
      omega
  · have e1 : toInt32 (len + (4 + 1)) = len + 5 := by
      rw [toInt32_of_range _ (by omega) (by omega)]; omega
    simp only [hs, if_false, e1]
    rw [Int.tmod_eq_emod (by omega) (by omega), Int.tdiv_eq_ediv (by omega) (by omega)]
    by_cases hm : (len + 5) % 16 ≠ 0
    · rw [if_pos hm]
      rw [toInt32_of_range ((len + 5) / 16 + 1) (by omega) (by omega)]
      rw [toInt32_of_range _ (by omega) (by omega)]
      omega
    · rw [if_neg hm]
      omega

/-- Claim C9: for every message length `len ≥ 0` (whose padded size is still
an `int`), `getBufferSize(len)` is the least multiple of 16 that is at least
`len + overhead`, where the overhead is 3 when `len < 255` and 5 otherwise:
it is a multiple of 16, it is at least `len + overhead`, and no smaller
multiple of 16 is. -/
theorem getBufferSize_least_multiple (len : Int) (h0 : 0 ≤ len)
    (h1 : len + 5 ≤ 2 ^ 31 - 16) :
    (16 : Int) ∣ getBufferSize len
    ∧ len + (if len < 255 then 3 else 5) ≤ getBufferSize len
    ∧ ∀ m : Int, (16 : Int) ∣ m → len + (if len < 255 then 3 else 5) ≤ m →
        getBufferSize len ≤ m := by
  rw [getBufferSize_eq len h0 h1]
  refine ⟨Dvd.intro_left _ rfl, ?_, ?_⟩
  · split_ifs <;> omega
  · intro m hm hle
    obtain ⟨k, rfl⟩ := hm
    split_ifs at hle ⊢ <;> omega

/-- An instance of `getBufferSize_least_multiple` at a concrete input. -/
theorem getBufferSize_least_multiple_witness :
    (16 : Int) ∣ getBufferSize 254
    ∧ (254 : Int) + (if (254 : Int) < 255 then 3 else 5) ≤ getBufferSize 254
    ∧ ∀ m : Int, (16 : Int) ∣ m → (254 : Int) + (if (254 : Int) < 255 then 3 else 5) ≤ m →
        getBufferSize 254 ≤ m :=
  getBufferSize_least_multiple 254 (by decide) (by decide)

end MifareClassic
end NDEF

namespace NDEF
namespace MifareClassic

/-! ## MifareClassic: TLV decoding -/

theorem mask_shift_or (a b : Nat) (ha : a < 256) (hb : b < 256) :
    ((0xFF &&& a) <<< 8) ||| (0xFF &&& b) = 256 * a + b := by
  have e1 : 0xFF &&& a = a := by
    rw [Nat.and_comm]
    have := Nat.and_pow_two_sub_one_eq_mod a 8
    simp at this
    rw [this]; exact Nat.mod_eq_of_lt ha
  have e2 : 0xFF &&& b = b := by
    rw [Nat.and_comm]
    have := Nat.and_pow_two_sub_one_eq_mod b 8
    simp at this
    rw [this]; exact Nat.mod_eq_of_lt hb
  rw [e1, e2, Nat.shiftLeft_eq]
  have := Nat.mul_add_lt_is_or (i := 8) (b := b) (by simpa using hb) a
  rw [Nat.mul_comm a (2 ^ 8), ← this]

/-- The three outcomes of the scan loop, by the first non-zero byte. -/
theorem getNdefStartIndexLoop_cases (data : List Nat) :
    ∀ n i : Nat,
      (getNdefStartIndexLoop data n i = -1 ∧ ∀ k, k < n → data.getD (i + k) 0 = 0)
      ∨ (getNdefStartIndexLoop data n i = -2 ∧ ∃ k, k < n ∧ data.getD (i + k) 0 ≠ 0
          ∧ data.getD (i + k) 0 ≠ 3 ∧ ∀ j, j < k → data.getD (i + j) 0 = 0)
      ∨ (∃ k, k < n ∧ getNdefStartIndexLoop data n i = ((i + k : Nat) : Int)
          ∧ data.getD (i + k) 0 = 3 ∧ ∀ j, j < k → data.getD (i + j) 0 = 0) := by
  intro n
  induction n with
  | zero =>
    intro i
    left
    exact ⟨rfl, fun k hk => absurd hk (Nat.not_lt_zero k)⟩
  | succ n ih =>
    intro i
    by_cases h0 : data.getD i 0 = 0
    · have step : getNdefStartIndexLoop data (n + 1) i
          = getNdefStartIndexLoop data n (i + 1) := if_pos h0
      rcases ih (i + 1) with ⟨e, hz⟩ | ⟨e, k, hk, hn0, hn3, hz⟩ | ⟨k, hk, e, h3, hz⟩
      · left
        refine ⟨by rw [step, e], ?_⟩
        intro k hk
        rcases Nat.eq_zero_or_pos k with rfl | hpos
        · simpa using h0
        · have := hz (k - 1) (by omega)
          rwa [show i + 1 + (k - 1) = i + k by omega] at this
      · right; left
        refine ⟨by rw [step, e], k + 1, by omega, ?_, ?_, ?_⟩
        · rwa [show i + (k + 1) = i + 1 + k by omega]
        · rwa [show i + (k + 1) = i + 1 + k by omega]
        · intro j hj
          rcases Nat.eq_zero_or_pos j with rfl | hpos
          · simpa using h0
          · have := hz (j - 1) (by omega)
            rwa [show i + 1 + (j - 1) = i + j by omega] at this
      · right; right
        refine ⟨k + 1, by omega, ?_, ?_, ?_⟩
        · rw [step, e]; congr 1; omega
        · rwa [show i + (k + 1) = i + 1 + k by omega]
        · intro j hj
          rcases Nat.eq_zero_or_pos j with rfl | hpos
          · simpa using h0
          · have := hz (j - 1) (by omega)
            rwa [show i + 1 + (j - 1) = i + j by omega] at this
    · by_cases h3 : data.getD i 0 = 3
      · right; right
        refine ⟨0, by omega, ?_, by simpa using h3, fun j hj => absurd hj (Nat.not_lt_zero j)⟩
        exact (if_neg h0).trans (if_pos h3)
      · right; left
        refine ⟨?_, 0, by omega, by simpa using h0, by simpa using h3,
          fun j hj => absurd hj (Nat.not_lt_zero j)⟩
        exact (if_neg h0).trans (if_neg h3)


theorem getNdefStartIndex_cases (data : List Nat) :
    (getNdefStartIndex data = -1 ∧ ∀ k, k < 16 → data.getD k 0 = 0)
    ∨ (getNdefStartIndex data = -2 ∧ ∃ k, k < 16 ∧ data.getD k 0 ≠ 0
        ∧ data.getD k 0 ≠ 3 ∧ ∀ j, j < k → data.getD j 0 = 0)
    ∨ (∃ k : Nat, k < 16 ∧ getNdefStartIndex data = (k : Int)
        ∧ data.getD k 0 = 3 ∧ ∀ j, j < k → data.getD j 0 = 0) := by
  have h := getNdefStartIndexLoop_cases data BLOCK_SIZE 0
  simp only [Nat.zero_add] at h
  exact h

theorem first_nonzero_unique (data : List Nat) (i k : Nat)
    (hi : data.getD i 0 ≠ 0) (hzi : ∀ j, j < i → data.getD j 0 = 0)
    (hk : data.getD k 0 ≠ 0) (hzk : ∀ j, j < k → data.getD j 0 = 0) : i = k := by
  rcases Nat.lt_trichotomy i k with h | h | h
  · exact absurd (hzk i h) hi
  · exact h
  · exact absurd (hzi k h) hk

theorem getNdefStartIndex_of_tag (data : List Nat) (i : Nat) (hi : i < 16)
    (h3 : data.getD i 0 = 3) (hz : ∀ j, j < i → data.getD j 0 = 0) :
    getNdefStartIndex data = (i : Int) := by
  have hne : data.getD i 0 ≠ 0 := by rw [h3]; decide
  rcases getNdefStartIndex_cases data with ⟨_, hall⟩ | ⟨_, k, _, hk0, hk3, hkz⟩ | ⟨k, _, e, hk3, hkz⟩
  · exact absurd (hall i hi) hne
  · have := first_nonzero_unique data i k hne hz hk0 hkz
    subst this
    exact absurd h3 hk3
  · have hk0 : data.getD k 0 ≠ 0 := by rw [hk3]; decide
    have := first_nonzero_unique data i k hne hz hk0 hkz
    subst this
    exact e

theorem decodeTlv_of_tag (data : List Nat) (hb : ∀ b ∈ data, b < 256) (i : Nat) (hi : i < 16)
    (h3 : data.getD i 0 = 3) (hz : ∀ j, j < i → data.getD j 0 = 0) :
    decodeTlv data
      = some (if data.getD (i + 1) 0 = 0xFF
              then (256 * data.getD (i + 2) 0 + data.getD (i + 3) 0, i + 4)
              else (data.getD (i + 1) 0, i + 2)) := by
  have hbyte : ∀ k, data.getD k 0 < 256 := by
    intro k
    rcases Nat.lt_or_ge k data.length with hk | hk
    · rw [List.getD_eq_getElem _ _ hk]
      exact hb _ (List.getElem_mem _)
    · rw [List.getD_eq_default _ _ hk]; decide
  have e := getNdefStartIndex_of_tag data i hi h3 hz
  unfold decodeTlv
  simp only [e, Int.toNat_ofNat]
  have hneg : ¬ ((i : Int) < 0 ∨ data.getD i 0 ≠ 0x3) := by
    intro h
    rcases h with h | h
    · omega
    · exact h h3
  rw [if_neg hneg]
  by_cases hff : data.getD (i + 1) 0 = 0xFF
  · rw [if_pos hff, if_pos hff, mask_shift_or _ _ (hbyte _) (hbyte _)]
  · rw [if_neg hff, if_neg hff]

theorem decodeTlv_isSome (data : List Nat) (h : (decodeTlv data).isSome) :
    ∃ i, i < 16 ∧ data.getD i 0 = 3 ∧ ∀ j, j < i → data.getD j 0 = 0 := by
  rcases getNdefStartIndex_cases data with ⟨e, _⟩ | ⟨e, _⟩ | ⟨k, hk, _, hk3, hkz⟩
  · simp [decodeTlv, e] at h
  · simp [decodeTlv, e] at h
  · exact ⟨k, hk, hk3, hkz⟩

/-- Claim C6: for every block, `decodeTlv` succeeds if and only if the first
non-zero byte among the 16 block bytes is `0x03` (at an index `i`, with only
`0x00` before it); it fails when the first non-zero byte is anything else and
when all 16 bytes are zero. On success, if the byte after the tag is `0xFF`
then `messageLength = 256 * data[i+2] + data[i+3]` and
`messageStartIndex = i + 4`, otherwise `messageLength = data[i+1]` and
`messageStartIndex = i + 2`. -/
theorem decodeTlv_spec (data : List Nat) (hb : ∀ b ∈ data, b < 256) :
    ((decodeTlv data).isSome ↔
        ∃ i, i < 16 ∧ data.getD i 0 = 0x03 ∧ ∀ j, j < i → data.getD j 0 = 0x00)
    ∧ (∀ i, i < 16 → data.getD i 0 ≠ 0x00 → data.getD i 0 ≠ 0x03 →
        (∀ j, j < i → data.getD j 0 = 0x00) → decodeTlv data = none)
    ∧ ((∀ j, j < 16 → data.getD j 0 = 0x00) → decodeTlv data = none)
    ∧ (∀ i, i < 16 → data.getD i 0 = 0x03 → (∀ j, j < i → data.getD j 0 = 0x00) →
        decodeTlv data
          = some (if data.getD (i + 1) 0 = 0xFF
                  then (256 * data.getD (i + 2) 0 + data.getD (i + 3) 0, i + 4)
                  else (data.getD (i + 1) 0, i + 2))) := by
  have hfail : ∀ i, i < 16 → data.getD i 0 ≠ 0 →
      ¬ (data.getD i 0 = 3 ∧ ∀ j, j < i → data.getD j 0 = 0) →
      (∀ j, j < i → data.getD j 0 = 0) → decodeTlv data = none := by
    intro i hi hn0 hnot hz
    cases hd : decodeTlv data with
    | none => rfl
    | some v =>
      obtain ⟨k, _, hk3, hkz⟩ := decodeTlv_isSome data (by rw [hd]; rfl)
      have hk0 : data.getD k 0 ≠ 0 := by rw [hk3]; decide
      have := first_nonzero_unique data i k hn0 hz hk0 hkz
      subst this
      exact absurd ⟨hk3, hkz⟩ hnot
  refine ⟨⟨decodeTlv_isSome data, ?_⟩, ?_, ?_, ?_⟩
  · rintro ⟨i, hi, h3, hz⟩
    rw [decodeTlv_of_tag data hb i hi h3 hz]
    rfl
  · intro i hi hn0 hn3 hz
    exact hfail i hi hn0 (fun h => hn3 h.1) hz
  · intro hz
    cases hd : decodeTlv data with
    | none => rfl
    | some v =>
      obtain ⟨k, hk, hk3, _⟩ := decodeTlv_isSome data (by rw [hd]; rfl)
      have := hz k hk
      rw [hk3] at this
      exact absurd this (by decide)
  · intro i hi h3 hz
    exact decodeTlv_of_tag data hb i hi h3 hz

/-- An instance of `decodeTlv_spec` at a concrete input. -/
theorem decodeTlv_spec_witness :
    ((decodeTlv sampleBlock).isSome ↔
        ∃ i, i < 16 ∧ sampleBlock.getD i 0 = 0x03
          ∧ ∀ j, j < i → sampleBlock.getD j 0 = 0x00)
    ∧ decodeTlv sampleBlock = some (258, 5) := by
  have h := decodeTlv_spec sampleBlock (by decide)
  exact ⟨h.1, by decide⟩

end MifareClassic
end NDEF

namespace NDEF

theorem writtenBlocks_append (a b : List Call) :
    writtenBlocks (a ++ b) = writtenBlocks a ++ writtenBlocks b := by
  induction a with
  | nil => rfl
  | cons c cs ih =>
    cases c <;> simp [writtenBlocks, ih]

namespace MifareClassic

/-! ## MifareClassic: write -/

theorem getBufferSize_toNat (n : Nat) (hn : n ≤ 65535) :
    (getBufferSize (n : Int)).toNat = (n + (if n < 255 then 3 else 5) + 15) / 16 * 16 := by
  rw [getBufferSize_eq (n : Int) (by omega) (by omega)]
  split_ifs <;> omega

theorem writeFrame_eq (encoded : List Nat) (hn : encoded.length ≤ 65535) :
    writeFrame encoded = envelope encoded (getBufferSize encoded.length).toNat := by
  have hB := getBufferSize_toNat encoded.length hn
  have h32 : toInt32 (encoded.length : Int) = (encoded.length : Int) :=
    toInt32_of_range _ (by omega) (by omega)
  unfold writeFrame envelope
  simp only [h32]
  generalize (getBufferSize (encoded.length : Int)).toNat = B at hB
  by_cases hs : encoded.length < 255
  · have hs' : encoded.length < 0xFF := hs
    simp only [hs, hs', if_true] at hB ⊢
    have hst : [(0, 0x3), (1, toByte encoded.length)] ++ memcpy 2 encoded encoded.length
        ++ [(2 + encoded.length, 0xFE)]
        = List.enumFrom 0 ([0x03, encoded.length] ++ encoded ++ [0xFE]) := by
      simp [memcpy_eq_enumFrom, List.enumFrom_append, toByte, Nat.mod_eq_of_lt,
        show encoded.length < 256 by omega, Nat.add_comm]
    rw [hst, applyStores_enumFrom _ _ _ (by simp; omega)]
    simp [List.drop_replicate, Nat.add_comm]
    omega
  · have hs' : ¬ encoded.length < 0xFF := hs
    simp only [hs, hs', if_false] at hB ⊢
    have hhi : (encoded.length >>> 8) &&& 0xFF = encoded.length / 256 := by
      rw [NdefRecord.shr8_and_ff]; omega
    have hst : [(0, 0x3), (1, 0xFF), (2, (encoded.length >>> 8) &&& 0xFF),
          (3, encoded.length &&& 0xFF)] ++ memcpy 4 encoded encoded.length
        ++ [(4 + encoded.length, 0xFE)]
        = List.enumFrom 0 ([0x03, 0xFF, encoded.length / 256, encoded.length % 256]
            ++ encoded ++ [0xFE]) := by
      rw [hhi, NdefRecord.and_ff]
      simp [memcpy_eq_enumFrom, List.enumFrom_append, Nat.add_comm]
    rw [hst, applyStores_enumFrom _ _ _ (by simp; omega)]
    simp [List.drop_replicate, Nat.add_comm]
    omega

theorem envelope_length (encoded : List Nat) (total : Nat)
    (h : encoded.length + (if encoded.length < 255 then 3 else 5) ≤ total) :
    (envelope encoded total).length = total := by
  unfold envelope
  split_ifs at h ⊢ <;> simp <;> omega

/-- On a transport that never fails, the write loop hands the rest of the
buffer to `MIFARE_Write`, 16 bytes at a time, and returns `true`. -/
theorem writeLoop_ok (t : Transport) (hok : ∀ log c, t.ok log c = true) (buffer : List Nat)
    (hlen : 16 ∣ buffer.length) :
    ∀ fuel index currentBlock log, 16 ∣ index → index ≤ buffer.length →
      (buffer.length - index) / 16 < fuel →
      ∃ calls, writeLoop t buffer fuel index currentBlock log = some (true, log ++ calls)
        ∧ (∀ b ∈ writtenBlocks calls, b.length = 16)
        ∧ (writtenBlocks calls).flatten = buffer.drop index := by
  intro fuel
  induction fuel with
  | zero => intro index cb log _ _ hf; omega
  | succ fuel ih =>
    intro index cb log hidx hle hf
    by_cases hlt : index < buffer.length
    · have hle' : index + 16 ≤ buffer.length := by omega
      have hf' : (buffer.length - (index + 16)) / 16 < fuel := by omega
      obtain ⟨calls, hrun, hblk, hflat⟩ := ih (index + 16)
        (if (toByte (cb + 1) < 128 ∧ (toByte (cb + 1) + 1) % 4 = 0)
            ∨ (toByte (cb + 1) ≥ 128 ∧ (toByte (cb + 1) + 1) % 16 = 0)
          then toByte (toByte (cb + 1) + 1) else toByte (cb + 1))
        ((if (cb < 128 ∧ cb % 4 = 0) ∨ (cb ≥ 128 ∧ cb % 16 = 0)
            then log ++ [Call.PCD_Authenticate KeyType.A cb ndefKey] else log)
          ++ [Call.MIFARE_Write cb ((buffer.drop index).take BLOCK_SIZE)])
        (by omega) hle' hf'
      refine ⟨(if (cb < 128 ∧ cb % 4 = 0) ∨ (cb ≥ 128 ∧ cb % 16 = 0)
            then [Call.PCD_Authenticate KeyType.A cb ndefKey] else [])
          ++ [Call.MIFARE_Write cb ((buffer.drop index).take BLOCK_SIZE)] ++ calls, ?_, ?_, ?_⟩
      · rw [writeLoop]
        simp only [hlt, if_true, hok, Bool.true_eq_false, and_false, if_false]
        rw [hrun]
        split_ifs <;> simp
      · intro b hb
        rw [writtenBlocks_append, writtenBlocks_append] at hb
        have hb' : b = (buffer.drop index).take BLOCK_SIZE ∨ b ∈ writtenBlocks calls := by
          split_ifs at hb <;> simpa [writtenBlocks] using hb
        rcases hb' with rfl | hb'
        · simp only [BLOCK_SIZE, List.length_take, List.length_drop]; omega
        · exact hblk b hb'
      · rw [writtenBlocks_append, writtenBlocks_append, List.flatten_append,
          List.flatten_append, hflat]
        have : (writtenBlocks (if (cb < 128 ∧ cb % 4 = 0) ∨ (cb ≥ 128 ∧ cb % 16 = 0)
            then [Call.PCD_Authenticate KeyType.A cb ndefKey] else [])) = [] := by
          split_ifs <;> rfl
        rw [this]
        simp only [writtenBlocks, List.flatten_cons, List.flatten_nil, List.nil_append,
          List.append_nil]
        rw [← List.drop_drop, List.take_append_drop]
    · have : index = buffer.length := by omega
      refine ⟨[], ?_, ?_, ?_⟩
      · rw [writeLoop]; simp [hlt]
      · intro b hb; simp [writtenBlocks] at hb
      · simp [writtenBlocks, this]


/-- Claim C7: for every encoded message of `n ≤ 65535` bytes and a transport on
which every call succeeds, `write` returns `true`, every buffer it passes to
`MIFARE_Write` is 16 bytes long, and these buffers concatenated in call order
are the TLV envelope: `03, n`, the message, `FE`, zeros when `n < 255`, and
`03, FF, n >> 8, n & 0xFF`, the message, `FE`, zeros when `n ≥ 255`. The total
length is `getBufferSize(n)`. -/
theorem write_frames_envelope (t : Transport) (hok : ∀ log c, t.ok log c = true)
    (encoded : List Nat) (hn : encoded.length ≤ 65535) (log : List Call) :
    ∃ calls, write t encoded log = some (true, log ++ calls)
      ∧ (∀ b ∈ writtenBlocks calls, b.length = 16)
      ∧ (writtenBlocks calls).flatten
          = envelope encoded (getBufferSize encoded.length).toNat
      ∧ (((writtenBlocks calls).flatten.length : Nat) : Int) = getBufferSize encoded.length := by
  have hB := getBufferSize_toNat encoded.length hn
  have hframe := writeFrame_eq encoded hn
  have hlen : (writeFrame encoded).length = (getBufferSize encoded.length).toNat := by
    rw [hframe]
    apply envelope_length
    rw [hB]
    split_ifs <;> omega
  have hdvd : 16 ∣ (writeFrame encoded).length := by
    rw [hlen, hB]
    exact Dvd.intro_left _ rfl
  obtain ⟨calls, hrun, hblk, hflat⟩ := writeLoop_ok t hok (writeFrame encoded) hdvd
    ((writeFrame encoded).length + 1) 0 4 log (by omega) (by omega) (by omega)
  refine ⟨calls, hrun, hblk, ?_, ?_⟩
  · rw [hflat, List.drop_zero, hframe]
  · rw [hflat, List.drop_zero, hlen]
    have h0 : 0 ≤ getBufferSize (encoded.length : Int) := by
      rw [getBufferSize_eq (encoded.length : Int) (by omega) (by omega)]
      split_ifs <;> omega
    exact Int.toNat_of_nonneg h0

/-- An instance of `write_frames_envelope` at a concrete input. -/
theorem write_frames_envelope_witness :
    ∃ calls, write okTransport [0xD0, 0x00, 0x00] [] = some (true, [] ++ calls)
      ∧ (∀ b ∈ writtenBlocks calls, b.length = 16)
      ∧ (writtenBlocks calls).flatten
          = envelope [0xD0, 0x00, 0x00]
              (getBufferSize ([0xD0, 0x00, 0x00] : List Nat).length).toNat
      ∧ (((writtenBlocks calls).flatten.length : Nat) : Int)
          = getBufferSize ([0xD0, 0x00, 0x00] : List Nat).length :=
  write_frames_envelope okTransport (fun _ _ => rfl) [0xD0, 0x00, 0x00] (by decide) []

/-- Claim C8: for every encoded message of `n ≤ 65535` bytes, `decodeTlv` on
the first 16 bytes of the buffer that `write` frames (followed by any
integrity bytes) succeeds with `messageLength = n`, and with
`messageStartIndex = 2` when `n < 255` and `4` when `n ≥ 255`. -/
theorem decodeTlv_writeFrame (encoded : List Nat) (hn : encoded.length ≤ 65535)
    (crc : List Nat) :
    decodeTlv ((writeFrame encoded).take 16 ++ crc)
      = some (encoded.length, if encoded.length < 255 then 2 else 4) := by
  rw [writeFrame_eq encoded hn]
  generalize (getBufferSize (encoded.length : Int)).toNat = B
  unfold envelope
  by_cases hs : encoded.length < 255
  · simp only [hs, if_true]
    have hform : List.take 16 ([0x03, encoded.length] ++ encoded ++ [0xFE]
          ++ List.replicate (B - (encoded.length + 3)) 0) ++ crc
        = 0x03 :: encoded.length :: (List.take 14 (encoded ++ [0xFE]
          ++ List.replicate (B - (encoded.length + 3)) 0) ++ crc) := by
      simp
    rw [hform]
    have hi := getNdefStartIndex_of_tag
      (0x03 :: encoded.length :: (List.take 14 (encoded ++ [0xFE]
          ++ List.replicate (B - (encoded.length + 3)) 0) ++ crc)) 0 (by decide) rfl
      (fun j hj => absurd hj (Nat.not_lt_zero j))
    unfold decodeTlv
    simp only [hi]
    have hne : encoded.length ≠ 255 := by omega
    simp [hne]
  · simp only [hs, if_false]
    have hform : List.take 16 ([0x03, 0xFF, encoded.length / 256, encoded.length % 256]
          ++ encoded ++ [0xFE] ++ List.replicate (B - (encoded.length + 5)) 0) ++ crc
        = 0x03 :: 0xFF :: (encoded.length / 256) :: (encoded.length % 256)
          :: (List.take 12 (encoded ++ [0xFE]
            ++ List.replicate (B - (encoded.length + 5)) 0) ++ crc) := by
      simp
    rw [hform]
    have hi := getNdefStartIndex_of_tag
      (0x03 :: 0xFF :: (encoded.length / 256) :: (encoded.length % 256)
          :: (List.take 12 (encoded ++ [0xFE]
            ++ List.replicate (B - (encoded.length + 5)) 0) ++ crc)) 0 (by decide) rfl
      (fun j hj => absurd hj (Nat.not_lt_zero j))
    have hm := mask_shift_or (encoded.length / 256) (encoded.length % 256)
      (by omega) (by omega)
    unfold decodeTlv
    simp only [hi]
    simp
    rw [hm]
    omega

/-- An instance of `decodeTlv_writeFrame` at a concrete input. -/
theorem decodeTlv_writeFrame_witness :
    decodeTlv ((writeFrame (List.replicate 255 0x41)).take 16 ++ [0x12, 0x34])
      = some ((List.replicate 255 0x41).length,
          if (List.replicate 255 0x41).length < 255 then 2 else 4) :=
  decodeTlv_writeFrame (List.replicate 255 0x41)
    (by rw [List.length_replicate]; decide) [0x12, 0x34]

end MifareClassic
end NDEF

namespace NDEF
namespace MifareUltralight

/-! ## MifareUltralight: buffer sizing -/

/-- Claim C10, as stated, fails: `calculateBufferSize(0, 2)` is 18, which is
not a multiple of 16 (the function adds 2 bytes for the CRC after rounding),
and `calculateBufferSize(65535, 2)` is 18 as well, which is below
`messageLength + ndefStartIndex + 1` (the 16-bit sum wraps around). -/
theorem calculateBufferSize_not_multiple :
    calculateBufferSize 0 2 = 18 ∧ ¬ (16 ∣ calculateBufferSize 0 2)
    ∧ calculateBufferSize 65535 2 = 18
    ∧ ¬ (calculateBufferSize 65535 2 ≥ 65535 + 2 + 1) := by
  decide

/-- Claim C10, amended: for every messageLength and ndefStartIndex with
`messageLength + ndefStartIndex + 1 ≤ 65520` (so that nothing wraps in 16
bits), `calculateBufferSize` is 2 more than the least multiple of 16 that is
at least `messageLength + ndefStartIndex + 1`: the size without the two CRC
bytes is a multiple of 16, and the result is at least
`messageLength + ndefStartIndex + 1` (plus the two CRC bytes). -/
theorem calculateBufferSize_spec (messageLength ndefStartIndex : Nat)
    (h : messageLength + ndefStartIndex + 1 ≤ 65520) :
    calculateBufferSize messageLength ndefStartIndex
        = (messageLength + ndefStartIndex + 1 + 15) / 16 * 16 + 2
    ∧ 16 ∣ calculateBufferSize messageLength ndefStartIndex - 2
    ∧ calculateBufferSize messageLength ndefStartIndex % 16 = 2
    ∧ calculateBufferSize messageLength ndefStartIndex
        ≥ messageLength + ndefStartIndex + 1 + 2 := by
  have e : calculateBufferSize messageLength ndefStartIndex
      = (messageLength + ndefStartIndex + 1 + 15) / 16 * 16 + 2 := by
    simp only [calculateBufferSize, toUInt16, ULTRALIGHT_READ_SIZE]
    split_ifs <;> omega
  refine ⟨e, ?_, ?_, ?_⟩
  · rw [e, Nat.add_sub_cancel]
    exact Dvd.intro_left _ rfl
  · rw [e]; omega
  · rw [e]; omega

/-- An instance of `calculateBufferSize_spec` at a concrete input. -/
theorem calculateBufferSize_spec_witness :
    calculateBufferSize 14 2 = (14 + 2 + 1 + 15) / 16 * 16 + 2
    ∧ 16 ∣ calculateBufferSize 14 2 - 2
    ∧ calculateBufferSize 14 2 % 16 = 2
    ∧ calculateBufferSize 14 2 ≥ 14 + 2 + 1 + 2 :=
  calculateBufferSize_spec 14 2 (by decide)

end MifareUltralight
end NDEF

namespace NDEF

/-! ## Lemmas on call lists -/

theorem allOk_append (t : Transport) (a b : List Call) :
    ∀ log, allOk t log (a ++ b) ↔ allOk t log a ∧ allOk t (log ++ a) b := by
  induction a with
  | nil => intro log; simp [allOk]
  | cons c cs ih =>
    intro log
    show (t.ok log c = true ∧ allOk t (log ++ [c]) (cs ++ b)) ↔ _
    rw [ih (log ++ [c])]
    simp [allOk, and_assoc, List.append_assoc]

theorem allOk_singleton (t : Transport) (log : List Call) (c : Call) :
    allOk t log [c] ↔ t.ok log c = true := by
  simp [allOk]

theorem allOrNothing_nil (t : Transport) (log : List Call) : AllOrNothing t log true [] :=
  Or.inl ⟨rfl, trivial⟩

theorem allOrNothing_failed (t : Transport) (log : List Call) (c : Call)
    (h : t.ok log c = false) : AllOrNothing t log false [c] :=
  Or.inr ⟨rfl, [], c, rfl, trivial, by simpa using h⟩

theorem allOrNothing_cons (t : Transport) (log : List Call) (c : Call) (b : Bool)
    (calls : List Call) (h : t.ok log c = true) (hrest : AllOrNothing t (log ++ [c]) b calls) :
    AllOrNothing t log b (c :: calls) := by
  rcases hrest with ⟨hb, hall⟩ | ⟨hb, pre, d, hcalls, hpre, hd⟩
  · exact Or.inl ⟨hb, h, hall⟩
  · refine Or.inr ⟨hb, c :: pre, d, by rw [hcalls]; rfl, ⟨h, hpre⟩, ?_⟩
    simpa [List.append_assoc] using hd

/-- What an all-or-nothing outcome says in terms of single calls: the result
is `true` exactly when every call succeeded, and a failed call is the last
call and makes the result `false`. -/
theorem allOrNothing_iff (t : Transport) (log : List Call) (b : Bool) (calls : List Call)
    (h : AllOrNothing t log b calls) :
    (b = true ↔ allOk t log calls)
    ∧ ∀ pre c post, calls = pre ++ c :: post → t.ok (log ++ pre) c = false →
        post = [] ∧ b = false := by
  rcases h with ⟨hb, hall⟩ | ⟨hb, pre0, c0, hcalls, hpre0, hc0⟩
  · refine ⟨⟨fun _ => hall, fun _ => hb⟩, ?_⟩
    intro pre c post hsplit hfail
    rw [hsplit, allOk_append] at hall
    have := hall.2.1
    rw [hfail] at this
    exact absurd this (by simp)
  · have hnot : ¬ allOk t log calls := by
      rw [hcalls, allOk_append, allOk_singleton, hc0]
      simp
    refine ⟨⟨fun h => by rw [hb] at h; exact absurd h (by simp), fun h => absurd h hnot⟩, ?_⟩
    intro pre c post hsplit hfail
    rw [hcalls] at hsplit
    rcases List.append_eq_append_iff.mp hsplit with ⟨a', _, h2⟩ | ⟨c', h1, h2⟩
    · cases a' with
      | nil =>
        simp only [List.nil_append] at h2
        injection h2 with _ hpost
        exact ⟨hpost.symm, hb⟩
      | cons x xs =>
        exfalso
        simp only [List.cons_append] at h2
        injection h2 with hx hxs
        cases xs <;> simp at hxs
    · cases c' with
      | nil =>
        simp only [List.nil_append] at h2
        injection h2 with _ hpost
        exact ⟨hpost, hb⟩
      | cons x xs =>
        exfalso
        simp only [List.cons_append] at h2
        injection h2 with hx hxs
        subst hx
        rw [h1, allOk_append] at hpre0
        have := hpre0.2.1
        rw [hfail] at this
        exact absurd this (by simp)

end NDEF

namespace NDEF
namespace MifareClassic

/-! ## MifareClassic: abort at the first failed call -/

/-- The write loop returns on every transport; its outcome is all-or-nothing
and its calls form a block walk over the blocks that are left. -/
theorem writeLoop_shape (t : Transport) (buffer : List Nat) :
    ∀ fuel index currentBlock log, (buffer.length - index + 15) / 16 < fuel →
      ∃ b calls, writeLoop t buffer fuel index currentBlock log = some (b, log ++ calls)
        ∧ AllOrNothing t log b calls
        ∧ WalkBy nextBlockByte ((buffer.length - index + 15) / 16) currentBlock calls := by
  intro fuel
  induction fuel with
  | zero => intro index cb log hf; omega
  | succ fuel ih =>
    intro index cb log hf
    by_cases hlt : index < buffer.length
    · have hf' : (buffer.length - (index + BLOCK_SIZE) + 15) / 16 < fuel := by
        simp only [BLOCK_SIZE]; omega
      have hm : (buffer.length - index + 15) / 16
          = (buffer.length - (index + BLOCK_SIZE) + 15) / 16 + 1 := by
        simp only [BLOCK_SIZE]; omega
      have hnext : (if (toByte (cb + 1) < 128 ∧ (toByte (cb + 1) + 1) % 4 = 0)
                  ∨ (toByte (cb + 1) ≥ 128 ∧ (toByte (cb + 1) + 1) % 16 = 0)
                then toByte (toByte (cb + 1) + 1) else toByte (cb + 1)) = nextBlockByte cb := rfl
      rw [writeLoop, hm]
      simp only [hlt, if_true]
      by_cases hs : (cb < 128 ∧ cb % 4 = 0) ∨ (cb ≥ 128 ∧ cb % 16 = 0)
      · by_cases ha : t.ok log (Call.PCD_Authenticate KeyType.A cb ndefKey) = true
        · by_cases hw : t.ok (log ++ [Call.PCD_Authenticate KeyType.A cb ndefKey])
              (Call.MIFARE_Write cb ((buffer.drop index).take BLOCK_SIZE)) = true
          · obtain ⟨b, calls, hrun, hout, hwalk⟩ := ih (index + BLOCK_SIZE)
              (if (toByte (cb + 1) < 128 ∧ (toByte (cb + 1) + 1) % 4 = 0)
                  ∨ (toByte (cb + 1) ≥ 128 ∧ (toByte (cb + 1) + 1) % 16 = 0)
                then toByte (toByte (cb + 1) + 1) else toByte (cb + 1))
              (log ++ [Call.PCD_Authenticate KeyType.A cb ndefKey]
                ++ [Call.MIFARE_Write cb ((buffer.drop index).take BLOCK_SIZE)]) hf'
            refine ⟨b, Call.PCD_Authenticate KeyType.A cb ndefKey
              :: Call.MIFARE_Write cb ((buffer.drop index).take BLOCK_SIZE) :: calls, ?_, ?_, ?_⟩
            · simp only [hs, ha, hw, if_true, true_and, Bool.true_eq_false, if_false]
              rw [hrun]; simp
            · exact allOrNothing_cons t log _ b _ ha (allOrNothing_cons t _ _ b _ hw hout)
            · rw [hnext] at hwalk
              exact WalkBy.step _ cb [Call.PCD_Authenticate KeyType.A cb ndefKey] _ calls
                (Or.inr ⟨hs, _, rfl, rfl, rfl⟩) rfl rfl hwalk
          · refine ⟨false, [Call.PCD_Authenticate KeyType.A cb ndefKey,
              Call.MIFARE_Write cb ((buffer.drop index).take BLOCK_SIZE)], ?_, ?_, ?_⟩
            · have hw' := Bool.eq_false_iff.mpr hw
              simp only [hs, ha, hw', if_true, true_and, Bool.true_eq_false, if_false]
              simp
            · exact allOrNothing_cons t log _ false _ ha
                (allOrNothing_failed t _ _ (Bool.eq_false_iff.mpr hw))
            · exact WalkBy.step _ cb [Call.PCD_Authenticate KeyType.A cb ndefKey] _ []
                (Or.inr ⟨hs, _, rfl, rfl, rfl⟩) rfl rfl (WalkBy.done _ _)
        · refine ⟨false, [Call.PCD_Authenticate KeyType.A cb ndefKey], ?_, ?_, ?_⟩
          · have ha' := Bool.eq_false_iff.mpr ha
            simp only [hs, ha', if_true, true_and]
          · exact allOrNothing_failed t _ _ (Bool.eq_false_iff.mpr ha)
          · exact WalkBy.authFailed _ cb _ hs rfl rfl
      · by_cases hw : t.ok log
            (Call.MIFARE_Write cb ((buffer.drop index).take BLOCK_SIZE)) = true
        · obtain ⟨b, calls, hrun, hout, hwalk⟩ := ih (index + BLOCK_SIZE)
            (if (toByte (cb + 1) < 128 ∧ (toByte (cb + 1) + 1) % 4 = 0)
                ∨ (toByte (cb + 1) ≥ 128 ∧ (toByte (cb + 1) + 1) % 16 = 0)
              then toByte (toByte (cb + 1) + 1) else toByte (cb + 1))
            (log ++ [Call.MIFARE_Write cb ((buffer.drop index).take BLOCK_SIZE)]) hf'
          refine ⟨b, Call.MIFARE_Write cb ((buffer.drop index).take BLOCK_SIZE) :: calls,
            ?_, ?_, ?_⟩
          · simp only [hs, hw, if_false, false_and, Bool.true_eq_false]
            rw [hrun]; simp
          · exact allOrNothing_cons t log _ b _ hw hout
          · rw [hnext] at hwalk
            exact WalkBy.step _ cb [] _ calls (Or.inl ⟨hs, rfl⟩) rfl rfl hwalk
        · refine ⟨false, [Call.MIFARE_Write cb ((buffer.drop index).take BLOCK_SIZE)],
            ?_, ?_, ?_⟩
          · have hw' := Bool.eq_false_iff.mpr hw
            simp only [hs, hw', if_false, false_and, if_true]
          · exact allOrNothing_failed t _ _ (Bool.eq_false_iff.mpr hw)
          · exact WalkBy.step _ cb [] _ [] (Or.inl ⟨hs, rfl⟩) rfl rfl (WalkBy.done _ _)
    · refine ⟨true, [], ?_, allOrNothing_nil t log, WalkBy.done _ _⟩
      rw [writeLoop]; simp [hlt]

end MifareClassic
end NDEF

namespace NDEF
namespace MifareClassic

/-- The read loop returns on every transport; it delivers the buffer exactly
when every call succeeded and a failed call is its last call. As long as the
block counter stays within a byte its calls form a block walk over the blocks
that are left; on success the blocks read are the first blocks of the orbit
of `nextBlock`, each taken modulo 256. -/
theorem readLoop_shape (t : Transport) (bufferSize : Int) :
    ∀ fuel index currentBlock buffer log,
      ((bufferSize - 2).toNat - index + 15) / 16 < fuel →
      ∃ out calls, readLoop t bufferSize fuel index currentBlock buffer log
          = some (out, log ++ calls)
        ∧ AllOrNothing t log out.isSome calls
        ∧ ((∀ k, k < ((bufferSize - 2).toNat - index + 15) / 16 →
              nextBlock^[k] currentBlock ≤ 255) →
            WalkBy nextBlock (((bufferSize - 2).toNat - index + 15) / 16) currentBlock calls)
        ∧ (out.isSome = true →
            readsOf calls = (List.iterate nextBlock currentBlock
              (((bufferSize - 2).toNat - index + 15) / 16)).map toByte) := by
  intro fuel
  induction fuel with
  | zero => intro index cb buffer log hf; omega
  | succ fuel ih =>
    intro index cb buffer log hf
    by_cases hlt : (index : Int) < bufferSize - 2
    · have hf' : ((bufferSize - 2).toNat - (index + BLOCK_SIZE) + 15) / 16 < fuel := by
        simp only [BLOCK_SIZE]; omega
      have hm : ((bufferSize - 2).toNat - index + 15) / 16
          = ((bufferSize - 2).toNat - (index + BLOCK_SIZE) + 15) / 16 + 1 := by
        simp only [BLOCK_SIZE]; omega
      have hnext : (if (cb + 1 < 128 ∧ (cb + 1 + 1) % 4 = 0)
                  ∨ (cb + 1 ≥ 128 ∧ (cb + 1 + 1) % 16 = 0)
                then cb + 1 + 1 else cb + 1) = nextBlock cb := rfl
      have hbyte : (∀ k, k < ((bufferSize - 2).toNat - (index + BLOCK_SIZE) + 15) / 16 + 1 →
          nextBlock^[k] cb ≤ 255) → toByte cb = cb := by
        intro hk
        have h0 := hk 0 (by omega)
        simp only [Function.iterate_zero, id_eq] at h0
        exact Nat.mod_eq_of_lt (by omega)
      have htail : (∀ k, k < ((bufferSize - 2).toNat - (index + BLOCK_SIZE) + 15) / 16 + 1 →
          nextBlock^[k] cb ≤ 255) →
          ∀ k, k < ((bufferSize - 2).toNat - (index + BLOCK_SIZE) + 15) / 16 →
            nextBlock^[k] (nextBlock cb) ≤ 255 := by
        intro hk k hlt'
        have h1 := hk (k + 1) (by omega)
        rwa [Function.iterate_succ_apply] at h1
      rw [readLoop, hm]
      simp only [hlt, if_true]
      by_cases hs : (cb < 128 ∧ cb % 4 = 0) ∨ (cb ≥ 128 ∧ cb % 16 = 0)
      · by_cases ha : t.ok log (Call.PCD_Authenticate KeyType.A (toByte cb) ndefKey) = true
        · by_cases hr : t.ok (log ++ [Call.PCD_Authenticate KeyType.A (toByte cb) ndefKey])
              (Call.MIFARE_Read (toByte cb)) = true
          · obtain ⟨out, calls, hrun, hout, hwalk, hreads⟩ := ih (index + BLOCK_SIZE)
              (if (cb + 1 < 128 ∧ (cb + 1 + 1) % 4 = 0)
                  ∨ (cb + 1 ≥ 128 ∧ (cb + 1 + 1) % 16 = 0)
                then cb + 1 + 1 else cb + 1)
              (applyStores buffer (memcpy index
                ((t.readData (log ++ [Call.PCD_Authenticate KeyType.A (toByte cb) ndefKey])
                  (toByte cb)).map toByte) 18))
              (log ++ [Call.PCD_Authenticate KeyType.A (toByte cb) ndefKey]
                ++ [Call.MIFARE_Read (toByte cb)]) hf'
            refine ⟨out, Call.PCD_Authenticate KeyType.A (toByte cb) ndefKey
              :: Call.MIFARE_Read (toByte cb) :: calls, ?_, ?_, ?_, ?_⟩
            · simp only [hs, ha, hr, if_true, true_and, Bool.true_eq_false, if_false]
              rw [hrun]; simp
            · exact allOrNothing_cons t log _ _ _ ha (allOrNothing_cons t _ _ _ _ hr hout)
            · intro hk
              rw [hnext] at hwalk
              rw [hbyte hk]
              exact WalkBy.step _ cb [Call.PCD_Authenticate KeyType.A cb ndefKey] _ calls
                (Or.inr ⟨hs, _, rfl, rfl, rfl⟩) rfl rfl (hwalk (htail hk))
            · intro h
              rw [hnext] at hreads
              simp only [readsOf, List.iterate, List.map_cons, hreads h]
          · refine ⟨none, [Call.PCD_Authenticate KeyType.A (toByte cb) ndefKey,
              Call.MIFARE_Read (toByte cb)], ?_, ?_, ?_, ?_⟩
            · simp only [hs, ha, hr, if_true, true_and, Bool.true_eq_false, if_false]
              simp
            · exact allOrNothing_cons t log _ false _ ha
                (allOrNothing_failed t _ _ (Bool.eq_false_iff.mpr hr))
            · intro hk
              rw [hbyte hk]
              exact WalkBy.step _ cb [Call.PCD_Authenticate KeyType.A cb ndefKey] _ []
                (Or.inr ⟨hs, _, rfl, rfl, rfl⟩) rfl rfl (WalkBy.done _ _)
            · intro h; simp at h
        · refine ⟨none, [Call.PCD_Authenticate KeyType.A (toByte cb) ndefKey], ?_, ?_, ?_, ?_⟩
          · have ha' := Bool.eq_false_iff.mpr ha
            simp only [hs, ha', if_true, true_and]
          · exact allOrNothing_failed t _ _ (Bool.eq_false_iff.mpr ha)
          · intro hk
            rw [hbyte hk]
            exact WalkBy.authFailed _ cb _ hs rfl rfl
          · intro h; simp at h
      · by_cases hr : t.ok log (Call.MIFARE_Read (toByte cb)) = true
        · obtain ⟨out, calls, hrun, hout, hwalk, hreads⟩ := ih (index + BLOCK_SIZE)
            (if (cb + 1 < 128 ∧ (cb + 1 + 1) % 4 = 0)
                ∨ (cb + 1 ≥ 128 ∧ (cb + 1 + 1) % 16 = 0)
              then cb + 1 + 1 else cb + 1)
            (applyStores buffer (memcpy index ((t.readData log (toByte cb)).map toByte) 18))
            (log ++ [Call.MIFARE_Read (toByte cb)]) hf'
          refine ⟨out, Call.MIFARE_Read (toByte cb) :: calls, ?_, ?_, ?_, ?_⟩
          · simp only [hs, hr, if_false, false_and, if_true]
            rw [hrun]; simp
          · exact allOrNothing_cons t log _ _ _ hr hout
          · intro hk
            rw [hnext] at hwalk
            rw [hbyte hk]
            exact WalkBy.step _ cb [] _ calls (Or.inl ⟨hs, rfl⟩) rfl rfl (hwalk (htail hk))
          · intro h
            rw [hnext] at hreads
            simp only [readsOf, List.iterate, List.map_cons, hreads h]
        · refine ⟨none, [Call.MIFARE_Read (toByte cb)], ?_, ?_, ?_, ?_⟩
          · simp only [hs, hr, if_false, false_and, Bool.false_eq_true]
          · exact allOrNothing_failed t _ _ (Bool.eq_false_iff.mpr hr)
          · intro hk
            rw [hbyte hk]
            exact WalkBy.step _ cb [] _ [] (Or.inl ⟨hs, rfl⟩) rfl rfl (WalkBy.done _ _)
          · intro h; simp at h
    · have hz : ((bufferSize - 2).toNat - index + 15) / 16 = 0 := by omega
      refine ⟨some buffer, [], ?_, allOrNothing_nil t log, fun _ => WalkBy.done _ _, ?_⟩
      · rw [readLoop]; simp [hlt]
      · intro _; rw [hz]; rfl


end MifareClassic
end NDEF

namespace NDEF

/-! ## Block layout arithmetic -/

theorem sectorStart_le (a b : Nat) (hb : isSectorStart b) (h : sectorOf b = sectorOf a) :
    b ≤ a := by
  simp only [isSectorStart, sectorOf] at hb h
  split_ifs at h <;> omega

theorem isData_not_isAuth (c : Call) (h : c.isData = true) : c.isAuth = false := by
  cases c <;> simp [Call.isData, Call.isAuth] at h ⊢

namespace MifareClassic

theorem nextBlock_gt (x : Nat) : x < nextBlock x := by
  unfold nextBlock
  split_ifs <;> omega

theorem nextBlock_not_trailer (x : Nat) : ¬ isTrailer (nextBlock x) := by
  unfold nextBlock
  split_ifs with h
  · simp only [isTrailer] at h ⊢; omega
  · exact h

theorem nextBlock_sector (x : Nat) (h : ¬ isSectorStart (nextBlock x)) :
    sectorOf (nextBlock x) = sectorOf x := by
  unfold nextBlock at h ⊢
  split_ifs at h ⊢ with ht
  · simp only [isTrailer, isSectorStart] at ht h; omega
  · simp only [isSectorStart, sectorOf] at h ⊢
    split_ifs <;> omega

theorem nextBlockByte_not_trailer (x : Nat) : ¬ isTrailer (nextBlockByte x) := by
  unfold nextBlockByte
  split_ifs with h
  · simp only [isTrailer, toByte] at h ⊢; omega
  · exact h

theorem nextBlockByte_eq (x : Nat) (h : x ≤ 253) : nextBlockByte x = nextBlock x := by
  have h1 : toByte (x + 1) = x + 1 := Nat.mod_eq_of_lt (by omega)
  have h2 : toByte (x + 1 + 1) = x + 1 + 1 := Nat.mod_eq_of_lt (by omega)
  unfold nextBlockByte nextBlock
  rw [h1, h2]

end MifareClassic

/-! ## Block walks -/

/-- Every call of a block walk addresses a block of the orbit of the start
block. -/
theorem walkBy_orbit (next : Nat → Nat) (m cb : Nat) (calls : List Call)
    (h : WalkBy next m cb calls) :
    ∀ c ∈ calls, ∃ k, k < m ∧ c.addr = next^[k] cb := by
  induction h with
  | done m cb => intro c hc; simp at hc
  | authFailed m cb a _ _ haddr =>
    intro c hc
    simp only [List.mem_singleton] at hc
    subst hc
    exact ⟨0, by omega, haddr⟩
  | step m cb auths d rest hauth _ hd _ ih =>
    intro c hc
    rcases List.mem_append.mp hc with hc | hc
    · rcases hauth with ⟨_, hnil⟩ | ⟨_, a, ha, _, haddr⟩
      · rw [hnil] at hc; simp at hc
      · rw [ha] at hc
        simp only [List.mem_singleton] at hc
        subst hc
        exact ⟨0, by omega, haddr⟩
    · rcases List.mem_cons.mp hc with hc | hc
      · subst hc
        exact ⟨0, by omega, hd⟩
      · obtain ⟨k, hk, hk'⟩ := ih c hc
        exact ⟨k + 1, by omega, by rw [hk', Function.iterate_succ_apply]⟩

/-- A property of the start block that the successor preserves holds for the
block of every call of a block walk. -/
theorem walkBy_addr (next : Nat → Nat) (P : Nat → Prop) (hnext : ∀ x, P x → P (next x))
    (m cb : Nat) (calls : List Call) (h : WalkBy next m cb calls) (hcb : P cb) :
    ∀ c ∈ calls, P c.addr := by
  intro c hc
  obtain ⟨k, hkm, hk⟩ := walkBy_orbit next m cb calls h c hc
  rw [hk]
  clear hk hc h hkm
  induction k with
  | zero => exact hcb
  | succ k ih => rw [Function.iterate_succ_apply']; exact hnext _ ih

end NDEF

namespace NDEF

/-! ## Authentication counts -/

theorem authCount_append (s : Nat) (a b : List Call) :
    authCount s (a ++ b) = authCount s a + authCount s b := by
  simp [authCount, List.countP_append]

theorem authCount_nil (s : Nat) : authCount s [] = 0 := rfl

theorem authCount_cons_data (s : Nat) (d : Call) (l : List Call) (hd : d.isData = true) :
    authCount s (d :: l) = authCount s l := by
  simp [authCount, List.countP_cons, isData_not_isAuth d hd]

theorem authCount_cons_auth (s : Nat) (a : Call) (l : List Call) (ha : a.isAuth = true) :
    authCount s (a :: l) = authCount s l + (if sectorOf a.addr = s then 1 else 0) := by
  simp [authCount, List.countP_cons, ha]

theorem authCount_eq_zero (s : Nat) (l : List Call)
    (h : ∀ c ∈ l, c.isAuth = true → sectorOf c.addr ≠ s) : authCount s l = 0 := by
  unfold authCount
  rw [List.countP_eq_zero]
  intro c hc hp
  simp only [Bool.and_eq_true, beq_iff_eq] at hp
  exact h c hc hp.1 hp.2

theorem walkBy_zero (next : Nat → Nat) (cb : Nat) (calls : List Call)
    (h : WalkBy next 0 cb calls) : calls = [] := by
  cases h
  rfl

/-- The invariant of a block walk whose blocks grow and leave a sector only
for the start of another: blocks are at or above the start block,
authentications are at sector starts, no sector is authenticated twice, and
before every transfer its sector has been authenticated unless the walk
started inside that sector. -/
theorem walkBy_inv (next : Nat → Nat) (m cb : Nat) (calls : List Call)
    (h : WalkBy next m cb calls) :
    (∀ k, k + 1 < m → next^[k] cb < next^[k + 1] cb
      ∧ (¬ isSectorStart (next^[k + 1] cb) → sectorOf (next^[k + 1] cb) = sectorOf (next^[k] cb))) →
    (∀ c ∈ calls, cb ≤ c.addr)
    ∧ (∀ c ∈ calls, c.isAuth = true → isSectorStart c.addr)
    ∧ (∀ s, authCount s calls ≤ 1)
    ∧ (∀ pre c post, calls = pre ++ c :: post → c.isData = true →
        (sectorOf c.addr = sectorOf cb ∧ ¬ isSectorStart cb)
          ∨ authCount (sectorOf c.addr) pre = 1) := by
  induction h with
  | done m cb =>
    intro _
    refine ⟨by simp, by simp, fun s => by simp [authCount_nil], ?_⟩
    intro pre c post hsplit
    simp at hsplit
  | authFailed m cb a hstart ha haddr =>
    intro _
    refine ⟨?_, ?_, ?_, ?_⟩
    · intro c hc
      simp only [List.mem_singleton] at hc
      rw [hc, haddr]
    · intro c hc _
      simp only [List.mem_singleton] at hc
      rw [hc, haddr]; exact hstart
    · intro s
      rw [authCount_cons_auth s a [] ha, authCount_nil]
      split_ifs <;> omega
    · intro pre c post hsplit hdata
      cases pre with
      | nil =>
        simp only [List.nil_append, List.cons.injEq] at hsplit
        rw [hsplit.1, isData_not_isAuth c hdata] at ha
        exact absurd ha (by simp)
      | cons x xs =>
        simp only [List.cons_append, List.cons.injEq] at hsplit
        have := hsplit.2
        cases xs <;> simp at this
  | step m cb auths d rest hauth hdD hdA hrest ih =>
    intro hgood
    -- facts about the walk that follows
    have hrestInv : rest ≠ [] →
        cb < next cb ∧ (¬ isSectorStart (next cb) → sectorOf (next cb) = sectorOf cb)
        ∧ (∀ c ∈ rest, next cb ≤ c.addr)
        ∧ (∀ c ∈ rest, c.isAuth = true → isSectorStart c.addr)
        ∧ (∀ s, authCount s rest ≤ 1)
        ∧ (∀ pre c post, rest = pre ++ c :: post → c.isData = true →
            (sectorOf c.addr = sectorOf (next cb) ∧ ¬ isSectorStart (next cb))
              ∨ authCount (sectorOf c.addr) pre = 1) := by
      intro hne
      have hm : 1 ≤ m := by
        rcases Nat.eq_zero_or_pos m with h0 | h0
        · subst h0
          exact absurd (walkBy_zero next _ rest hrest) hne
        · exact h0
      have h0 := hgood 0 (by omega)
      simp only [Function.iterate_zero, id_eq, Function.iterate_succ, Function.comp_apply,
        zero_add, Function.iterate_one] at h0
      have hi := ih (fun k hk => by
        have := hgood (k + 1) (by omega)
        simpa only [Function.iterate_succ_apply] using this)
      exact ⟨h0.1, h0.2, hi⟩
    -- authentications of the rest are in other sectors
    have hF : ∀ c ∈ rest, c.isAuth = true → sectorOf c.addr ≠ sectorOf cb := by
      intro c hc hca heq
      obtain ⟨hlt, _, ha, hb, _, _⟩ := hrestInv (List.ne_nil_of_mem hc)
      have := sectorStart_le cb c.addr (hb c hc hca) heq
      have := ha c hc
      omega
    have hauthAddr : ∀ c ∈ auths, c.isAuth = true ∧ c.addr = cb ∧ isSectorStart cb := by
      intro c hc
      rcases hauth with ⟨_, hnil⟩ | ⟨hs, a, ha, hia, haddr⟩
      · rw [hnil] at hc; simp at hc
      · rw [ha] at hc
        simp only [List.mem_singleton] at hc
        subst hc
        exact ⟨hia, haddr, hs⟩
    have hauthCount : ∀ s, authCount s auths
        = if isSectorStart cb ∧ sectorOf cb = s then 1 else 0 := by
      intro s
      rcases hauth with ⟨hs, hnil⟩ | ⟨hs, a, ha, hia, haddr⟩
      · rw [hnil, authCount_nil, if_neg (fun h => hs h.1)]
      · rw [ha, authCount_cons_auth s a [] hia, authCount_nil, haddr]
        by_cases hsec : sectorOf cb = s
        · rw [if_pos hsec, if_pos ⟨hs, hsec⟩]
        · rw [if_neg hsec, if_neg (fun h => hsec h.2)]
    refine ⟨?_, ?_, ?_, ?_⟩
    · intro c hc
      rcases List.mem_append.mp hc with hc | hc
      · rw [(hauthAddr c hc).2.1]
      · rcases List.mem_cons.mp hc with hc | hc
        · rw [hc, hdA]
        · obtain ⟨hlt, _, ha, _⟩ := hrestInv (List.ne_nil_of_mem hc)
          have := ha c hc
          omega
    · intro c hc hca
      rcases List.mem_append.mp hc with hc | hc
      · rw [(hauthAddr c hc).2.1]; exact (hauthAddr c hc).2.2
      · rcases List.mem_cons.mp hc with hc | hc
        · rw [hc, isData_not_isAuth d hdD] at hca
          exact absurd hca (by simp)
        · obtain ⟨_, _, _, hb, _⟩ := hrestInv (List.ne_nil_of_mem hc)
          exact hb c hc hca
    · intro s
      rw [authCount_append, authCount_cons_data s d rest hdD, hauthCount s]
      by_cases hcase : isSectorStart cb ∧ sectorOf cb = s
      · rw [if_pos hcase, authCount_eq_zero s rest (fun c hc hca => hcase.2 ▸ hF c hc hca)]
      · rw [if_neg hcase]
        rcases List.eq_nil_or_concat rest with hnil | ⟨l, x, hl⟩
        · rw [hnil, authCount_nil]; omega
        · have hne : rest ≠ [] := by rw [hl]; simp
          obtain ⟨_, _, _, _, hc, _⟩ := hrestInv hne
          have := hc s
          omega
    · intro pre c post hsplit hdata
      -- the transfer of `cb` itself
      have hself : (sectorOf cb = sectorOf cb ∧ ¬ isSectorStart cb)
          ∨ authCount (sectorOf cb) auths = 1 := by
        by_cases hs : isSectorStart cb
        · right; rw [hauthCount, if_pos ⟨hs, rfl⟩]
        · left; exact ⟨rfl, hs⟩
      -- a transfer in the rest
      have hlater : ∀ pre', rest = pre' ++ c :: post →
          (sectorOf c.addr = sectorOf cb ∧ ¬ isSectorStart cb)
            ∨ authCount (sectorOf c.addr) (auths ++ d :: pre') = 1 := by
        intro pre' hr
        have hne : rest ≠ [] := by rw [hr]; simp
        obtain ⟨_, hsec, _, _, _, hd⟩ := hrestInv hne
        have hFpre : ∀ x ∈ pre', x.isAuth = true → sectorOf x.addr ≠ sectorOf cb := by
          intro x hx
          exact hF x (by rw [hr]; exact List.mem_append_left _ hx)
        rw [authCount_append, authCount_cons_data _ d pre' hdD, hauthCount]
        rcases hd pre' c post hr hdata with ⟨h1, h2⟩ | h1
        · have hs := h1.trans (hsec h2)
          by_cases hstart : isSectorStart cb
          · right
            rw [if_pos ⟨hstart, hs.symm⟩, authCount_eq_zero _ pre' (fun x hx hxa => hs ▸ hFpre x hx hxa)]
          · left; exact ⟨hs, hstart⟩
        · right
          have hne' : ¬ (isSectorStart cb ∧ sectorOf cb = sectorOf c.addr) := by
            intro hcase
            have hz := authCount_eq_zero (sectorOf c.addr) pre'
              (fun x hx hxa => hcase.2 ▸ hFpre x hx hxa)
            omega
          rw [if_neg hne', h1]
      rcases hauth with ⟨hs, hnil⟩ | ⟨hs, a, ha, hia, haddr⟩
      · subst hnil
        simp only [List.nil_append] at hsplit hself hlater
        cases pre with
        | nil =>
          simp only [List.nil_append, List.cons.injEq] at hsplit
          rw [← hsplit.1, hdA]
          exact Or.inl ⟨rfl, hs⟩
        | cons x xs =>
          simp only [List.cons_append, List.cons.injEq] at hsplit
          rw [← hsplit.1]
          exact hlater xs hsplit.2
      · subst ha
        cases pre with
        | nil =>
          simp only [List.nil_append, List.cons_append, List.cons.injEq] at hsplit
          rw [hsplit.1, isData_not_isAuth c hdata] at hia
          exact absurd hia (by simp)
        | cons x xs =>
          cases xs with
          | nil =>
            simp only [List.cons_append, List.nil_append, List.cons.injEq] at hsplit
            rw [← hsplit.1, ← hsplit.2.1, hdA]
            exact hself
          | cons y ys =>
            simp only [List.cons_append, List.nil_append, List.cons.injEq] at hsplit
            rw [← hsplit.1, ← hsplit.2.1]
            exact hlater ys hsplit.2.2

/-- A block walk that starts at the first block of a sector, whose blocks
grow and leave a sector only for the start of another, authenticates once per
sector. -/
theorem walkBy_oncePerSector (next : Nat → Nat) (m cb : Nat) (calls : List Call)
    (h : WalkBy next m cb calls) (hstart : isSectorStart cb)
    (hgood : ∀ k, k + 1 < m → next^[k] cb < next^[k + 1] cb
      ∧ (¬ isSectorStart (next^[k + 1] cb) → sectorOf (next^[k + 1] cb) = sectorOf (next^[k] cb))) :
    OncePerSector calls := by
  obtain ⟨_, _, hc, hd⟩ := walkBy_inv next m cb calls h hgood
  intro pre c post hsplit hdata
  rcases hd pre c post hsplit hdata with ⟨_, hns⟩ | h1
  · exact absurd hstart hns
  · refine ⟨?_, h1⟩
    have hle := hc (sectorOf c.addr)
    have hge : authCount (sectorOf c.addr) pre ≤ authCount (sectorOf c.addr) calls := by
      rw [hsplit, authCount_append]; omega
    omega

end NDEF

namespace NDEF
namespace MifareClassic

/-! ## MifareClassic: the outcomes of read -/

/-- The four ways `read` ends, with the calls it makes in each: the first
authentication fails; the read of block 4 fails; the TLV of block 4 does not
decode; or the loop runs, and `read` delivers the message exactly when the
loop delivers the buffer. The calls of the loop form a block walk from block
4 as long as the block counter stays within a byte, and on success the blocks
read are the orbit of `nextBlock` from 4, each taken modulo 256. -/
theorem read_shape {μ : Type} (parse : List Nat → μ) (t : Transport) (uid : List Nat)
    (log : List Call) :
    ∃ tag calls, read parse t uid log = some (tag, log ++ calls)
      ∧ ((t.ok log (Call.PCD_Authenticate KeyType.A 4 ndefKey) = false
            ∧ calls = [Call.PCD_Authenticate KeyType.A 4 ndefKey]
            ∧ tag = NfcTag.ofFormatted uid TagType.TYPE_MIFARE_CLASSIC false)
        ∨ (t.ok log (Call.PCD_Authenticate KeyType.A 4 ndefKey) = true
            ∧ t.ok (log ++ [Call.PCD_Authenticate KeyType.A 4 ndefKey]) (Call.MIFARE_Read 4)
                = false
            ∧ calls = [Call.PCD_Authenticate KeyType.A 4 ndefKey, Call.MIFARE_Read 4]
            ∧ tag = NfcTag.ofType uid TagType.TYPE_MIFARE_CLASSIC)
        ∨ (t.ok log (Call.PCD_Authenticate KeyType.A 4 ndefKey) = true
            ∧ t.ok (log ++ [Call.PCD_Authenticate KeyType.A 4 ndefKey]) (Call.MIFARE_Read 4)
                = true
            ∧ calls = [Call.PCD_Authenticate KeyType.A 4 ndefKey, Call.MIFARE_Read 4]
            ∧ tag = NfcTag.ofType uid TagType.TYPE_UNKNOWN)
        ∨ (t.ok log (Call.PCD_Authenticate KeyType.A 4 ndefKey) = true
            ∧ t.ok (log ++ [Call.PCD_Authenticate KeyType.A 4 ndefKey]) (Call.MIFARE_Read 4)
                = true
            ∧ ∃ (messageLength messageStartIndex : Nat) (walk : List Call)
                (out : Option (List Nat)),
                decodeTlv (applyStores (List.replicate (BLOCK_SIZE + 2) 0)
                    (memcpy 0 ((t.readData (log ++ [Call.PCD_Authenticate KeyType.A 4 ndefKey])
                      4).map toByte) 18))
                  = some (messageLength, messageStartIndex)
                ∧ calls = [Call.PCD_Authenticate KeyType.A 4 ndefKey, Call.MIFARE_Read 4] ++ walk
                ∧ AllOrNothing t
                    (log ++ [Call.PCD_Authenticate KeyType.A 4 ndefKey, Call.MIFARE_Read 4])
                    out.isSome walk
                ∧ ((∀ k,
                      k < ((toInt32 (getBufferSize messageLength + 2) - 2).toNat + 15) / 16 →
                      nextBlock^[k] 4 ≤ 255) →
                    WalkBy nextBlock
                      (((toInt32 (getBufferSize messageLength + 2) - 2).toNat + 15) / 16) 4 walk)
                ∧ (out.isSome = true → readsOf walk
                    = (List.iterate nextBlock 4
                        (((toInt32 (getBufferSize messageLength + 2) - 2).toNat + 15) / 16)).map
                        toByte)
                ∧ tag = (match out with
                    | none => NfcTag.ofType uid TagType.TYPE_MIFARE_CLASSIC
                    | some buffer => NfcTag.ofData parse uid TagType.TYPE_MIFARE_CLASSIC
                        ((buffer.drop messageStartIndex).take messageLength)))) := by
  unfold read
  dsimp only
  generalize applyStores (List.replicate (BLOCK_SIZE + 2) 0)
      (memcpy 0 ((t.readData (log ++ [Call.PCD_Authenticate KeyType.A 4 ndefKey])
        4).map toByte) 18) = data
  by_cases ha : t.ok log (Call.PCD_Authenticate KeyType.A 4 ndefKey) = true
  · rw [if_pos ha]
    by_cases hr : t.ok (log ++ [Call.PCD_Authenticate KeyType.A 4 ndefKey])
        (Call.MIFARE_Read 4) = true
    · rw [if_neg (not_not.mpr hr)]
      have hlog : log ++ [Call.PCD_Authenticate KeyType.A 4 ndefKey] ++ [Call.MIFARE_Read 4]
          = log ++ [Call.PCD_Authenticate KeyType.A 4 ndefKey, Call.MIFARE_Read 4] := by
        rw [List.append_assoc]; rfl
      cases hd : decodeTlv data with
      | none =>
        exact ⟨_, [Call.PCD_Authenticate KeyType.A 4 ndefKey, Call.MIFARE_Read 4],
          by rw [hlog], Or.inr (Or.inr (Or.inl ⟨ha, hr, rfl, rfl⟩))⟩
      | some v =>
        obtain ⟨messageLength, messageStartIndex⟩ := v
        obtain ⟨out, walk, hrun, hout, hwalk, hcount⟩ :=
          readLoop_shape t (toInt32 (getBufferSize messageLength + 2))
            ((toInt32 (getBufferSize messageLength + 2)).toNat + 1) 0 4
            (List.replicate (toInt32 (getBufferSize messageLength + 2)).toNat 0)
            (log ++ [Call.PCD_Authenticate KeyType.A 4 ndefKey] ++ [Call.MIFARE_Read 4])
            (by omega)
        simp only [Nat.sub_zero] at hwalk hcount
        dsimp only
        rw [hrun]
        rw [hlog] at hout
        have hcalls : log ++ [Call.PCD_Authenticate KeyType.A 4 ndefKey] ++ [Call.MIFARE_Read 4]
            ++ walk = log ++ ([Call.PCD_Authenticate KeyType.A 4 ndefKey, Call.MIFARE_Read 4]
              ++ walk) := by
          rw [hlog, List.append_assoc]
        cases out with
        | none =>
          exact ⟨_, [Call.PCD_Authenticate KeyType.A 4 ndefKey, Call.MIFARE_Read 4] ++ walk,
            by rw [hcalls], Or.inr (Or.inr (Or.inr ⟨ha, hr, messageLength,
              messageStartIndex, walk, none, rfl, rfl, hout, hwalk, hcount, rfl⟩))⟩
        | some buffer =>
          exact ⟨_, [Call.PCD_Authenticate KeyType.A 4 ndefKey, Call.MIFARE_Read 4] ++ walk,
            by rw [hcalls], Or.inr (Or.inr (Or.inr ⟨ha, hr, messageLength,
              messageStartIndex, walk, some buffer, rfl, rfl, hout, hwalk, hcount, rfl⟩))⟩
    · have hr' := Bool.eq_false_iff.mpr hr
      rw [if_pos hr]
      exact ⟨_, [Call.PCD_Authenticate KeyType.A 4 ndefKey, Call.MIFARE_Read 4],
        by rw [List.append_assoc]; rfl, Or.inr (Or.inl ⟨ha, hr', rfl, rfl⟩)⟩
  · have ha' := Bool.eq_false_iff.mpr ha
    rw [if_neg ha]
    exact ⟨_, [Call.PCD_Authenticate KeyType.A 4 ndefKey], rfl, Or.inl ⟨ha', rfl, rfl⟩⟩

end MifareClassic
end NDEF

namespace NDEF
namespace MifareClassic

/-! ## MifareClassic: the calls of write -/

/-- `write` returns on every transport; its outcome is all-or-nothing and its
calls form a block walk from block 4 over the blocks of the buffer. -/
theorem write_shape (t : Transport) (encoded : List Nat) (log : List Call) :
    ∃ b calls, write t encoded log = some (b, log ++ calls)
      ∧ AllOrNothing t log b calls
      ∧ WalkBy nextBlockByte (((writeFrame encoded).length + 15) / 16) 4 calls := by
  have h := writeLoop_shape t (writeFrame encoded) ((writeFrame encoded).length + 1) 0 4 log
    (by omega)
  simpa only [Nat.sub_zero] using h

theorem writeFrame_length (encoded : List Nat) (hn : encoded.length ≤ 65535) :
    (writeFrame encoded).length
      = (encoded.length + (if encoded.length < 255 then 3 else 5) + 15) / 16 * 16 := by
  have hB := getBufferSize_toNat encoded.length hn
  rw [writeFrame_eq encoded hn, envelope_length, hB]
  rw [hB]
  split_ifs <;> omega

theorem mem_of_mem_writesOf (calls : List Call) (a : Nat) (blk : List Nat)
    (h : (a, blk) ∈ writesOf calls) : Call.MIFARE_Write a blk ∈ calls := by
  induction calls with
  | nil => simp [writesOf] at h
  | cons c cs ih =>
    cases c with
    | PCD_Authenticate k b key =>
      simp only [writesOf] at h
      exact List.mem_cons_of_mem _ (ih h)
    | MIFARE_Read b =>
      simp only [writesOf] at h
      exact List.mem_cons_of_mem _ (ih h)
    | MIFARE_Write b buf =>
      simp only [writesOf, List.mem_cons, Prod.mk.injEq] at h
      rcases h with ⟨h1, h2⟩ | h
      · rw [h1, h2]; exact List.mem_cons_self _ _
      · exact List.mem_cons_of_mem _ (ih h)

/-- On a transport that never fails, the write loop writes the orbit of its
start block, one block per 16 buffer bytes, and authenticates exactly the
sector starts among these blocks. -/
theorem writeLoop_ok_addrs (t : Transport) (hok : ∀ log c, t.ok log c = true)
    (buffer : List Nat) :
    ∀ fuel index currentBlock log, (buffer.length - index + 15) / 16 < fuel →
      ∃ calls, writeLoop t buffer fuel index currentBlock log = some (true, log ++ calls)
        ∧ (writesOf calls).map Prod.fst
            = List.iterate nextBlockByte currentBlock ((buffer.length - index + 15) / 16)
        ∧ (calls.filter Call.isAuth).map Call.addr
            = (List.iterate nextBlockByte currentBlock
                ((buffer.length - index + 15) / 16)).filter (fun b => isSectorStart b) := by
  intro fuel
  induction fuel with
  | zero => intro index cb log hf; omega
  | succ fuel ih =>
    intro index cb log hf
    by_cases hlt : index < buffer.length
    · have hf' : (buffer.length - (index + BLOCK_SIZE) + 15) / 16 < fuel := by
        simp only [BLOCK_SIZE]; omega
      have hm : (buffer.length - index + 15) / 16
          = (buffer.length - (index + BLOCK_SIZE) + 15) / 16 + 1 := by
        simp only [BLOCK_SIZE]; omega
      have hnext : (if (toByte (cb + 1) < 128 ∧ (toByte (cb + 1) + 1) % 4 = 0)
                  ∨ (toByte (cb + 1) ≥ 128 ∧ (toByte (cb + 1) + 1) % 16 = 0)
                then toByte (toByte (cb + 1) + 1) else toByte (cb + 1)) = nextBlockByte cb := rfl
      rw [writeLoop, hm]
      simp only [List.iterate]
      simp only [hlt, if_true, hok, Bool.true_eq_false, and_false, if_false]
      by_cases hs : (cb < 128 ∧ cb % 4 = 0) ∨ (cb ≥ 128 ∧ cb % 16 = 0)
      · obtain ⟨calls, hrun, hw, ha⟩ := ih (index + BLOCK_SIZE)
          (if (toByte (cb + 1) < 128 ∧ (toByte (cb + 1) + 1) % 4 = 0)
              ∨ (toByte (cb + 1) ≥ 128 ∧ (toByte (cb + 1) + 1) % 16 = 0)
            then toByte (toByte (cb + 1) + 1) else toByte (cb + 1))
          (log ++ [Call.PCD_Authenticate KeyType.A cb ndefKey]
            ++ [Call.MIFARE_Write cb ((buffer.drop index).take BLOCK_SIZE)]) hf'
        rw [hnext] at hw ha
        have hs' : isSectorStart cb := hs
        refine ⟨Call.PCD_Authenticate KeyType.A cb ndefKey
          :: Call.MIFARE_Write cb ((buffer.drop index).take BLOCK_SIZE) :: calls, ?_, ?_, ?_⟩
        · rw [if_pos hs, hrun]; simp
        · simp only [writesOf, List.map_cons, hw]
        · simp [List.filter_cons, Call.isAuth, Call.addr, ha, hs']
      · obtain ⟨calls, hrun, hw, ha⟩ := ih (index + BLOCK_SIZE)
          (if (toByte (cb + 1) < 128 ∧ (toByte (cb + 1) + 1) % 4 = 0)
              ∨ (toByte (cb + 1) ≥ 128 ∧ (toByte (cb + 1) + 1) % 16 = 0)
            then toByte (toByte (cb + 1) + 1) else toByte (cb + 1))
          (log ++ [Call.MIFARE_Write cb ((buffer.drop index).take BLOCK_SIZE)]) hf'
        rw [hnext] at hw ha
        have hs' : ¬ isSectorStart cb := hs
        refine ⟨Call.MIFARE_Write cb ((buffer.drop index).take BLOCK_SIZE) :: calls, ?_, ?_, ?_⟩
        · rw [if_neg hs, hrun]; simp
        · simp only [writesOf, List.map_cons, hw]
        · simp [List.filter_cons, Call.isAuth, ha, hs']
    · have hz : (buffer.length - index + 15) / 16 = 0 := by omega
      refine ⟨[], ?_, ?_, ?_⟩
      · rw [writeLoop]; simp [hlt]
      · rw [hz]; rfl
      · rw [hz]; rfl

/-- On a transport that never fails, `write` writes the first blocks of the
orbit of block 4 and authenticates the sector starts among them. -/
theorem write_ok_addrs (t : Transport) (hok : ∀ log c, t.ok log c = true)
    (encoded : List Nat) (log : List Call) :
    ∃ calls, write t encoded log = some (true, log ++ calls)
      ∧ (writesOf calls).map Prod.fst
          = List.iterate nextBlockByte 4 (((writeFrame encoded).length + 15) / 16)
      ∧ (calls.filter Call.isAuth).map Call.addr
          = (List.iterate nextBlockByte 4
              (((writeFrame encoded).length + 15) / 16)).filter (fun b => isSectorStart b) := by
  have h := writeLoop_ok_addrs t hok (writeFrame encoded) ((writeFrame encoded).length + 1)
    0 4 log (by omega)
  simpa only [Nat.sub_zero] using h

end MifareClassic
end NDEF

namespace NDEF
namespace MifareClassic

/-! ## MifareClassic: formatNDEF -/

theorem attempt_allOrNothing (t : Transport) (c : Call) (log : List Call)
    (next : List Call → Option (Bool × List Call))
    (h : ∃ b calls, next (log ++ [c]) = some (b, log ++ [c] ++ calls)
      ∧ AllOrNothing t (log ++ [c]) b calls) :
    ∃ b calls, attempt t c log next = some (b, log ++ calls) ∧ AllOrNothing t log b calls := by
  unfold attempt
  by_cases hc : t.ok log c = true
  · obtain ⟨b, calls, hrun, hout⟩ := h
    refine ⟨b, c :: calls, ?_, allOrNothing_cons t log c b calls hc hout⟩
    rw [if_pos hc, hrun]; simp
  · refine ⟨false, [c], ?_, allOrNothing_failed t log c (Bool.eq_false_iff.mpr hc)⟩
    rw [if_neg hc]

theorem formatNDEFLoop_allOrNothing (t : Transport) :
    ∀ fuel i log, (64 - i + 3) / 4 < fuel →
      ∃ b calls, formatNDEFLoop t fuel i log = some (b, log ++ calls)
        ∧ AllOrNothing t log b calls := by
  intro fuel
  induction fuel with
  | zero => intro i log hf; omega
  | succ fuel ih =>
    intro i log hf
    by_cases hi : i < 64
    · rw [formatNDEFLoop, if_pos hi]
      apply attempt_allOrNothing
      apply attempt_allOrNothing
      apply attempt_allOrNothing
      apply attempt_allOrNothing
      apply attempt_allOrNothing
      exact ih (i + 4) _ (by omega)
    · refine ⟨true, [], ?_, allOrNothing_nil t log⟩
      rw [formatNDEFLoop, if_neg hi]; simp

theorem formatNDEF_allOrNothing (t : Transport) (log : List Call) :
    ∃ b calls, formatNDEF t log = some (b, log ++ calls) ∧ AllOrNothing t log b calls := by
  unfold formatNDEF
  apply attempt_allOrNothing
  apply attempt_allOrNothing
  apply attempt_allOrNothing
  apply attempt_allOrNothing
  exact formatNDEFLoop_allOrNothing t 16 4 _ (by omega)

theorem attempt_ok (t : Transport) (hok : ∀ log c, t.ok log c = true) (c : Call)
    (log : List Call) (next : List Call → Option (Bool × List Call)) :
    attempt t c log next = next (log ++ [c]) := by
  unfold attempt
  rw [if_pos (hok log c)]

end MifareClassic
end NDEF

namespace NDEF
namespace MifareClassic

/-- On a transport that never fails, `formatNDEF` returns `true` after 79
calls; its only write to block 4 carries `emptyNdefMesg`. -/
theorem formatNDEF_ok_block4 (t : Transport) (hok : ∀ log c, t.ok log c = true)
    (log : List Call) :
    ∃ calls, formatNDEF t log = some (true, log ++ calls)
      ∧ (writesOf calls).filter (fun w => w.1 == 4) = [(4, emptyNdefMesg)]
      ∧ calls.length = 79 :=
  ⟨_, by
      simp only [formatNDEF, formatNDEFLoop, attempt_ok t hok, List.append_assoc,
        List.singleton_append, Nat.reduceLT, Nat.reduceAdd, if_true, if_false,
        Nat.reduceEqDiff]
      rfl,
    by decide, by decide⟩

end MifareClassic
end NDEF

namespace NDEF

theorem authsOk_append (t : Transport) (a b : List Call) :
    ∀ log, authsOk t log (a ++ b) ↔ authsOk t log a ∧ authsOk t (log ++ a) b := by
  induction a with
  | nil => intro log; simp [authsOk]
  | cons c cs ih =>
    intro log
    show ((c.isAuth = true → t.ok log c = true) ∧ authsOk t (log ++ [c]) (cs ++ b)) ↔ _
    rw [ih (log ++ [c])]
    simp [authsOk, and_assoc, List.append_assoc]

theorem authsOk_of_no_auth (t : Transport) (calls : List Call) :
    ∀ log, (∀ c ∈ calls, c.isAuth = false) → authsOk t log calls := by
  induction calls with
  | nil => intro log _; trivial
  | cons c cs ih =>
    intro log h
    refine ⟨fun hc => ?_, ih _ (fun d hd => h d (List.mem_cons_of_mem _ hd))⟩
    rw [h c (List.mem_cons_self _ _)] at hc
    exact absurd hc (by decide)

theorem writesOf_append (a b : List Call) : writesOf (a ++ b) = writesOf a ++ writesOf b := by
  induction a with
  | nil => rfl
  | cons c cs ih => cases c <;> simp [writesOf, ih]

namespace MifareClassic

/-- The loop of `formatMifare` returns. When it returns `true`, every
authentication succeeded, the writes are those of the sectors `idx` to 15 in
order, and one authentication was made per sector. When it returns `false`,
the last call is a failed authentication and the authentications before it
succeeded. -/
theorem formatMifareLoop_shape (t : Transport) :
    ∀ fuel idx log, idx ≤ 16 → 16 - idx < fuel →
      ∃ b calls, formatMifareLoop t fuel idx log = some (b, log ++ calls)
        ∧ (b = true → authsOk t log calls
            ∧ writesOf calls = ((List.range' idx (16 - idx)).map formatMifareWrites).flatten
            ∧ (calls.filter Call.isAuth).length = 16 - idx)
        ∧ (b = false → ∃ pre c, calls = pre ++ [c] ∧ c.isAuth = true
            ∧ t.ok (log ++ pre) c = false ∧ authsOk t log pre) := by
  intro fuel
  induction fuel with
  | zero => intro idx log _ h; omega
  | succ fuel ih =>
    intro idx log hle hfuel
    rw [formatMifareLoop]
    by_cases hlt : idx < 16
    · simp only [hlt, if_true]
      by_cases hauth :
          t.ok log (Call.PCD_Authenticate KeyType.B (BLOCK_NUMBER_OF_SECTOR_TRAILER idx)
            defaultKey) = true
      · have hbyte : toByte (idx + 1) = idx + 1 := by
          unfold toByte; omega
        rw [if_neg (not_not.mpr hauth), hbyte]
        have hrange : List.range' idx (16 - idx)
            = idx :: List.range' (idx + 1) (16 - (idx + 1)) := by
          have h16 : 16 - idx = (16 - (idx + 1)) + 1 := by omega
          rw [h16, List.range'_succ]
        by_cases h0 : idx = 0
        · simp only [h0, if_true]
          obtain ⟨b, calls, heq, htrue, hfalse⟩ :=
            ih (0 + 1) (log ++ [Call.PCD_Authenticate KeyType.B
                (BLOCK_NUMBER_OF_SECTOR_TRAILER 0) defaultKey]
              ++ [Call.MIFARE_Write (BLOCK_NUMBER_OF_SECTOR_TRAILER 0 - 2) emptyBlock]
              ++ [Call.MIFARE_Write (BLOCK_NUMBER_OF_SECTOR_TRAILER 0 - 1) emptyBlock]
              ++ [Call.MIFARE_Write (BLOCK_NUMBER_OF_SECTOR_TRAILER 0) authBlock])
              (by omega) (by omega)
          subst h0
          refine ⟨b, [Call.PCD_Authenticate KeyType.B (BLOCK_NUMBER_OF_SECTOR_TRAILER 0)
                defaultKey,
              Call.MIFARE_Write (BLOCK_NUMBER_OF_SECTOR_TRAILER 0 - 2) emptyBlock,
              Call.MIFARE_Write (BLOCK_NUMBER_OF_SECTOR_TRAILER 0 - 1) emptyBlock,
              Call.MIFARE_Write (BLOCK_NUMBER_OF_SECTOR_TRAILER 0) authBlock] ++ calls,
            ?_, ?_, ?_⟩
          · rw [heq]; simp [List.append_assoc]
          · intro hb
            obtain ⟨h1, h2, h3⟩ := htrue hb
            refine ⟨?_, ?_, ?_⟩
            · refine ⟨fun _ => hauth, (fun h => nomatch h), (fun h => nomatch h),
                (fun h => nomatch h), ?_⟩
              simpa [List.append_assoc] using h1
            · rw [writesOf_append, h2, hrange]
              simp [writesOf, formatMifareWrites]
            · rw [List.filter_append, List.length_append, h3]
              simp [List.filter, Call.isAuth]
          · intro hb
            obtain ⟨pre, c, hc, hca, hcf, hpre⟩ := hfalse hb
            refine ⟨[Call.PCD_Authenticate KeyType.B (BLOCK_NUMBER_OF_SECTOR_TRAILER 0)
                  defaultKey,
                Call.MIFARE_Write (BLOCK_NUMBER_OF_SECTOR_TRAILER 0 - 2) emptyBlock,
                Call.MIFARE_Write (BLOCK_NUMBER_OF_SECTOR_TRAILER 0 - 1) emptyBlock,
                Call.MIFARE_Write (BLOCK_NUMBER_OF_SECTOR_TRAILER 0) authBlock] ++ pre, c,
              by rw [hc]; simp [List.append_assoc], hca,
              by simpa [List.append_assoc] using hcf, ?_⟩
            refine ⟨fun _ => hauth, (fun h => nomatch h), (fun h => nomatch h),
              (fun h => nomatch h), ?_⟩
            simpa [List.append_assoc] using hpre
        · simp only [h0, if_false]
          obtain ⟨b, calls, heq, htrue, hfalse⟩ :=
            ih (idx + 1) (log ++ [Call.PCD_Authenticate KeyType.B
                (BLOCK_NUMBER_OF_SECTOR_TRAILER idx) defaultKey]
              ++ [Call.MIFARE_Write (BLOCK_NUMBER_OF_SECTOR_TRAILER idx - 3) emptyBlock]
              ++ [Call.MIFARE_Write (BLOCK_NUMBER_OF_SECTOR_TRAILER idx - 2) emptyBlock]
              ++ [Call.MIFARE_Write (BLOCK_NUMBER_OF_SECTOR_TRAILER idx - 1) emptyBlock]
              ++ [Call.MIFARE_Write (BLOCK_NUMBER_OF_SECTOR_TRAILER idx) authBlock])
              (by omega) (by omega)
          refine ⟨b, [Call.PCD_Authenticate KeyType.B (BLOCK_NUMBER_OF_SECTOR_TRAILER idx)
                defaultKey,
              Call.MIFARE_Write (BLOCK_NUMBER_OF_SECTOR_TRAILER idx - 3) emptyBlock,
              Call.MIFARE_Write (BLOCK_NUMBER_OF_SECTOR_TRAILER idx - 2) emptyBlock,
              Call.MIFARE_Write (BLOCK_NUMBER_OF_SECTOR_TRAILER idx - 1) emptyBlock,
              Call.MIFARE_Write (BLOCK_NUMBER_OF_SECTOR_TRAILER idx) authBlock] ++ calls,
            ?_, ?_, ?_⟩
          · rw [heq]; simp [List.append_assoc]
          · intro hb
            obtain ⟨h1, h2, h3⟩ := htrue hb
            refine ⟨?_, ?_, ?_⟩
            · refine ⟨fun _ => hauth, (fun h => nomatch h), (fun h => nomatch h),
                (fun h => nomatch h), (fun h => nomatch h), ?_⟩
              simpa [List.append_assoc] using h1
            · rw [writesOf_append, h2, hrange]
              simp [writesOf, formatMifareWrites, h0]
            · rw [List.filter_append, List.length_append, h3]
              simp [List.filter, Call.isAuth]
              omega
          · intro hb
            obtain ⟨pre, c, hc, hca, hcf, hpre⟩ := hfalse hb
            refine ⟨[Call.PCD_Authenticate KeyType.B (BLOCK_NUMBER_OF_SECTOR_TRAILER idx)
                  defaultKey,
                Call.MIFARE_Write (BLOCK_NUMBER_OF_SECTOR_TRAILER idx - 3) emptyBlock,
                Call.MIFARE_Write (BLOCK_NUMBER_OF_SECTOR_TRAILER idx - 2) emptyBlock,
                Call.MIFARE_Write (BLOCK_NUMBER_OF_SECTOR_TRAILER idx - 1) emptyBlock,
                Call.MIFARE_Write (BLOCK_NUMBER_OF_SECTOR_TRAILER idx) authBlock] ++ pre, c,
              by rw [hc]; simp [List.append_assoc], hca,
              by simpa [List.append_assoc] using hcf, ?_⟩
            refine ⟨fun _ => hauth, (fun h => nomatch h), (fun h => nomatch h),
              (fun h => nomatch h), (fun h => nomatch h), ?_⟩
            simpa [List.append_assoc] using hpre
      · rw [if_pos hauth]
        refine ⟨false, [Call.PCD_Authenticate KeyType.B (BLOCK_NUMBER_OF_SECTOR_TRAILER idx)
          defaultKey], rfl, (fun h => nomatch h), fun _ => ?_⟩
        exact ⟨[], _, rfl, rfl, by simpa using hauth, trivial⟩
    · simp only [hlt, if_false]
      have h16 : idx = 16 := by omega
      subst h16
      exact ⟨true, [], by simp, fun _ => ⟨trivial, by simp [writesOf], by simp⟩,
        (fun h => nomatch h)⟩

/-- The result of `formatMifare` depends on the transport only through the
status of the authentications. -/
theorem formatMifareLoop_congr (t1 t2 : Transport)
    (h : ∀ log c, c.isAuth = true → t1.ok log c = t2.ok log c) :
    ∀ fuel idx log, formatMifareLoop t1 fuel idx log = formatMifareLoop t2 fuel idx log := by
  intro fuel
  induction fuel with
  | zero => intro idx log; rfl
  | succ fuel ih =>
    intro idx log
    rw [formatMifareLoop, formatMifareLoop]
    simp only [h log (Call.PCD_Authenticate KeyType.B (BLOCK_NUMBER_OF_SECTOR_TRAILER idx)
      defaultKey) rfl, ih]

end MifareClassic
end NDEF

namespace NDEF

theorem mem_of_mem_readsOf (calls : List Call) (a : Nat) (h : a ∈ readsOf calls) :
    Call.MIFARE_Read a ∈ calls := by
  induction calls with
  | nil => simp [readsOf] at h
  | cons c cs ih =>
    cases c with
    | PCD_Authenticate k b key =>
      simp only [readsOf] at h
      exact List.mem_cons_of_mem _ (ih h)
    | MIFARE_Write b buf =>
      simp only [readsOf] at h
      exact List.mem_cons_of_mem _ (ih h)
    | MIFARE_Read b =>
      simp only [readsOf, List.mem_cons] at h
      rcases h with h | h
      · subst h
        exact List.mem_cons_self _ _
      · exact List.mem_cons_of_mem _ (ih h)

theorem not_isTrailer_iff (a : Nat) :
    ¬ isTrailer a ↔ (a < 128 → (a + 1) % 4 ≠ 0) ∧ (128 ≤ a → (a + 1) % 16 ≠ 0) := by
  unfold isTrailer
  omega

namespace MifareClassic

set_option maxRecDepth 100000 in
/-- The first 213 blocks of the walk of `read` from block 4 have addresses
that fit a byte. -/
theorem nextBlock_orbit_le : ∀ k, k < 213 → nextBlock^[k] 4 ≤ 255 := by
  decide

/-- For a decoded TLV length of at most 3403 bytes the loop of `read` runs
over at most 213 blocks, and its block counter stays within a byte. -/
theorem read_walk_in_byte (ml : Nat) (h : ml ≤ 3403) :
    ∀ k, k < ((toInt32 (getBufferSize (ml : Int) + 2) - 2).toNat + 15) / 16 →
      nextBlock^[k] 4 ≤ 255 := by
  have hG := getBufferSize_eq (ml : Int) (by omega) (by omega)
  have hm : ((toInt32 (getBufferSize (ml : Int) + 2) - 2).toNat + 15) / 16 ≤ 213 := by
    rw [toInt32_of_range _ (by rw [hG]; split_ifs <;> omega) (by rw [hG]; split_ifs <;> omega)]
    rw [hG]
    split_ifs <;> omega
  intro k hk
  exact nextBlock_orbit_le k (by omega)

/-- While the `int` block counter of `read` stays within a byte, which holds
when the TLV length decoded from block 4 is at most 3403 bytes, no call of
`read` carries the address of a trailer block. -/
theorem read_addrs_not_trailer {μ : Type} (parse : List Nat → μ) (t : Transport)
    (uid : List Nat) (log : List Call) :
    ∃ tag calls, read parse t uid log = some (tag, log ++ calls)
      ∧ ((∀ ml si, decodeTlv (applyStores (List.replicate (BLOCK_SIZE + 2) 0)
            (memcpy 0 ((t.readData (log ++ [Call.PCD_Authenticate KeyType.A 4 ndefKey])
              4).map toByte) 18)) = some (ml, si) → ml ≤ 3403) →
          ∀ c ∈ calls, ¬ isTrailer c.addr) := by
  obtain ⟨tag, calls, hrun, h⟩ := read_shape parse t uid log
  refine ⟨tag, calls, hrun, fun hlen => ?_⟩
  have h4 : ¬ isTrailer 4 := by decide
  rcases h with ⟨_, hc, _⟩ | ⟨_, _, hc, _⟩ | ⟨_, _, hc, _⟩
    | ⟨_, _, ml, ms, walk, out, hdec, hc, _, hwalk, _, _⟩
  · subst hc
    intro c hc
    simp only [List.mem_singleton] at hc
    subst hc
    exact h4
  · subst hc
    intro c hc
    simp only [List.mem_cons, List.mem_singleton, List.not_mem_nil, or_false] at hc
    rcases hc with hc | hc <;> subst hc <;> exact h4
  · subst hc
    intro c hc
    simp only [List.mem_cons, List.mem_singleton, List.not_mem_nil, or_false] at hc
    rcases hc with hc | hc <;> subst hc <;> exact h4
  · subst hc
    intro c hc
    rw [List.mem_append] at hc
    rcases hc with hc | hc
    · simp only [List.mem_cons, List.mem_singleton, List.not_mem_nil, or_false] at hc
      rcases hc with hc | hc <;> subst hc <;> exact h4
    · exact walkBy_addr nextBlock (fun x => ¬ isTrailer x)
        (fun x _ => nextBlock_not_trailer x) _ 4 walk
        (hwalk (read_walk_in_byte ml (hlen ml ms hdec))) h4 c hc

/-- No call of `write` carries the address of a trailer block. -/
theorem write_addrs_not_trailer (t : Transport) (encoded : List Nat) (log : List Call) :
    ∃ b calls, write t encoded log = some (b, log ++ calls)
      ∧ ∀ c ∈ calls, ¬ isTrailer c.addr := by
  obtain ⟨b, calls, hrun, _, hwalk⟩ := write_shape t encoded log
  exact ⟨b, calls, hrun, walkBy_addr nextBlockByte (fun x => ¬ isTrailer x)
    (fun x _ => nextBlockByte_not_trailer x) _ 4 calls hwalk (by decide)⟩

/-- On a transport that never fails, `write` of `n` bytes, `255 ≤ n ≤ 65535`,
returns `true` and writes the first `(n + 20) / 16` blocks of the walk from
block 4, authenticating those that start a sector. -/
theorem write_ok_long (t : Transport) (hok : ∀ log c, t.ok log c = true) (n : Nat)
    (h1 : 255 ≤ n) (h2 : n ≤ 65535) (log : List Call) :
    ∃ calls, write t (List.replicate n 0) log = some (true, log ++ calls)
      ∧ (writesOf calls).map Prod.fst = List.iterate nextBlockByte 4 ((n + 20) / 16)
      ∧ (calls.filter Call.isAuth).map Call.addr
          = (List.iterate nextBlockByte 4 ((n + 20) / 16)).filter (fun b => isSectorStart b) := by
  obtain ⟨calls, hrun, hw, ha⟩ := write_ok_addrs t hok (List.replicate n 0) log
  have hlen : ((writeFrame (List.replicate n 0)).length + 15) / 16 = (n + 20) / 16 := by
    rw [writeFrame_length _ (by rw [List.length_replicate]; exact h2)]
    simp only [List.length_replicate]
    rw [if_neg (by omega)]
    omega
  rw [hlen] at hw ha
  exact ⟨calls, hrun, hw, ha⟩

/-- Counterexample to claim C11 as stated: on a transport where every call
succeeds, `write` of a 1547-byte message passes block 131 to `MIFARE_Write`,
and `(131 + 1) % 4 = 0`. Block 131 lies in the region from 128 on, where the
walk takes sectors to have 16 blocks and skips only `(a + 1) % 16 = 0`. -/
theorem write_passes_block_131 :
    ∃ calls blk, write okTransport (List.replicate 1547 0) [] = some (true, calls)
      ∧ Call.MIFARE_Write 131 blk ∈ calls ∧ (131 + 1) % 4 = 0 := by
  obtain ⟨calls, hrun, hw, _⟩ :=
    write_ok_long okTransport (fun _ _ => rfl) 1547 (by decide) (by decide) []
  have hmem : 131 ∈ (writesOf calls).map Prod.fst := by
    rw [hw]
    decide
  obtain ⟨⟨a, blk⟩, hmem, ha⟩ := List.mem_map.1 hmem
  simp only at ha
  subst ha
  exact ⟨calls, blk, hrun, mem_of_mem_writesOf calls _ blk hmem, by decide⟩

/-- Claim C11, amended: `read` and `write` return on every transport and for
every message. No address that `write` passes to `MIFARE_Write` is a trailer
of the layout it walks: below 128 no address `a` has `(a + 1) % 4 = 0`, from
128 on no address has `(a + 1) % 16 = 0`. The same holds of every address
that `read` passes to `MIFARE_Read` when the TLV length it decodes from block
4 is at most 3403 bytes, so that its block counter stays within a byte. -/
theorem data_transfers_avoid_trailers {μ : Type} (parse : List Nat → μ) (t : Transport)
    (uid encoded : List Nat) (log : List Call) :
    (∃ tag calls, read parse t uid log = some (tag, log ++ calls)
      ∧ ((∀ ml si, decodeTlv (applyStores (List.replicate (BLOCK_SIZE + 2) 0)
            (memcpy 0 ((t.readData (log ++ [Call.PCD_Authenticate KeyType.A 4 ndefKey])
              4).map toByte) 18)) = some (ml, si) → ml ≤ 3403) →
          ∀ a ∈ readsOf calls,
            (a < 128 → (a + 1) % 4 ≠ 0) ∧ (128 ≤ a → (a + 1) % 16 ≠ 0)))
    ∧ (∃ b calls, write t encoded log = some (b, log ++ calls)
      ∧ ∀ w ∈ writesOf calls,
          (w.1 < 128 → (w.1 + 1) % 4 ≠ 0) ∧ (128 ≤ w.1 → (w.1 + 1) % 16 ≠ 0)) := by
  constructor
  · obtain ⟨tag, calls, hrun, h⟩ := read_addrs_not_trailer parse t uid log
    refine ⟨tag, calls, hrun, fun hlen a ha => ?_⟩
    exact (not_isTrailer_iff a).1 (h hlen _ (mem_of_mem_readsOf calls a ha))
  · obtain ⟨b, calls, hrun, h⟩ := write_addrs_not_trailer t encoded log
    refine ⟨b, calls, hrun, fun w hw => ?_⟩
    exact (not_isTrailer_iff w.1).1 (h _ (mem_of_mem_writesOf calls w.1 w.2 hw))

/-- An instance of `data_transfers_avoid_trailers` at a concrete input: block
4 holds the 3-byte empty-record message, so the decoded TLV length is 3, and
the same 3 bytes are written. -/
theorem data_transfers_avoid_trailers_witness :
    decodeTlv (applyStores (List.replicate (BLOCK_SIZE + 2) 0)
        (memcpy 0 ((emptyRecordTransport.readData
          ([] ++ [Call.PCD_Authenticate KeyType.A 4 ndefKey]) 4).map toByte) 18)) = some (3, 2)
    ∧ (∃ (tag : NfcTag (List Nat)) (calls : List Call),
        read id emptyRecordTransport [1, 2, 3, 4] [] = some (tag, [] ++ calls)
      ∧ ∀ a ∈ readsOf calls, (a < 128 → (a + 1) % 4 ≠ 0) ∧ (128 ≤ a → (a + 1) % 16 ≠ 0))
    ∧ (∃ b calls, write emptyRecordTransport [0xD0, 0x00, 0x00] [] = some (b, [] ++ calls)
      ∧ ∀ w ∈ writesOf calls,
          (w.1 < 128 → (w.1 + 1) % 4 ≠ 0) ∧ (128 ≤ w.1 → (w.1 + 1) % 16 ≠ 0)) := by
  obtain ⟨⟨tag, calls, hrun, h⟩, hw⟩ :=
    data_transfers_avoid_trailers id emptyRecordTransport [1, 2, 3, 4] [0xD0, 0x00, 0x00] []
  refine ⟨by decide, ⟨tag, calls, hrun, h (fun ml si hd => ?_)⟩, hw⟩
  have h2 : some (ml, si) = some (3, 2) := hd.symm.trans (by decide)
  simp only [Option.some.injEq, Prod.mk.injEq] at h2
  omega

end MifareClassic
end NDEF

namespace NDEF
namespace MifareClassic

set_option maxRecDepth 100000 in
/-- The first 212 blocks of the walk of `write` from block 4 stay below the
wrap of the `byte` counter. -/
theorem nextBlockByte_orbit_le : ∀ k, k < 212 → nextBlockByte^[k] 4 ≤ 253 := by
  decide

/-- While the `int` block counter of `read` stays within a byte, which holds
when the TLV length decoded from block 4 is at most 3403 bytes, `read`
authenticates in its block walk every sector it transfers a block of exactly
once, before the transfer. -/
theorem read_walk_oncePerSector {μ : Type} (parse : List Nat → μ) (t : Transport)
    (uid : List Nat) (log : List Call) :
    ∃ tag head walk, read parse t uid log = some (tag, log ++ head ++ walk)
      ∧ ((head = [Call.PCD_Authenticate KeyType.A 4 ndefKey] ∧ walk = [])
        ∨ head = [Call.PCD_Authenticate KeyType.A 4 ndefKey, Call.MIFARE_Read 4])
      ∧ ((∀ ml si, decodeTlv (applyStores (List.replicate (BLOCK_SIZE + 2) 0)
            (memcpy 0 ((t.readData (log ++ [Call.PCD_Authenticate KeyType.A 4 ndefKey])
              4).map toByte) 18)) = some (ml, si) → ml ≤ 3403) →
          OncePerSector walk) := by
  obtain ⟨tag, calls, hrun, h⟩ := read_shape parse t uid log
  have hnil : OncePerSector [] := by
    intro pre c post hsplit
    simp at hsplit
  rcases h with ⟨_, hc, _⟩ | ⟨_, _, hc, _⟩ | ⟨_, _, hc, _⟩
    | ⟨_, _, ml, ms, walk, out, hdec, hc, _, hwalk, _, _⟩
  · exact ⟨tag, _, [], by rw [hrun, hc, List.append_nil], Or.inl ⟨rfl, rfl⟩, fun _ => hnil⟩
  · exact ⟨tag, _, [], by rw [hrun, hc, List.append_nil], Or.inr rfl, fun _ => hnil⟩
  · exact ⟨tag, _, [], by rw [hrun, hc, List.append_nil], Or.inr rfl, fun _ => hnil⟩
  · refine ⟨tag, _, walk, by rw [hrun, hc, List.append_assoc], Or.inr rfl, fun hlen => ?_⟩
    refine walkBy_oncePerSector nextBlock _ 4 walk
      (hwalk (read_walk_in_byte ml (hlen ml ms hdec))) (by decide) (fun k _ => ?_)
    rw [Function.iterate_succ_apply']
    exact ⟨nextBlock_gt _, nextBlock_sector _⟩

/-- While the `byte` block counter does not wrap, which holds for messages of
up to 3403 bytes, `write` authenticates every sector it writes a block of
exactly once, before the write. -/
theorem write_oncePerSector (t : Transport) (encoded : List Nat) (log : List Call)
    (hlen : encoded.length ≤ 3403) :
    ∃ b calls, write t encoded log = some (b, log ++ calls) ∧ OncePerSector calls := by
  obtain ⟨b, calls, hrun, _, hwalk⟩ := write_shape t encoded log
  refine ⟨b, calls, hrun, ?_⟩
  have hm : ((writeFrame encoded).length + 15) / 16 ≤ 213 := by
    rw [writeFrame_length encoded (by omega)]
    split_ifs <;> omega
  refine walkBy_oncePerSector nextBlockByte _ 4 calls hwalk (by decide) (fun k hk => ?_)
  have hle := nextBlockByte_orbit_le k (by omega)
  rw [Function.iterate_succ_apply', nextBlockByte_eq _ hle]
  exact ⟨nextBlock_gt _, nextBlock_sector _⟩

/-- Counterexample to claim C12 as stated: on a transport where every call
succeeds and block 4 holds a 3-byte message, `read` makes the calls
authenticate 4, read 4, authenticate 4, read 4. Sector 1 is authenticated
twice in the pass, not once. -/
theorem read_authenticates_sector_twice :
    read id emptyRecordTransport [1, 2, 3, 4] []
        = some (NfcTag.ofData id [1, 2, 3, 4] TagType.TYPE_MIFARE_CLASSIC [0xD0, 0x00, 0x00],
            [Call.PCD_Authenticate KeyType.A 4 ndefKey, Call.MIFARE_Read 4,
              Call.PCD_Authenticate KeyType.A 4 ndefKey, Call.MIFARE_Read 4])
      ∧ authCount (sectorOf 4)
          [Call.PCD_Authenticate KeyType.A 4 ndefKey, Call.MIFARE_Read 4,
            Call.PCD_Authenticate KeyType.A 4 ndefKey, Call.MIFARE_Read 4] = 2
      ∧ ¬ OncePerSector
          [Call.PCD_Authenticate KeyType.A 4 ndefKey, Call.MIFARE_Read 4,
            Call.PCD_Authenticate KeyType.A 4 ndefKey, Call.MIFARE_Read 4] := by
  refine ⟨by decide, by decide, fun h => ?_⟩
  have h1 := (h [Call.PCD_Authenticate KeyType.A 4 ndefKey] (Call.MIFARE_Read 4)
    [Call.PCD_Authenticate KeyType.A 4 ndefKey, Call.MIFARE_Read 4] rfl rfl).1
  exact absurd h1 (by decide)

/-- Claim C12, amended: `read` first authenticates block 4 and, if that
succeeds, reads it; in the block walk that follows, which starts at block 4
again, when the TLV length decoded from block 4 is at most 3403 bytes, the
authenticate of the transport is invoked exactly once for each sector a block
of which is read, before the first such read. The whole pass of `write`, for
a message of at most 3403 bytes, invokes the authenticate exactly once for
each sector a block of which is written, before the first such write. -/
theorem auth_once_per_sector_in_walk {μ : Type} (parse : List Nat → μ) (t : Transport)
    (uid encoded : List Nat) (log : List Call) (hlen : encoded.length ≤ 3403) :
    (∃ tag head walk, read parse t uid log = some (tag, log ++ head ++ walk)
      ∧ ((head = [Call.PCD_Authenticate KeyType.A 4 ndefKey] ∧ walk = [])
        ∨ head = [Call.PCD_Authenticate KeyType.A 4 ndefKey, Call.MIFARE_Read 4])
      ∧ ((∀ ml si, decodeTlv (applyStores (List.replicate (BLOCK_SIZE + 2) 0)
            (memcpy 0 ((t.readData (log ++ [Call.PCD_Authenticate KeyType.A 4 ndefKey])
              4).map toByte) 18)) = some (ml, si) → ml ≤ 3403) →
          OncePerSector walk))
    ∧ (∃ b calls, write t encoded log = some (b, log ++ calls) ∧ OncePerSector calls) :=
  ⟨read_walk_oncePerSector parse t uid log, write_oncePerSector t encoded log hlen⟩

/-- An instance of `auth_once_per_sector_in_walk` at a concrete input: block
4 holds the 3-byte empty-record message, so the decoded TLV length is 3, and
the same 3 bytes are written. -/
theorem auth_once_per_sector_in_walk_witness :
    ([0xD0, 0x00, 0x00] : List Nat).length ≤ 3403
    ∧ decodeTlv (applyStores (List.replicate (BLOCK_SIZE + 2) 0)
        (memcpy 0 ((emptyRecordTransport.readData
          ([] ++ [Call.PCD_Authenticate KeyType.A 4 ndefKey]) 4).map toByte) 18)) = some (3, 2)
    ∧ (∃ (tag : NfcTag (List Nat)) (head walk : List Call),
        read id emptyRecordTransport [1, 2, 3, 4] [] = some (tag, [] ++ head ++ walk)
      ∧ ((head = [Call.PCD_Authenticate KeyType.A 4 ndefKey] ∧ walk = [])
        ∨ head = [Call.PCD_Authenticate KeyType.A 4 ndefKey, Call.MIFARE_Read 4])
      ∧ OncePerSector walk)
    ∧ (∃ b calls, write emptyRecordTransport [0xD0, 0x00, 0x00] [] = some (b, [] ++ calls)
      ∧ OncePerSector calls) := by
  obtain ⟨⟨tag, head, walk, hrun, hhead, h⟩, hw⟩ :=
    auth_once_per_sector_in_walk id emptyRecordTransport [1, 2, 3, 4] [0xD0, 0x00, 0x00] []
      (by decide)
  refine ⟨by decide, by decide, ⟨tag, head, walk, hrun, hhead, h (fun ml si hd => ?_)⟩, hw⟩
  have h2 : some (ml, si) = some (3, 2) := hd.symm.trans (by decide)
  simp only [Option.some.injEq, Prod.mk.injEq] at h2
  omega

end MifareClassic
end NDEF

namespace NDEF
namespace MifareClassic

/-- Claim C13, the code at the failing input: block 4 starts with two null
TLVs, so `decodeTlv` gives `messageLength = 13` and `messageStartIndex = 4`,
and every call succeeds. The block walk of `read` reads one block, 16 data
bytes, fewer than the `4 + 13` the slice needs; the last byte handed to the
message decoder is `0x9A`, the first integrity byte that `MIFARE_Read` stored
behind the block, and not a data byte of the tag. -/
theorem read_slice_exceeds_walk :
    decodeTlv nullTlvBlock = some (13, 4)
    ∧ read id nullTlvTransport [1, 2, 3, 4] []
        = some (NfcTag.ofData id [1, 2, 3, 4] TagType.TYPE_MIFARE_CLASSIC
              [0xD1, 0x01, 0x09, 0x54, 0x02, 0x65, 0x6E, 0x41, 0x42, 0x43, 0x44, 0x45, 0x9A],
            [Call.PCD_Authenticate KeyType.A 4 ndefKey, Call.MIFARE_Read 4]
              ++ [Call.PCD_Authenticate KeyType.A 4 ndefKey, Call.MIFARE_Read 4])
    ∧ 16 * (readsOf [Call.PCD_Authenticate KeyType.A 4 ndefKey, Call.MIFARE_Read 4]).length
        < 4 + 13
    ∧ nullTlvBlock.getD 16 0 = 0x9A := by
  decide

end MifareClassic
end NDEF

namespace NDEF
namespace MifareClassic

set_option maxRecDepth 100000 in
/-- The first 45 blocks of the walk of `write` from block 4 are the data
blocks of sectors 1 to 15. -/
theorem nextBlockByte_orbit_1k :
    ∀ k, k < 45 → 4 ≤ nextBlockByte^[k] 4 ∧ nextBlockByte^[k] 4 ≤ 62 := by
  decide

/-- Counterexample to claim C14 as stated: on a transport where every call
succeeds, `write` of a 716-byte message, whose padded envelope takes 46
blocks, authenticates and writes block 64, beyond the 64 blocks 0..63 of a 1K
tag. -/
theorem write_leaves_1k_range :
    ∃ calls blk, write okTransport (List.replicate 716 0) [] = some (true, calls)
      ∧ Call.MIFARE_Write 64 blk ∈ calls
      ∧ 64 ∈ (calls.filter Call.isAuth).map Call.addr := by
  obtain ⟨calls, hrun, hw, ha⟩ :=
    write_ok_long okTransport (fun _ _ => rfl) 716 (by decide) (by decide) []
  have hmem : 64 ∈ (writesOf calls).map Prod.fst := by
    rw [hw]
    decide
  obtain ⟨⟨a, blk⟩, hmem, h64⟩ := List.mem_map.1 hmem
  simp only at h64
  subst h64
  refine ⟨calls, blk, hrun, mem_of_mem_writesOf calls _ blk hmem, ?_⟩
  rw [ha]
  decide

/-- Claim C14, amended: `write` makes no capacity check. For every message of
at most 715 bytes, whose padded envelope takes at most 45 blocks, every block
address that `write` passes to the authenticate or write of the transport
lies in 4..62, within the 1K range; longer messages are written on into
blocks 64 and above. -/
theorem write_addrs_in_1k_range (t : Transport) (encoded : List Nat) (log : List Call)
    (hlen : encoded.length ≤ 715) :
    ∃ b calls, write t encoded log = some (b, log ++ calls)
      ∧ ∀ c ∈ calls, 4 ≤ c.addr ∧ c.addr ≤ 62 := by
  obtain ⟨b, calls, hrun, _, hwalk⟩ := write_shape t encoded log
  refine ⟨b, calls, hrun, fun c hc => ?_⟩
  have hm : ((writeFrame encoded).length + 15) / 16 ≤ 45 := by
    rw [writeFrame_length encoded (by omega)]
    split_ifs <;> omega
  obtain ⟨k, hk, hck⟩ := walkBy_orbit nextBlockByte _ 4 calls hwalk c hc
  rw [hck]
  exact nextBlockByte_orbit_1k k (by omega)

/-- An instance of `write_addrs_in_1k_range` at a concrete input. -/
theorem write_addrs_in_1k_range_witness :
    ([0xD0, 0x00, 0x00] : List Nat).length ≤ 715
    ∧ ∃ b calls, write okTransport [0xD0, 0x00, 0x00] [] = some (b, [] ++ calls)
      ∧ ∀ c ∈ calls, 4 ≤ c.addr ∧ c.addr ≤ 62 :=
  ⟨by decide, write_addrs_in_1k_range okTransport [0xD0, 0x00, 0x00] [] (by decide)⟩

end MifareClassic
end NDEF

namespace NDEF
namespace MifareClassic

/-- When a call of `read` fails, the tag is the one the three-argument and
the four-argument constructor build alike: Classic, not formatted, no
message. -/
theorem read_failed_tag {μ : Type} (parse : List Nat → μ) (t : Transport) (uid : List Nat)
    (log : List Call) :
    ∃ tag calls, read parse t uid log = some (tag, log ++ calls)
      ∧ (allOk t log calls ∨ tag = NfcTag.ofFormatted uid TagType.TYPE_MIFARE_CLASSIC false) := by
  obtain ⟨tag, calls, hrun, h⟩ := read_shape parse t uid log
  refine ⟨tag, calls, hrun, ?_⟩
  rcases h with ⟨_, _, htag⟩ | ⟨_, _, _, htag⟩ | ⟨ha, hr, hc, _⟩
    | ⟨ha, hr, ml, ms, walk, out, _, hc, hout, _, _, htag⟩
  · exact Or.inr htag
  · exact Or.inr htag
  · left
    rw [hc]
    exact ⟨ha, hr, trivial⟩
  · rcases hout with ⟨_, hall⟩ | ⟨hb, _⟩
    · left
      rw [hc, allOk_append]
      exact ⟨⟨ha, hr, trivial⟩, hall⟩
    · right
      cases out with
      | none => exact htag
      | some buffer => simp at hb

/-- Claim C15: whenever the first authentication of `read` (block 4, key A
`D3 F7 D3 F7 D3 F7`) fails, `read` returns, the authentication is its only
call, so no block is read, and the tag has type Classic, formatted = false and
no message. -/
theorem read_not_formatted {μ : Type} (parse : List Nat → μ) (t : Transport) (uid : List Nat)
    (log : List Call)
    (hfail : t.ok log
      (Call.PCD_Authenticate KeyType.A 4 [0xD3, 0xF7, 0xD3, 0xF7, 0xD3, 0xF7]) = false) :
    ∃ tag calls, read parse t uid log = some (tag, log ++ calls)
      ∧ calls = [Call.PCD_Authenticate KeyType.A 4 [0xD3, 0xF7, 0xD3, 0xF7, 0xD3, 0xF7]]
      ∧ readsOf calls = []
      ∧ tag.getTagType = TagType.TYPE_MIFARE_CLASSIC
      ∧ tag.isFormatted = false
      ∧ tag.hasNdefMessage = false
      ∧ tag._uid = uid := by
  obtain ⟨tag, calls, hrun, h⟩ := read_shape parse t uid log
  have hfail' : t.ok log (Call.PCD_Authenticate KeyType.A 4 ndefKey) = false := hfail
  rcases h with ⟨_, hc, htag⟩ | ⟨ha, _⟩ | ⟨ha, _⟩ | ⟨ha, _⟩
  · subst hc htag
    exact ⟨_, _, hrun, rfl, rfl, rfl, rfl, rfl, rfl⟩
  · rw [hfail'] at ha; exact absurd ha (by decide)
  · rw [hfail'] at ha; exact absurd ha (by decide)
  · rw [hfail'] at ha; exact absurd ha (by decide)

/-- An instance of `read_not_formatted` at a concrete input. -/
theorem read_not_formatted_witness :
    failTransport.ok []
        (Call.PCD_Authenticate KeyType.A 4 [0xD3, 0xF7, 0xD3, 0xF7, 0xD3, 0xF7]) = false
    ∧ ∃ (tag : NfcTag (List Nat)) (calls : List Call),
      read id failTransport [1, 2, 3, 4] [] = some (tag, [] ++ calls)
      ∧ calls = [Call.PCD_Authenticate KeyType.A 4 [0xD3, 0xF7, 0xD3, 0xF7, 0xD3, 0xF7]]
      ∧ readsOf calls = []
      ∧ tag.getTagType = TagType.TYPE_MIFARE_CLASSIC
      ∧ tag.isFormatted = false
      ∧ tag.hasNdefMessage = false
      ∧ tag._uid = [1, 2, 3, 4] :=
  ⟨rfl, read_not_formatted id failTransport [1, 2, 3, 4] [] rfl⟩

/-- Counterexample to claim C16 as stated: the tag `read` returns when the
first authentication fails (`failTransport`) equals, field by field, the tag
it returns when the first authentication succeeds and then the read of block
4 fails (`authOnlyTransport`), a read in the block walk fails
(`secondReadFailsTransport`), or an authentication in the block walk fails
(`secondAuthFailsTransport`). -/
theorem read_failures_indistinguishable :
    read id failTransport [1, 2, 3, 4] []
        = some (⟨[1, 2, 3, 4], TagType.TYPE_MIFARE_CLASSIC, (none : Option (List Nat)), false⟩,
            [Call.PCD_Authenticate KeyType.A 4 ndefKey])
    ∧ read id authOnlyTransport [1, 2, 3, 4] []
        = some (⟨[1, 2, 3, 4], TagType.TYPE_MIFARE_CLASSIC, (none : Option (List Nat)), false⟩,
            [Call.PCD_Authenticate KeyType.A 4 ndefKey, Call.MIFARE_Read 4])
    ∧ read id secondReadFailsTransport [1, 2, 3, 4] []
        = some (⟨[1, 2, 3, 4], TagType.TYPE_MIFARE_CLASSIC, (none : Option (List Nat)), false⟩,
            [Call.PCD_Authenticate KeyType.A 4 ndefKey, Call.MIFARE_Read 4,
              Call.PCD_Authenticate KeyType.A 4 ndefKey, Call.MIFARE_Read 4])
    ∧ read id secondAuthFailsTransport [1, 2, 3, 4] []
        = some (⟨[1, 2, 3, 4], TagType.TYPE_MIFARE_CLASSIC, (none : Option (List Nat)), false⟩,
            [Call.PCD_Authenticate KeyType.A 4 ndefKey, Call.MIFARE_Read 4,
              Call.PCD_Authenticate KeyType.A 4 ndefKey]) := by
  decide

/-- Claim C16, amended: `read` returns on every transport, and whenever one
of its calls fails, be it the first authentication, a block read or a later
sector authentication, the tag it returns is the same: type Classic,
formatted = false, no message. The outcomes are not told apart by any field
of the tag. -/
theorem read_failure_tags_coincide {μ : Type} (parse : List Nat → μ) (t : Transport)
    (uid : List Nat) (log : List Call) :
    ∃ tag calls, read parse t uid log = some (tag, log ++ calls)
      ∧ (allOk t log calls
        ∨ (tag = ⟨uid, TagType.TYPE_MIFARE_CLASSIC, none, false⟩
          ∧ tag.getTagType = TagType.TYPE_MIFARE_CLASSIC
          ∧ tag.isFormatted = false
          ∧ tag.hasNdefMessage = false)) := by
  obtain ⟨tag, calls, hrun, h⟩ := read_failed_tag parse t uid log
  refine ⟨tag, calls, hrun, ?_⟩
  rcases h with h | h
  · exact Or.inl h
  · subst h
    exact Or.inr ⟨rfl, rfl, rfl, rfl⟩

end MifareClassic
end NDEF

namespace NDEF

/-- What the outcome of a function that aborts at the first failed
authentication says in terms of single calls. -/
theorem authAbort_iff (t : Transport) (log : List Call) (b : Bool) (calls : List Call)
    (htrue : b = true → authsOk t log calls)
    (hfalse : b = false → ∃ pre c, calls = pre ++ [c] ∧ c.isAuth = true
      ∧ t.ok (log ++ pre) c = false ∧ authsOk t log pre) :
    (b = true ↔ authsOk t log calls)
    ∧ ∀ pre c post, calls = pre ++ c :: post → c.isAuth = true →
        t.ok (log ++ pre) c = false → post = [] ∧ b = false := by
  cases b with
  | true =>
    have hall := htrue rfl
    refine ⟨⟨fun _ => hall, fun _ => rfl⟩, ?_⟩
    intro pre c post hsplit hauth hfail
    rw [hsplit, authsOk_append] at hall
    have := hall.2.1 hauth
    rw [hfail] at this
    exact absurd this (by simp)
  | false =>
    obtain ⟨pre0, c0, hcalls, hauth0, hc0, hpre0⟩ := hfalse rfl
    have hnot : ¬ authsOk t log calls := by
      rw [hcalls, authsOk_append]
      intro h
      have := h.2.1 hauth0
      rw [hc0] at this
      exact absurd this (by simp)
    refine ⟨⟨fun h => absurd h (by simp), fun h => absurd h hnot⟩, ?_⟩
    intro pre c post hsplit hauth hfail
    rw [hcalls] at hsplit
    rcases List.append_eq_append_iff.mp hsplit with ⟨a', _, h2⟩ | ⟨c', h1, h2⟩
    · cases a' with
      | nil =>
        simp only [List.nil_append] at h2
        injection h2 with _ hpost
        exact ⟨hpost.symm, rfl⟩
      | cons x xs =>
        exfalso
        simp only [List.cons_append] at h2
        injection h2 with hx hxs
        cases xs <;> simp at hxs
    · cases c' with
      | nil =>
        simp only [List.nil_append] at h2
        injection h2 with _ hpost
        exact ⟨hpost, rfl⟩
      | cons x xs =>
        exfalso
        simp only [List.cons_append] at h2
        injection h2 with hx hxs
        subst hx
        rw [h1, authsOk_append] at hpre0
        have := hpre0.2.1 hauth
        rw [hfail] at this
        exact absurd this (by simp)

namespace MifareClassic

/-- Claim C17: `write` and `formatNDEF` return on every transport; each
returns `true` if and only if every call it issued succeeded, and a call that
fails is the last call issued and makes the result `false`. -/
theorem write_formatNDEF_all_or_nothing (t : Transport) (encoded : List Nat)
    (log : List Call) :
    (∃ b calls, write t encoded log = some (b, log ++ calls)
      ∧ (b = true ↔ allOk t log calls)
      ∧ ∀ pre c post, calls = pre ++ c :: post → t.ok (log ++ pre) c = false →
          post = [] ∧ b = false)
    ∧ (∃ b calls, formatNDEF t log = some (b, log ++ calls)
      ∧ (b = true ↔ allOk t log calls)
      ∧ ∀ pre c post, calls = pre ++ c :: post → t.ok (log ++ pre) c = false →
          post = [] ∧ b = false) := by
  constructor
  · obtain ⟨b, calls, hrun, hout, _⟩ := write_shape t encoded log
    exact ⟨b, calls, hrun, allOrNothing_iff t log b calls hout⟩
  · obtain ⟨b, calls, hrun, hout⟩ := formatNDEF_allOrNothing t log
    exact ⟨b, calls, hrun, allOrNothing_iff t log b calls hout⟩

/-- Counterexample to claim C18 as stated: on a transport where every call
succeeds, the one buffer `formatNDEF` writes to block 4 is
`03 03 D0 00 00 FE` followed by zeros. Its first three bytes are `03 03 D0`,
an NDEF TLV of length 3, not `03 00 FE`. -/
theorem formatNDEF_seed_is_not_empty_tlv :
    ∃ calls, formatNDEF okTransport [] = some (true, calls)
      ∧ (writesOf calls).filter (fun w => w.1 == 4)
          = [(4, [0x03, 0x03, 0xD0, 0x00, 0x00, 0xFE, 0x00, 0x00, 0x00, 0x00, 0x00, 0x00, 0x00,
              0x00, 0x00, 0x00])]
      ∧ ([0x03, 0x03, 0xD0, 0x00, 0x00, 0xFE, 0x00, 0x00, 0x00, 0x00, 0x00, 0x00, 0x00,
              0x00, 0x00, 0x00] : List Nat).take 3 ≠ [0x03, 0x00, 0xFE] := by
  obtain ⟨calls, hrun, hw, _⟩ := formatNDEF_ok_block4 okTransport (fun _ _ => rfl) []
  exact ⟨calls, hrun, hw, by decide⟩

/-- Claim C18, amended: on a transport where every call succeeds,
`formatNDEF` returns `true` and writes block 4 once, with the 16 bytes
`03 03 D0 00 00 FE 00 ... 00`: an NDEF TLV of length 3 that holds one empty
record `D0 00 00`, then the terminator `FE`. `decodeTlv` reads it as a message
of length 3 that starts at index 2. -/
theorem formatNDEF_seeds_empty_record (t : Transport) (hok : ∀ log c, t.ok log c = true)
    (log : List Call) :
    ∃ calls, formatNDEF t log = some (true, log ++ calls)
      ∧ (writesOf calls).filter (fun w => w.1 == 4)
          = [(4, [0x03, 0x03, 0xD0, 0x00, 0x00, 0xFE, 0x00, 0x00, 0x00, 0x00, 0x00, 0x00, 0x00,
              0x00, 0x00, 0x00])]
      ∧ decodeTlv [0x03, 0x03, 0xD0, 0x00, 0x00, 0xFE, 0x00, 0x00, 0x00, 0x00, 0x00, 0x00, 0x00,
              0x00, 0x00, 0x00] = some (3, 2) := by
  obtain ⟨calls, hrun, hw, _⟩ := formatNDEF_ok_block4 t hok log
  exact ⟨calls, hrun, hw, by decide⟩

/-- An instance of `formatNDEF_seeds_empty_record` at a concrete input. -/
theorem formatNDEF_seeds_empty_record_witness :
    ∃ calls, formatNDEF emptyRecordTransport [] = some (true, [] ++ calls)
      ∧ (writesOf calls).filter (fun w => w.1 == 4)
          = [(4, [0x03, 0x03, 0xD0, 0x00, 0x00, 0xFE, 0x00, 0x00, 0x00, 0x00, 0x00, 0x00, 0x00,
              0x00, 0x00, 0x00])]
      ∧ decodeTlv [0x03, 0x03, 0xD0, 0x00, 0x00, 0xFE, 0x00, 0x00, 0x00, 0x00, 0x00, 0x00, 0x00,
              0x00, 0x00, 0x00] = some (3, 2) :=
  formatNDEF_seeds_empty_record emptyRecordTransport (fun _ _ => rfl) []

/-- The run of `formatMifare` on any transport. -/
theorem formatMifare_shape (t : Transport) (log : List Call) :
    ∃ b calls, formatMifare t log = some (b, log ++ calls)
      ∧ (b = true ↔ authsOk t log calls)
      ∧ (∀ pre c post, calls = pre ++ c :: post → c.isAuth = true →
          t.ok (log ++ pre) c = false → post = [] ∧ b = false)
      ∧ (b = true → (calls.filter Call.isAuth).length = 16
          ∧ writesOf calls = ((List.range' 0 16).map formatMifareWrites).flatten) := by
  obtain ⟨b, calls, hrun, htrue, hfalse⟩ := formatMifareLoop_shape t 17 0 log (by omega) (by omega)
  have h := authAbort_iff t log b calls (fun hb => (htrue hb).1) hfalse
  exact ⟨b, calls, hrun, h.1, h.2, fun hb => ⟨(htrue hb).2.2, (htrue hb).2.1⟩⟩

/-- Claim C19: `formatMifare` returns on every transport, and returns `true`
exactly when every authentication it issues succeeds. In that case it has
authenticated 16 times and its writes are, in call order, one write to each
of the block addresses 1, 2, ..., 63 and none to block 0; a trailer block
(address `4s + 3`) receives `FF FF FF FF FF FF FF 07 80 69 FF FF FF FF FF FF`
and every other block receives 16 zero bytes. -/
theorem formatMifare_coverage (t : Transport) (log : List Call) :
    ∃ b calls, formatMifare t log = some (b, log ++ calls)
      ∧ (b = true ↔ authsOk t log calls)
      ∧ (b = true → (calls.filter Call.isAuth).length = 16
          ∧ writesOf calls = (List.range' 1 63).map (fun a =>
              (a, if a % 4 = 3 then
                    [0xFF, 0xFF, 0xFF, 0xFF, 0xFF, 0xFF, 0xFF, 0x07, 0x80, 0x69, 0xFF, 0xFF, 0xFF,
                      0xFF, 0xFF, 0xFF]
                  else List.replicate 16 0))) := by
  obtain ⟨b, calls, hrun, hiff, _, hw⟩ := formatMifare_shape t log
  refine ⟨b, calls, hrun, hiff, fun hb => ⟨(hw hb).1, ?_⟩⟩
  rw [(hw hb).2]
  decide

/-- Claim C20: `formatMifare` returns on every transport. It returns `true`
exactly when every authentication it issues succeeds, and then it has issued
16 of them; the results of the writes play no part: on every transport that
answers the authentications as `t` does, whatever it answers to the writes,
`formatMifare` returns the same result after the same calls. An
authentication that fails is the last call issued and makes the result
`false`. -/
theorem formatMifare_best_effort (t : Transport) (log : List Call) :
    ∃ b calls, formatMifare t log = some (b, log ++ calls)
      ∧ (b = true ↔ authsOk t log calls)
      ∧ (b = true → (calls.filter Call.isAuth).length = 16)
      ∧ (∀ t2 : Transport, (∀ l c, c.isAuth = true → t2.ok l c = t.ok l c) →
          formatMifare t2 log = some (b, log ++ calls))
      ∧ (∀ pre c post, calls = pre ++ c :: post → c.isAuth = true →
          t.ok (log ++ pre) c = false → post = [] ∧ b = false) := by
  obtain ⟨b, calls, hrun, hiff, hlast, hw⟩ := formatMifare_shape t log
  refine ⟨b, calls, hrun, hiff, fun hb => (hw hb).1, fun t2 h2 => ?_, hlast⟩
  rw [← hrun]
  exact formatMifareLoop_congr t2 t h2 17 0 log

end MifareClassic
end NDEF

namespace NDEF

/-! ## The empty message -/

/-- Counterexample to claim C21 as stated: the record with TNF Empty and
zero-length type, id and payload, encoded as first and last record, takes the
3 bytes `D0 00 00`, and the frame of `MifareClassic::write` for them is
`03 03 D0 00 00 FE` followed by zeros. The length byte of the TLV is `03`, not
`00`. -/
theorem empty_record_tlv_length_is_three :
    NdefRecord.empty.getEncodedSize = 3
    ∧ NdefRecord.empty.encode (List.replicate 3 0) true true = [0xD0, 0x00, 0x00]
    ∧ MifareClassic.writeFrame (NdefRecord.empty.encode (List.replicate 3 0) true true)
        = [0x03, 0x03, 0xD0, 0x00, 0x00, 0xFE, 0x00, 0x00, 0x00, 0x00, 0x00, 0x00, 0x00, 0x00,
            0x00, 0x00]
    ∧ (MifareClassic.writeFrame
        (NdefRecord.empty.encode (List.replicate 3 0) true true)).getD 1 0 ≠ 0x00 := by
  decide

/-- Claim C21, amended: the record with TNF Empty and zero-length type, id and
payload has encoded size 3; encoded as first and last record into any 3-byte
array it gives `D0 00 00`, and the write frame of either driver for these
bytes is the TLV with tag byte `03`, length byte `03`, the three bytes
`D0 00 00` and the terminator `FE`, followed by zeros. -/
theorem empty_message_frame (data : List Nat) (h : data.length = 3) :
    NdefRecord.empty.getEncodedSize = 3
    ∧ NdefRecord.empty.encode data true true = [0xD0, 0x00, 0x00]
    ∧ MifareClassic.writeFrame (NdefRecord.empty.encode data true true)
        = [0x03, 0x03, 0xD0, 0x00, 0x00, 0xFE, 0x00, 0x00, 0x00, 0x00, 0x00, 0x00, 0x00, 0x00,
            0x00, 0x00]
    ∧ MifareUltralight.writeFrame (NdefRecord.empty.encode data true true)
        = [0x03, 0x03, 0xD0, 0x00, 0x00, 0xFE, 0x00, 0x00, 0x00, 0x00, 0x00, 0x00, 0x00, 0x00,
            0x00, 0x00, 0x00, 0x00] := by
  match data, h with
  | [a, b, c], _ =>
    have henc : NdefRecord.empty.encode [a, b, c] true true = [0xD0, 0x00, 0x00] := rfl
    rw [henc]
    decide

/-- An instance of `empty_message_frame` at a concrete input. -/
theorem empty_message_frame_witness :
    NdefRecord.empty.getEncodedSize = 3
    ∧ NdefRecord.empty.encode [0xAA, 0xBB, 0xCC] true true = [0xD0, 0x00, 0x00]
    ∧ MifareClassic.writeFrame (NdefRecord.empty.encode [0xAA, 0xBB, 0xCC] true true)
        = [0x03, 0x03, 0xD0, 0x00, 0x00, 0xFE, 0x00, 0x00, 0x00, 0x00, 0x00, 0x00, 0x00, 0x00,
            0x00, 0x00]
    ∧ MifareUltralight.writeFrame (NdefRecord.empty.encode [0xAA, 0xBB, 0xCC] true true)
        = [0x03, 0x03, 0xD0, 0x00, 0x00, 0xFE, 0x00, 0x00, 0x00, 0x00, 0x00, 0x00, 0x00, 0x00,
            0x00, 0x00, 0x00, 0x00] :=
  empty_message_frame [0xAA, 0xBB, 0xCC] rfl

end NDEF

namespace NDEF
namespace MifareUltralight

/-! ## MifareUltralight: locating the TLV and the empty message -/

theorem isUnformatted_log (t : Transport) (log : List Call) :
    (isUnformatted t log).2 = log ++ [Call.MIFARE_Read 4] := by
  unfold isUnformatted
  dsimp only
  split_ifs <;> rfl

theorem readTagSize_log (t : Transport) (log : List Call) :
    (readTagSize t log).2 = log ++ [Call.MIFARE_Read 3] := by
  unfold readTagSize
  dsimp only
  split_ifs <;> rfl

theorem findNdefMessage_log (t : Transport) (messageLength ndefStartIndex : Nat)
    (log : List Call) :
    (findNdefMessage t messageLength ndefStartIndex log).2.2 = log ++ [Call.MIFARE_Read 4] := by
  unfold findNdefMessage
  dsimp only
  split_ifs <;> rfl

/-- When the tag is not taken for unformatted and the located message length
is 0, `read` returns after the two reads of page 4 with the message that
`NdefMessage()` and `addEmptyRecord()` build. -/
theorem read_of_zero_length (parse : List Nat → NdefMessage) (t : Transport) (uid : List Nat)
    (log : List Call) (hform : (isUnformatted t log).1 = false)
    (hlen : (findNdefMessage t 0 0 (isUnformatted t log).2).1 = 0) :
    read parse t uid log
      = some (NfcTag.ofMessage uid TagType.TYPE_2 NdefMessage.new.addEmptyRecord,
          log ++ [Call.MIFARE_Read 4, Call.MIFARE_Read 4]) := by
  unfold read
  dsimp only
  rw [if_neg (by rw [hform]; decide), if_pos hlen, findNdefMessage_log, isUnformatted_log,
    List.append_assoc]
  rfl

/-- Claim C22: for every transport on which `isUnformatted` answers `false`
(page 4 is not read as `FF FF FF FF`) and `findNdefMessage` then locates the
message length 0, `read` returns a tag of type `TYPE_2` whose message holds
exactly one record, the empty record; the only transport calls of `read` are
the read of page 4 of the format check and the read of page 4 of
`findNdefMessage`, so the streaming loop reads no page. -/
theorem read_empty_message (parse : List Nat → NdefMessage) (t : Transport) (uid : List Nat)
    (log : List Call) (hform : (isUnformatted t log).1 = false)
    (hlen : (findNdefMessage t 0 0 (isUnformatted t log).2).1 = 0) :
    ∃ tag calls, read parse t uid log = some (tag, log ++ calls)
      ∧ calls = [Call.MIFARE_Read 4, Call.MIFARE_Read 4]
      ∧ tag.getTagType = TagType.TYPE_2
      ∧ tag._ndefMessage = some ⟨[⟨TNF.TNF_EMPTY, [], [], []⟩]⟩
      ∧ tag.hasNdefMessage = true
      ∧ tag._uid = uid :=
  ⟨_, _, read_of_zero_length parse t uid log hform hlen, rfl, rfl, rfl, rfl, rfl⟩

/-- An instance of `read_empty_message` at a concrete input: page 4 holds
`03 00 FE 00`. -/
theorem read_empty_message_witness :
    (isUnformatted (ultralightTag 6 [0x03, 0x00, 0xFE, 0x00]) []).1 = false
    ∧ (findNdefMessage (ultralightTag 6 [0x03, 0x00, 0xFE, 0x00]) 0 0
        (isUnformatted (ultralightTag 6 [0x03, 0x00, 0xFE, 0x00]) []).2).1 = 0
    ∧ ∃ tag calls, read (fun _ => ⟨[]⟩) (ultralightTag 6 [0x03, 0x00, 0xFE, 0x00]) [1, 2, 3] []
          = some (tag, [] ++ calls)
      ∧ calls = [Call.MIFARE_Read 4, Call.MIFARE_Read 4]
      ∧ tag.getTagType = TagType.TYPE_2
      ∧ tag._ndefMessage = some ⟨[⟨TNF.TNF_EMPTY, [], [], []⟩]⟩
      ∧ tag.hasNdefMessage = true
      ∧ tag._uid = [1, 2, 3] :=
  ⟨by decide, by decide,
    read_empty_message (fun _ => ⟨[]⟩) (ultralightTag 6 [0x03, 0x00, 0xFE, 0x00]) [1, 2, 3] []
      (by decide) (by decide)⟩

/-- Claim C23: `findNdefMessage` makes one read of page 4. When the read
succeeds with `data[0] = 0x03` it yields `(data[1], 2)`; otherwise, when the
read succeeds with `data[5] = 0x03`, it yields `(data[6], 7)`; in every other
case, a failed read included, both outputs keep the values they had. In
`read` these values are 0, and then, once `isUnformatted` has answered
`false`, `read` returns a `TYPE_2` tag with the message that `NdefMessage()`
and `addEmptyRecord()` build, the message with one empty record. -/
theorem findNdefMessage_locate (t : Transport) (log : List Call) :
    (∀ messageLength ndefStartIndex,
      findNdefMessage t messageLength ndefStartIndex log
        = (if t.ok log (Call.MIFARE_Read 4) = true
              ∧ ((t.readData log 4).map toByte).getD 0 0 = 0x03 then
            (((t.readData log 4).map toByte).getD 1 0, 2, log ++ [Call.MIFARE_Read 4])
          else if t.ok log (Call.MIFARE_Read 4) = true
              ∧ ((t.readData log 4).map toByte).getD 5 0 = 0x03 then
            (((t.readData log 4).map toByte).getD 6 0, 7, log ++ [Call.MIFARE_Read 4])
          else (messageLength, ndefStartIndex, log ++ [Call.MIFARE_Read 4])))
    ∧ ∀ (parse : List Nat → NdefMessage) (uid : List Nat) (before : List Call),
        (isUnformatted t before).1 = false → log = before ++ [Call.MIFARE_Read 4] →
        ¬ (t.ok log (Call.MIFARE_Read 4) = true
            ∧ ((t.readData log 4).map toByte).getD 0 0 = 0x03) →
        ¬ (t.ok log (Call.MIFARE_Read 4) = true
            ∧ ((t.readData log 4).map toByte).getD 5 0 = 0x03) →
        read parse t uid before
          = some (NfcTag.ofMessage uid TagType.TYPE_2 NdefMessage.new.addEmptyRecord,
              log ++ [Call.MIFARE_Read 4]) := by
  have hfind : ∀ messageLength ndefStartIndex,
      findNdefMessage t messageLength ndefStartIndex log
        = (if t.ok log (Call.MIFARE_Read 4) = true
              ∧ ((t.readData log 4).map toByte).getD 0 0 = 0x03 then
            (((t.readData log 4).map toByte).getD 1 0, 2, log ++ [Call.MIFARE_Read 4])
          else if t.ok log (Call.MIFARE_Read 4) = true
              ∧ ((t.readData log 4).map toByte).getD 5 0 = 0x03 then
            (((t.readData log 4).map toByte).getD 6 0, 7, log ++ [Call.MIFARE_Read 4])
          else (messageLength, ndefStartIndex, log ++ [Call.MIFARE_Read 4])) := by
    intro messageLength ndefStartIndex
    unfold findNdefMessage
    dsimp only
    by_cases hs : t.ok log (Call.MIFARE_Read 4) = true
    · by_cases h0 : ((t.readData log 4).map toByte).getD 0 0 = 0x03
      · rw [if_pos hs, if_pos h0, if_pos ⟨hs, h0⟩]
      · by_cases h5 : ((t.readData log 4).map toByte).getD 5 0 = 0x03
        · rw [if_pos hs, if_neg h0, if_pos h5, if_neg (fun h => h0 h.2), if_pos ⟨hs, h5⟩]
        · rw [if_pos hs, if_neg h0, if_neg h5, if_neg (fun h => h0 h.2),
            if_neg (fun h => h5 h.2)]
    · rw [if_neg hs, if_neg (fun h => hs h.1), if_neg (fun h => hs h.1)]
  refine ⟨hfind, ?_⟩
  intro parse uid before hform hlog h0 h5
  have hlog2 : (isUnformatted t before).2 = log := by rw [isUnformatted_log, hlog]
  have hlen : (findNdefMessage t 0 0 (isUnformatted t before).2).1 = 0 := by
    rw [hlog2, hfind, if_neg h0, if_neg h5]
  rw [read_of_zero_length parse t uid before hform hlen, hlog, List.append_assoc]
  rfl

end MifareUltralight
end NDEF

namespace NDEF

theorem getD_map_toByte_lt (l : List Nat) (i : Nat) : (l.map toByte).getD i 0 < 256 := by
  rw [List.getD_eq_getElem?_getD, List.getElem?_map]
  cases l[i]? with
  | none => simp
  | some v => simp [toByte]; omega

namespace MifareUltralight

/-! ## MifareUltralight: write -/

/-- Claim C24, the code at the failing input: a formatted tag whose page 3
holds `E1 10 02 00`, so that the capacity is `8 * 2 = 16` bytes, and the
3-byte message `D0 00 00`, whose buffer of `calculateBufferSize(3, 2) = 18`
bytes exceeds the capacity. `isUnformatted` answers `false` after its read of
page 4, so `write` calls `readTagSize`. The read of page 3 succeeds and
stores its 18 bytes at the offsets 0 to 17 of the array `data`, which has
`ULTRALIGHT_PAGE_SIZE = 4` elements: 14 bytes are stored behind the array
before `write` compares the buffer size with the capacity. On the same path
the length of a message of 65536 bytes becomes 0 in the `uint16_t`, and the
array `encoded`, which is to take the 65536 bytes, gets 18 bytes. -/
theorem readTagSize_stores_past_data :
    isUnformatted (ultralightTag 2 [0x03, 0x00, 0xFE, 0x00]) [] = (false, [Call.MIFARE_Read 4])
    ∧ toUInt16 ([0xD0, 0x00, 0x00] : List Nat).length = 3
    ∧ calculateBufferSize 3 2 = 18
    ∧ 18 > 8 * 2
    ∧ readTagSizeStores (ultralightTag 2 [0x03, 0x00, 0xFE, 0x00]) [Call.MIFARE_Read 4]
        = [(0, 0xE1), (1, 0x10), (2, 0x02), (3, 0x00), (4, 0x03), (5, 0x00), (6, 0xFE),
            (7, 0x00), (8, 0), (9, 0), (10, 0), (11, 0), (12, 0), (13, 0), (14, 0), (15, 0),
            (16, 0x9A), (17, 0x3C)]
    ∧ ULTRALIGHT_PAGE_SIZE = 4
    ∧ ((readTagSizeStores (ultralightTag 2 [0x03, 0x00, 0xFE, 0x00])
          [Call.MIFARE_Read 4]).filter
        (fun st => decide (ULTRALIGHT_PAGE_SIZE ≤ st.1))).length = 14
    ∧ toUInt16 65536 = 0
    ∧ calculateBufferSize (toUInt16 65536) 2 = 18 := by
  decide

/-- Claim C25, the code at the failing input: the 3-byte message `D0 00 00`
for a formatted tag of capacity `8 * 6 = 48` bytes, with the bytes `AA BB`
behind the array `encoded`, on a transport where every call succeeds. The
array has `calculateBufferSize(3, 2) = 18` bytes, which is within the
capacity and is not a multiple of the page size 4. After the reads of the
pages 4 and 3 the loop sends 5 units, to the pages 4 to 8, and returns
`true`; the unit for page 8 is copied from the offsets 16 to 19 of the array,
and its bytes 2 and 3, `AA BB`, come from behind the 18 bytes of the
array. -/
theorem write_last_unit_reads_past_encoded :
    toUInt16 ([0xD0, 0x00, 0x00] : List Nat).length = 3
    ∧ calculateBufferSize 3 2 = 18
    ∧ 18 ≤ 8 * 6
    ∧ 18 % ULTRALIGHT_PAGE_SIZE = 2
    ∧ writeFrame [0xD0, 0x00, 0x00]
        = [0x03, 0x03, 0xD0, 0x00, 0x00, 0xFE, 0, 0, 0, 0, 0, 0, 0, 0, 0, 0, 0, 0]
    ∧ writeLoop (ultralightTag 6 [0x03, 0x00, 0xFE, 0x00])
          (writeFrame [0xD0, 0x00, 0x00] ++ [0xAA, 0xBB]) 18 19 0 ULTRALIGHT_DATA_START_PAGE
          [Call.MIFARE_Read 4, Call.MIFARE_Read 3]
        = some (true,
            [Call.MIFARE_Read 4, Call.MIFARE_Read 3,
              Call.MIFARE_Write 4 [0x03, 0x03, 0xD0, 0x00, 0, 0, 0, 0, 0, 0, 0, 0, 0, 0, 0, 0],
              Call.MIFARE_Write 5 [0x00, 0xFE, 0x00, 0x00, 0, 0, 0, 0, 0, 0, 0, 0, 0, 0, 0, 0],
              Call.MIFARE_Write 6 [0x00, 0x00, 0x00, 0x00, 0, 0, 0, 0, 0, 0, 0, 0, 0, 0, 0, 0],
              Call.MIFARE_Write 7 [0x00, 0x00, 0x00, 0x00, 0, 0, 0, 0, 0, 0, 0, 0, 0, 0, 0, 0],
              Call.MIFARE_Write 8 [0x00, 0x00, 0xAA, 0xBB, 0, 0, 0, 0, 0, 0, 0, 0, 0, 0, 0, 0]])
    ∧ (writeFrame [0xD0, 0x00, 0x00]).length < 16 + 4 := by
  decide

end MifareUltralight
end NDEF

namespace NDEF
namespace MifareUltralight

/-! ## MifareUltralight: clean and the page stream of read -/

/-- Claim C26, the code at the failing input: page 3 has `data[2] = 126`, so
the capacity is 1008 bytes, 252 pages. The page bound `1008 / 4 + 4 = 256` is
stored in the `uint8_t` `pages` and becomes 0: `clean` makes no
`MIFARE_Write` at all, where the pages 4 to 255 were to be zeroed, and returns
`true`. -/
theorem clean_page_count_wraps :
    (readTagSize (ultralightTag 126 []) []).1 = 8 * 126
    ∧ 8 * 126 / ULTRALIGHT_PAGE_SIZE + ULTRALIGHT_DATA_START_PAGE = 256
    ∧ toByte (8 * 126 / ULTRALIGHT_PAGE_SIZE + ULTRALIGHT_DATA_START_PAGE) = 0
    ∧ clean (ultralightTag 126 []) [] = some (true, [Call.MIFARE_Read 3]) := by
  decide

/-- Claim C29, the code at the failing input: the pages from 4 on hold
`03 03 D0 00 00 FE`, the empty-record message, so the message length is 3, the
start index 2 and the buffer has `calculateBufferSize(3, 2) = 18` bytes. The
loop reads the pages 4, 5 and 6 and stores the 18 bytes of each read at the
offsets 0, 4 and 8: the second store ends at offset 22 and the third at offset
26, beyond the 18 bytes of the buffer. -/
theorem readStream_stores_past_buffer :
    (isUnformatted (ultralightTag 6 [0x03, 0x03, 0xD0, 0x00, 0x00, 0xFE]) []).1 = false
    ∧ findNdefMessage (ultralightTag 6 [0x03, 0x03, 0xD0, 0x00, 0x00, 0xFE]) 0 0
          [Call.MIFARE_Read 4]
        = (3, 2, [Call.MIFARE_Read 4, Call.MIFARE_Read 4])
    ∧ calculateBufferSize 3 2 = 18
    ∧ readStream (ultralightTag 6 [0x03, 0x03, 0xD0, 0x00, 0x00, 0xFE]) 3 2 18
          [Call.MIFARE_Read 4, Call.MIFARE_Read 4]
        = some (some [0x03, 0x03, 0xD0, 0x00, 0x00, 0xFE, 0, 0, 0, 0, 0, 0, 0, 0, 0, 0, 0, 0],
            [0, 4, 8],
            [Call.MIFARE_Read 4, Call.MIFARE_Read 4, Call.MIFARE_Read 4, Call.MIFARE_Read 5,
              Call.MIFARE_Read 6])
    ∧ 4 + 18 > 18 ∧ 8 + 18 > 18 := by
  decide

end MifareUltralight

/-! ## NfcTag: copy assignment -/

/-- Claim C30, the code at the failing input: `a` is built by the
three-argument constructor (no message, not formatted), `b` by the constructor
that takes a message (formatted). After `a = b` the tag `a` has the message of
`b` while its formatted flag is still `false`, and differs from that of
`b`. -/
theorem assign_keeps_formatted_flag :
    NfcTag.assign (NfcTag.ofType [1, 2, 3] TagType.TYPE_2)
        (NfcTag.ofMessage [4, 5, 6] TagType.TYPE_2 NdefMessage.new.addEmptyRecord)
      = some ⟨[4, 5, 6], TagType.TYPE_2, some ⟨[NdefRecord.empty]⟩, false⟩
    ∧ (⟨[4, 5, 6], TagType.TYPE_2, some ⟨[NdefRecord.empty]⟩, false⟩
        : NfcTag NdefMessage).hasNdefMessage = true
    ∧ (⟨[4, 5, 6], TagType.TYPE_2, some ⟨[NdefRecord.empty]⟩, false⟩
        : NfcTag NdefMessage).isFormatted = false
    ∧ (NfcTag.ofMessage [4, 5, 6] TagType.TYPE_2 NdefMessage.new.addEmptyRecord).isFormatted
        = true := by
  decide

namespace MifareClassic

/-! ## MifareClassic: the indices read by the TLV decoder -/

end MifareClassic
end NDEF

namespace NDEF

/-! ## The block addresses of a walk -/

theorem readsOf_append (a b : List Call) : readsOf (a ++ b) = readsOf a ++ readsOf b := by
  induction a with
  | nil => rfl
  | cons c cs ih => cases c <;> simp [readsOf, ih]

theorem readsOf_authPart (cb : Nat) (auths : List Call) (h : AuthPart cb auths) :
    readsOf auths = [] := by
  rcases h with ⟨_, rfl⟩ | ⟨_, a, rfl, ha, _⟩
  · rfl
  · cases a with
    | PCD_Authenticate k b key => rfl
    | MIFARE_Read b => exact nomatch ha
    | MIFARE_Write b buf => exact nomatch ha

/-- A walk over at most `m` blocks reads at most `m` blocks, and when it reads
`m` blocks these are the first `m` blocks of the orbit of `next` from the start
block. -/
theorem walkBy_reads (next : Nat → Nat) (m cb : Nat) (calls : List Call)
    (h : WalkBy next m cb calls) :
    (readsOf calls).length ≤ m
      ∧ ((readsOf calls).length = m → readsOf calls = List.iterate next cb m) := by
  induction h with
  | done m cb =>
    refine ⟨Nat.zero_le _, fun h => ?_⟩
    have hm : m = 0 := h.symm
    subst hm
    rfl
  | authFailed m cb a _ ha _ =>
    have hr : readsOf [a] = [] := by
      cases a with
      | PCD_Authenticate k b key => rfl
      | MIFARE_Read b => exact nomatch ha
      | MIFARE_Write b buf => exact nomatch ha
    rw [hr]
    exact ⟨Nat.zero_le _, fun h => absurd h (by simp)⟩
  | step m cb auths d rest hauth _ haddr _ ih =>
    have hsplit : readsOf (auths ++ d :: rest) = readsOf [d] ++ readsOf rest := by
      rw [readsOf_append, readsOf_authPart cb auths hauth, List.nil_append]
      exact readsOf_append [d] rest
    rw [hsplit]
    cases d with
    | PCD_Authenticate k b key =>
      simp only [readsOf, List.nil_append]
      exact ⟨by omega, fun h => by omega⟩
    | MIFARE_Write b buf =>
      simp only [readsOf, List.nil_append]
      exact ⟨by omega, fun h => by omega⟩
    | MIFARE_Read b =>
      have hb : b = cb := haddr
      subst hb
      simp only [readsOf, List.singleton_append, List.length_cons]
      refine ⟨by omega, fun h => ?_⟩
      rw [ih.2 (by omega)]
      rfl

theorem getD_iterate (f : Nat → Nat) (a m k : Nat) (h : k < m) :
    (List.iterate f a m).getD k 0 = f^[k] a := by
  rw [List.getD_eq_getElem _ _ (by rw [List.length_iterate]; exact h), List.getElem_iterate]

namespace MifareClassic

/-! ## MifareClassic: the block walk on a transport that never fails -/

set_option maxRecDepth 100000 in
theorem nextBlock_orbit_formula : ∀ k, k < 93 → nextBlock^[k] 4 = 4 + k + k / 3 := by
  decide

set_option maxRecDepth 100000 in
theorem nextBlockByte_orbit_formula : ∀ k, k < 93 → nextBlockByte^[k] 4 = 4 + k + k / 3 := by
  decide

/-- The 18 bytes that a successful read stores into a zeroed 18-byte array. -/
theorem block_read_eq (src : List Nat) :
    applyStores (List.replicate (BLOCK_SIZE + 2) 0) (memcpy 0 src 18)
      = (List.range 18).map (fun k => src.getD k 0) := by
  have hm : memcpy 0 src 18 = List.enumFrom 0 ((List.range 18).map (fun k => src.getD k 0)) := by
    rfl
  rw [hm, applyStores_enumFrom _ _ _ (by simp)]
  simp

/-- A message length that `decodeTlv` takes from a block of bytes fits in 16
bits. -/
theorem decodeTlv_length_le (data : List Nat) (hb : ∀ b ∈ data, b < 256)
    (messageLength messageStartIndex : Nat)
    (h : decodeTlv data = some (messageLength, messageStartIndex)) :
    messageLength ≤ 65535 := by
  have hbyte : ∀ k, data.getD k 0 < 256 := by
    intro k
    rcases Nat.lt_or_ge k data.length with hk | hk
    · rw [List.getD_eq_getElem _ _ hk]
      exact hb _ (List.getElem_mem _)
    · rw [List.getD_eq_default _ _ hk]; decide
  rcases getNdefStartIndex_cases data with ⟨e, _⟩ | ⟨e, _⟩ | ⟨k, hk, _, h3, hz⟩
  · unfold decodeTlv at h
    simp [e] at h
  · unfold decodeTlv at h
    simp [e] at h
  · rw [decodeTlv_of_tag data hb k hk h3 hz] at h
    have h1 := hbyte (k + 1)
    have h2 := hbyte (k + 2)
    have h3 := hbyte (k + 3)
    split_ifs at h <;> simp only [Option.some.injEq, Prod.mk.injEq] at h <;> omega

end MifareClassic
end NDEF

namespace NDEF
namespace MifareClassic

/-- On a transport that never fails, once `decodeTlv` has decoded block 4,
`read` authenticates and reads block 4 and then, in its block walk, reads the
first `getBufferSize(messageLength) / 16` blocks of the orbit of `nextBlock`
from block 4, each address taken modulo 256. -/
theorem read_ok_walk {μ : Type} (parse : List Nat → μ) (t : Transport)
    (hok : ∀ log c, t.ok log c = true) (uid : List Nat) (log : List Call)
    (messageLength messageStartIndex : Nat)
    (hdec : decodeTlv (applyStores (List.replicate (BLOCK_SIZE + 2) 0)
        (memcpy 0 ((t.readData (log ++ [Call.PCD_Authenticate KeyType.A 4 ndefKey])
          4).map toByte) 18)) = some (messageLength, messageStartIndex)) :
    ∃ tag walk, read parse t uid log
        = some (tag, log ++ [Call.PCD_Authenticate KeyType.A 4 ndefKey, Call.MIFARE_Read 4]
            ++ walk)
      ∧ readsOf walk
          = (List.iterate nextBlock 4
              ((getBufferSize (messageLength : Int)).toNat / 16)).map toByte := by
  have hle : messageLength ≤ 65535 := by
    rw [block_read_eq] at hdec
    refine decodeTlv_length_le _ ?_ messageLength messageStartIndex hdec
    intro b hb
    obtain ⟨k, _, rfl⟩ := List.mem_map.1 hb
    exact getD_map_toByte_lt _ k
  have hG := getBufferSize_eq (messageLength : Int) (by omega) (by omega)
  have hm : ((toInt32 (getBufferSize (messageLength : Int) + 2) - 2).toNat + 15) / 16
      = (getBufferSize (messageLength : Int)).toNat / 16 := by
    rw [toInt32_of_range _ (by rw [hG]; split_ifs <;> omega) (by rw [hG]; split_ifs <;> omega)]
    rw [hG]
    split_ifs <;> omega
  obtain ⟨out, walk, hrun, hout, hwalk, hcount⟩ :=
    readLoop_shape t (toInt32 (getBufferSize messageLength + 2))
      ((toInt32 (getBufferSize messageLength + 2)).toNat + 1) 0 4
      (List.replicate (toInt32 (getBufferSize messageLength + 2)).toNat 0)
      (log ++ [Call.PCD_Authenticate KeyType.A 4 ndefKey] ++ [Call.MIFARE_Read 4])
      (by omega)
  simp only [Nat.sub_zero] at hwalk hcount
  rw [hm] at hwalk hcount
  have hsome : out.isSome = true := by
    rcases hout with ⟨hb, _⟩ | ⟨_, pre, c, _, _, hcf⟩
    · exact hb
    · rw [hok] at hcf; exact absurd hcf (by decide)
  have hreads := hcount hsome
  have hcalls : log ++ [Call.PCD_Authenticate KeyType.A 4 ndefKey] ++ [Call.MIFARE_Read 4]
      ++ walk = log ++ [Call.PCD_Authenticate KeyType.A 4 ndefKey, Call.MIFARE_Read 4]
        ++ walk := by
    simp only [List.append_assoc, List.singleton_append]
  unfold read
  dsimp only
  rw [if_pos (hok _ _), if_neg (by rw [hok]; decide), hdec]
  dsimp only
  rw [hrun]
  cases out with
  | none => exact absurd hsome (by decide)
  | some buffer => exact ⟨_, walk, by rw [hcalls], hreads⟩

/-- Claim C27: on a transport where every call succeeds, the walk of `write`
for a message of `n ≤ 65535` bytes writes `getBufferSize(n) / 16` blocks, and
the block walk of `read`, which follows the authentication and the read of
block 4 once `decodeTlv` has given the message length, reads
`getBufferSize(messageLength) / 16` blocks. In both walks the `k`-th block
(0-based) is at address `4 + k + k / 3` for every `k < 93`; these addresses
are exactly the non-trailer blocks from 4 to 126 in increasing order. -/
theorem block_walk_addresses {μ : Type} (parse : List Nat → μ) (t : Transport)
    (hok : ∀ log c, t.ok log c = true) (uid encoded : List Nat) (log : List Call)
    (hn : encoded.length ≤ 65535) (messageLength messageStartIndex : Nat)
    (hdec : decodeTlv (applyStores (List.replicate (BLOCK_SIZE + 2) 0)
        (memcpy 0 ((t.readData (log ++ [Call.PCD_Authenticate KeyType.A 4 ndefKey])
          4).map toByte) 18)) = some (messageLength, messageStartIndex)) :
    (∃ tag walk, read parse t uid log
        = some (tag, log ++ [Call.PCD_Authenticate KeyType.A 4 ndefKey, Call.MIFARE_Read 4]
            ++ walk)
      ∧ (readsOf walk).length = (getBufferSize (messageLength : Int)).toNat / 16
      ∧ ∀ k, k < (readsOf walk).length → k < 93 → (readsOf walk).getD k 0 = 4 + k + k / 3)
    ∧ (∃ calls, write t encoded log = some (true, log ++ calls)
      ∧ (writesOf calls).length = (getBufferSize (encoded.length : Int)).toNat / 16
      ∧ ∀ k, k < (writesOf calls).length → k < 93 →
          ((writesOf calls).map Prod.fst).getD k 0 = 4 + k + k / 3)
    ∧ (List.range 93).map (fun k => 4 + k + k / 3)
        = (List.range' 4 123).filter (fun a => decide (¬ isTrailer a)) := by
  refine ⟨?_, ?_, by decide⟩
  · obtain ⟨tag, walk, hrun, hreads⟩ :=
      read_ok_walk parse t hok uid log messageLength messageStartIndex hdec
    refine ⟨tag, walk, hrun, by rw [hreads, List.length_map, List.length_iterate], ?_⟩
    intro k hk hk93
    rw [hreads, List.length_map, List.length_iterate] at hk
    rw [hreads, List.getD_eq_getElem _ _ (by rw [List.length_map, List.length_iterate]; exact hk),
      List.getElem_map, List.getElem_iterate, nextBlock_orbit_formula k hk93]
    exact Nat.mod_eq_of_lt (by omega)
  · obtain ⟨calls, hrun, haddr, _⟩ := write_ok_addrs t hok encoded log
    have hm : ((writeFrame encoded).length + 15) / 16
        = (getBufferSize (encoded.length : Int)).toNat / 16 := by
      rw [writeFrame_length encoded hn, getBufferSize_toNat encoded.length hn]
      split_ifs <;> omega
    rw [hm] at haddr
    have hlen : (writesOf calls).length = (getBufferSize (encoded.length : Int)).toNat / 16 := by
      have := congrArg List.length haddr
      rwa [List.length_map, List.length_iterate] at this
    refine ⟨calls, hrun, hlen, ?_⟩
    intro k hk hk93
    rw [hlen] at hk
    rw [haddr, getD_iterate nextBlockByte 4 _ k hk, nextBlockByte_orbit_formula k hk93]

/-- An instance of `block_walk_addresses` at a concrete input: every read
delivers a block with the 3-byte empty-record message, and the same 3 bytes
are written. -/
theorem block_walk_addresses_witness :
    ([0xD0, 0x00, 0x00] : List Nat).length ≤ 65535
    ∧ decodeTlv (applyStores (List.replicate (BLOCK_SIZE + 2) 0)
        (memcpy 0 ((emptyRecordTransport.readData
          ([] ++ [Call.PCD_Authenticate KeyType.A 4 ndefKey]) 4).map toByte) 18)) = some (3, 2)
    ∧ (∃ (tag : NfcTag (List Nat)) (walk : List Call),
        read id emptyRecordTransport [1, 2, 3, 4] []
          = some (tag, [] ++ [Call.PCD_Authenticate KeyType.A 4 ndefKey, Call.MIFARE_Read 4]
              ++ walk)
      ∧ (readsOf walk).length = (getBufferSize ((3 : Nat) : Int)).toNat / 16
      ∧ ∀ k, k < (readsOf walk).length → k < 93 → (readsOf walk).getD k 0 = 4 + k + k / 3)
    ∧ (∃ calls, write emptyRecordTransport [0xD0, 0x00, 0x00] [] = some (true, [] ++ calls)
      ∧ (writesOf calls).length
          = (getBufferSize ((([0xD0, 0x00, 0x00] : List Nat).length : Nat) : Int)).toNat / 16
      ∧ ∀ k, k < (writesOf calls).length → k < 93 →
          ((writesOf calls).map Prod.fst).getD k 0 = 4 + k + k / 3)
    ∧ (List.range 93).map (fun k => 4 + k + k / 3)
        = (List.range' 4 123).filter (fun a => decide (¬ isTrailer a)) :=
  ⟨by decide, by decide,
    block_walk_addresses id emptyRecordTransport (fun _ _ => rfl) [1, 2, 3, 4]
      [0xD0, 0x00, 0x00] [] (by decide) 3 2 (by decide)⟩

end MifareClassic
end NDEF
